import Mathlib

/-!
# Step barrier, participant registry and boundary channel of `ng_shared_parallel/main.c`

A shallow embedding of the synchronisation callbacks of the test driver
(`ng_SyncData`, `ng_thread_runs`, `ng_data`, `ng_initdata`, `ng_VSRCData`), of its
helpers `cieq` and `AlmostEqualUlps` and of the wait loop of `main`, together with the
properties of the written specification that they decide.

Conventions of the embedding

* C `int` globals and counters are `Int` (no wrap-around is modelled: the counters
  move by one per call and stay far from `2^31`).
* C `double` values are only copied and compared with `<` by the callbacks, never
  used in arithmetic; finite doubles are modelled there by the rationals they denote
  (`ℚ`), on which `<` is exact, and NaN and the infinities are outside that model.
  `AlmostEqualUlps` works on the representation, so its arguments are 64-bit patterns.
* The static arrays `newdelta3`, `delt3`, `act3`, `redos3`, `loca3` (three slots each in
  the source) and the heap array `norunsall` are maps from the slot index; slot `i`
  of the source is index `i`.  A statement about `n` participants uses the slots
  `0 .. n-1`; the source has room for `n ≤ 3`, which is also what `main` loads.
* Console output (`printf`, `fprintf`) is not part of the state.
* Threads interleave at the granularity of the lock-protected sections: each section
  is one step, and so is each exit from a wait loop.
-/

namespace NgParallel

/-! # Part I: the embedding of the code -/

/-! ## Global state -/

/-- The process-wide variables of `main.c` read or written by the callbacks. -/
structure State where
  no_bg : Bool
  numthreads : Int
  threadmax : Int
  ok1 : Bool
  ok2 : Bool
  threadcount1 : Int
  threadcount2 : Int
  newdelta3 : Int → ℚ
  delt3 : Int → ℚ
  act3 : Int → ℚ
  redos3 : Int → Int
  loca3 : Int → Int
  retval : Int
  norunsall : Int → Bool
  vecgetnumber1 : Int
  vecgetnumber2 : Int
  in2out1 : ℚ
  in3out2 : ℚ

/-- Store `v` into slot `i` of an array. -/
def setSlot {α : Type} (a : Int → α) (i : Int) (v : α) : Int → α :=
  fun j => if j = i then v else a j

/-- The values of the globals given by their initialisers (lines 99-102, 129, 168-169,
285, 863-868), with `numthreads` and `threadmax` already set to `n` as `main` does after
loading `n` libraries (line 591), and `g` the indeterminate contents that `malloc`
hands to `norunsall`. -/
def initState (n : Int) (g : Int → Bool) : State :=
  { no_bg := true
    numthreads := n
    threadmax := n
    ok1 := false
    ok2 := false
    threadcount1 := 0
    threadcount2 := 0
    newdelta3 := fun _ => 0
    delt3 := fun _ => 0
    act3 := fun _ => 0
    redos3 := fun _ => 0
    loca3 := fun _ => 0
    retval := 0
    norunsall := g
    vecgetnumber1 := 0
    vecgetnumber2 := 0
    in2out1 := 0
    in3out2 := 0 }

/-! ## `ng_SyncData` -/

/-- The macro `MIN(a,b) ((a) < (b) ? (a) : (b))`. -/
def MIN (a b : ℚ) : ℚ := if a < b then a else b

/-- The macro `MAX(a,b) ((a) > (b) ? (a) : (b))`. -/
def MAX (a b : Int) : Int := if a > b then a else b

/-- The value of the literal `1e30` that seeds `dmin` (line 901): the double nearest to
`10^30`, which is `1000000000000000019884624838656 = 0x193E5939A08CEA * 2^47`. -/
def dminSeed : ℚ := 1000000000000000019884624838656

/-- First loop of the decision branch (lines 901-906): starting from `(1e30, 0)` it
folds `MIN` over `delt3[0..n-1]` and `MAX` over `redos3[0..n-1]`. -/
def decideLoop (delt3 : Int → ℚ) (redos3 : Int → Int) (n : Nat) : ℚ × Int :=
  (List.range n).foldl
    (fun acc ii => (MIN (delt3 (ii : Int)) acc.1, MAX (redos3 (ii : Int)) acc.2))
    (dminSeed, 0)

/-- Second loop of the decision branch (lines 907-909): `newdelta3[ii] = dmin` for
`ii = 0 .. n-1`. -/
def fillLoop (newdelta3 : Int → ℚ) (dmin : ℚ) (n : Nat) : Int → ℚ :=
  (List.range n).foldl (fun a ii => setSlot a (ii : Int) dmin) newdelta3

/-- The section of `ng_SyncData` under `sy_cs1` (lines 878-917): the submission of
`ident` with proposed step `deltatime`, redo request `redostep` and time `acttime`,
followed by the pass-through branch, the decision branch, or neither (the third branch,
`threadcount1 > threadmax`, only prints a message). -/
def syncSubmit (s : State) (acttime deltatime : ℚ) (redostep ident : Int) : State :=
  let iindex := ident - 1
  let s1 : State :=
    { s with
      threadcount1 := s.threadcount1 + 1
      delt3 := setSlot s.delt3 iindex deltatime
      redos3 := setSlot s.redos3 iindex redostep
      act3 := setSlot s.act3 iindex acttime
      loca3 := setSlot s.loca3 iindex 1 }
  if s1.numthreads = 1 then
    { s1 with
      newdelta3 := setSlot s1.newdelta3 iindex (s1.delt3 iindex)
      retval := redostep
      ok1 := true
      ok2 := true }
  else if s1.threadcount1 = s1.numthreads then
    let r := decideLoop s1.delt3 s1.redos3 s1.numthreads.toNat
    { s1 with
      newdelta3 := fillLoop s1.newdelta3 r.1 s1.numthreads.toNat
      retval := r.2
      ok1 := true }
  else
    s1

/-- Condition of the first wait loop (line 920): `(!ok1) && (numthreads > 1)`. -/
def spin1 (s : State) : Bool := (!s.ok1) && decide (s.numthreads > 1)

/-- The section under `sy_cs3` (lines 928-937).  The second component is the value
stored into `*deltatime`. -/
def syncPhase1Exit (s : State) (ident : Int) : State × ℚ :=
  let iindex := ident - 1
  let tc1 := s.threadcount1 - 1
  let ok1 := if tc1 = 0 then false else s.ok1
  let tc2 := s.threadcount2 + 1
  let ok2 := if tc2 = s.threadmax ∧ ok1 = false then true else s.ok2
  ({ s with threadcount1 := tc1, ok1 := ok1, threadcount2 := tc2, ok2 := ok2 },
   s.newdelta3 iindex)

/-- Condition of the second wait loop (line 940): `(!ok2) && (numthreads > 1)`. -/
def spin2 (s : State) : Bool := (!s.ok2) && decide (s.numthreads > 1)

/-- The section under `sy_cs2` (lines 948-952). -/
def syncPhase2Exit (s : State) : State :=
  let tc2 := s.threadcount2 - 1
  { s with threadcount2 := tc2, ok2 := if tc2 = 0 then false else s.ok2 }

/-- What a completed call of `ng_SyncData` leaves behind. -/
structure SyncResult where
  state : State
  deltatime : ℚ
  ret : Int

/-- The whole of `ng_SyncData` run by one thread while no other thread moves.  A wait
loop whose condition holds when it is reached then spins for ever: the result is
`none`.  Otherwise the call returns the static `retval` (line 954). -/
def ng_SyncData (s : State) (acttime deltatime _olddeltatime : ℚ)
    (redostep ident _location : Int) : Option SyncResult :=
  let s1 := syncSubmit s acttime deltatime redostep ident
  if spin1 s1 then none
  else
    let p := syncPhase1Exit s1 ident
    if spin2 p.1 then none
    else
      let s3 := syncPhase2Exit p.1
      some { state := s3, deltatime := p.2, ret := s3.retval }

/-! ## `ng_thread_runs` -/

/-- The loop of lines 976-977: `iruns = iruns & norunsall[ii]` for `ii = 0 .. n-1`,
starting from `true`. -/
def allStopped (norunsall : Int → Bool) (n : Nat) : Bool :=
  (List.range n).foldl (fun iruns ii => iruns && norunsall (ii : Int)) true

/-- The callback `ng_thread_runs(noruns, ident, userdata)`: everything between
`mutex_lock(&rt_cs)` and `mutex_unlock(&rt_cs)` (lines 969-979). -/
def ng_thread_runs (s : State) (noruns : Bool) (ident : Int) : State :=
  let iindex := ident - 1
  let s1 : State := { s with norunsall := setSlot s.norunsall iindex noruns }
  let s2 : State :=
    if noruns then
      { s1 with
        numthreads := s1.numthreads - 1
        ok1 := decide (s1.threadcount1 = s1.numthreads - 1) }
    else s1
  { s2 with no_bg := allStopped s2.norunsall s2.threadmax.toNat }

/-! ## Concurrent callers of `ng_SyncData`

Each participant is a thread of the engine that calls `ng_SyncData` again and again.
Between two lock-protected sections a thread can be overtaken by any other thread, so
the call is cut at every point where that can happen: the three critical sections are
atomic steps, and leaving a wait loop (one read of the release flag and of
`numthreads`) is a step of its own. -/

/-- Where a participant stands in its current call of `ng_SyncData`. -/
inductive Loc where
  /-- Outside the call (before the first call or after a return). -/
  | idle
  /-- Past the `sy_cs1` section, spinning in the first wait loop (line 920). -/
  | wait1
  /-- Has seen the first loop condition false, about to lock `sy_cs3`. -/
  | ready1
  /-- Past the `sy_cs3` section, spinning in the second wait loop (line 940). -/
  | wait2
  /-- Has seen the second loop condition false, about to lock `sy_cs2`. -/
  | ready2
  /-- Its background thread has reported `ng_thread_runs(true, ident)`, or the
  identifier belongs to no loaded library. -/
  | stopped
  deriving DecidableEq, Repr

/-- Arguments of one call of `ng_SyncData` that the function reads. -/
structure SyncArgs where
  acttime : ℚ
  deltatime : ℚ
  redostep : Int

/-- A participant: its place in the call, the number of calls it has begun so far, the
cell that its `deltatime` pointer designates and the value its last call returned. -/
structure Caller where
  loc : Loc
  calls : Nat
  deltatime : ℚ
  ret : Int

/-- The globals together with the participants; participant `j` has `ident = j + 1`.
The field `decisions` counts how often the decision branch (lines 892-913) was taken. -/
structure Sys where
  shared : State
  caller : Nat → Caller
  decisions : Nat

/-- Replace participant `j`. -/
def setCaller (c : Nat → Caller) (j : Nat) (v : Caller) : Nat → Caller :=
  fun k => if k = j then v else c k

/-- One atomic step of one participant. -/
inductive Action where
  /-- Enter `ng_SyncData` and run the section under `sy_cs1`. -/
  | submit (j : Nat)
  /-- Leave the first wait loop. -/
  | see1 (j : Nat)
  /-- Run the section under `sy_cs3`. -/
  | exit1 (j : Nat)
  /-- Leave the second wait loop. -/
  | see2 (j : Nat)
  /-- Run the section under `sy_cs2` and return the static `retval`. -/
  | exit2 (j : Nat)
  /-- The background thread ends: `ng_thread_runs(true, ident)`. -/
  | leave (j : Nat)
  deriving DecidableEq, Repr

/-- Start of a run with `n` loaded libraries: every participant is outside the call. -/
def initSys (n : Nat) : Sys :=
  { shared := initState n (fun _ => false)
    caller := fun j =>
      { loc := if j < n then Loc.idle else Loc.stopped, calls := 0, deltatime := 0, ret := 0 }
    decisions := 0 }

/-- The participant `c` moved to place `l`. -/
def Caller.moveTo (c : Caller) (l : Loc) : Caller :=
  { loc := l, calls := c.calls, deltatime := c.deltatime, ret := c.ret }

/-- The step `a` from `y`, or `none` when `a` cannot be taken in `y`.  `inp j r` are
the arguments of participant `j` in its call number `r` (counted from 0). -/
def step (inp : Nat → Nat → SyncArgs) (a : Action) (y : Sys) : Option Sys :=
  match a with
  | Action.submit j =>
    let c := y.caller j
    if c.loc = Loc.idle then
      let x := inp j c.calls
      some
        { shared := syncSubmit y.shared x.acttime x.deltatime x.redostep ((j : Int) + 1)
          caller := setCaller y.caller j
            { loc := Loc.wait1, calls := c.calls + 1, deltatime := x.deltatime, ret := c.ret }
          decisions :=
            if y.shared.numthreads ≠ 1 ∧ y.shared.threadcount1 + 1 = y.shared.numthreads
            then y.decisions + 1 else y.decisions }
    else none
  | Action.see1 j =>
    let c := y.caller j
    if c.loc = Loc.wait1 ∧ spin1 y.shared = false then
      some
        { shared := y.shared
          caller := setCaller y.caller j (c.moveTo Loc.ready1)
          decisions := y.decisions }
    else none
  | Action.exit1 j =>
    let c := y.caller j
    if c.loc = Loc.ready1 then
      let p := syncPhase1Exit y.shared ((j : Int) + 1)
      some
        { shared := p.1
          caller := setCaller y.caller j
            { loc := Loc.wait2, calls := c.calls, deltatime := p.2, ret := c.ret }
          decisions := y.decisions }
    else none
  | Action.see2 j =>
    let c := y.caller j
    if c.loc = Loc.wait2 ∧ spin2 y.shared = false then
      some
        { shared := y.shared
          caller := setCaller y.caller j (c.moveTo Loc.ready2)
          decisions := y.decisions }
    else none
  | Action.exit2 j =>
    let c := y.caller j
    if c.loc = Loc.ready2 then
      let s := syncPhase2Exit y.shared
      some
        { shared := s
          caller := setCaller y.caller j
            { loc := Loc.idle, calls := c.calls, deltatime := c.deltatime, ret := s.retval }
          decisions := y.decisions }
    else none
  | Action.leave j =>
    let c := y.caller j
    if c.loc = Loc.idle then
      some
        { shared := ng_thread_runs y.shared true ((j : Int) + 1)
          caller := setCaller y.caller j (c.moveTo Loc.stopped)
          decisions := y.decisions }
    else none

/-- Run the steps of `tr` in order; `none` as soon as one of them cannot be taken. -/
def run (inp : Nat → Nat → SyncArgs) : List Action → Sys → Option Sys
  | [], y => some y
  | a :: tr, y =>
    match step inp a y with
    | some y1 => run inp tr y1
    | none => none

/-- True for the steps of `ng_SyncData`, false for `leave`. -/
def Action.isSync : Action → Bool
  | Action.leave _ => false
  | _ => true

/-! ## Counting participants by place -/

/-- Number of participants `j < n` whose place satisfies `p`. -/
def cnt (p : Loc → Bool) (c : Nat → Caller) : Nat → Nat
  | 0 => 0
  | n + 1 => cnt p c n + (if p (c n).loc then 1 else 0)

/-- In the first phase of the barrier: between the `sy_cs1` and the `sy_cs3` section. -/
def inPhase1 (l : Loc) : Bool := l = Loc.wait1 || l = Loc.ready1

/-- In the second phase of the barrier: between the `sy_cs3` and the `sy_cs2` section. -/
def inPhase2 (l : Loc) : Bool := l = Loc.wait2 || l = Loc.ready2

/-! ## The barrier with all participants live -/

/-- The pair the decision branch computes in round `r` (counted from 0) from the
submissions `inp 0 r, ..., inp (n-1) r` of the `n` participants. -/
def roundDecision (inp : Nat → Nat → SyncArgs) (n r : Nat) : ℚ × Int :=
  decideLoop (fun i => (inp i.toNat r).deltatime) (fun i => (inp i.toNat r).redostep) n

/-- What holds in every state that `n` live participants can reach by steps of
`ng_SyncData` alone. -/
structure Inv (inp : Nat → Nat → SyncArgs) (n : Nat) (y : Sys) : Prop where
  hn : y.shared.numthreads = n
  hmax : y.shared.threadmax = n
  htc1 : y.shared.threadcount1 = cnt inPhase1 y.caller n
  htc2 : y.shared.threadcount2 = cnt inPhase2 y.caller n
  hopen : y.shared.ok1 = true →
    y.shared.ok2 = false ∧ 0 < y.shared.threadcount1 ∧ 1 ≤ y.decisions ∧
    ∀ j, j < n →
      ((y.caller j).loc = Loc.wait1 ∨ (y.caller j).loc = Loc.ready1 ∨
        (y.caller j).loc = Loc.wait2) ∧ (y.caller j).calls = y.decisions
  hclosed : y.shared.ok1 = false →
    (y.shared.ok2 = true ↔ 0 < y.shared.threadcount2) ∧ y.shared.threadcount1 < n ∧
    ∀ j, j < n →
      (((y.caller j).loc = Loc.idle ∨ (y.caller j).loc = Loc.wait2 ∨
          (y.caller j).loc = Loc.ready2) ∧ (y.caller j).calls = y.decisions) ∨
      ((y.caller j).loc = Loc.wait1 ∧ (y.caller j).calls = y.decisions + 1)
  hsub : ∀ j, j < n → 1 ≤ (y.caller j).calls →
    y.shared.delt3 (j : Int) = (inp j ((y.caller j).calls - 1)).deltatime ∧
    y.shared.redos3 (j : Int) = (inp j ((y.caller j).calls - 1)).redostep
  hdec : 1 ≤ y.decisions →
    (∀ j, j < n → y.shared.newdelta3 (j : Int) = (roundDecision inp n (y.decisions - 1)).1) ∧
    y.shared.retval = (roundDecision inp n (y.decisions - 1)).2
  hout : ∀ j, j < n → 1 ≤ (y.caller j).calls →
    ((y.caller j).loc = Loc.idle ∨ (y.caller j).loc = Loc.wait2 ∨
      (y.caller j).loc = Loc.ready2) →
    (y.caller j).deltatime = (roundDecision inp n ((y.caller j).calls - 1)).1
  hret : ∀ j, j < n → 1 ≤ (y.caller j).calls → (y.caller j).loc = Loc.idle →
    (y.caller j).ret = (roundDecision inp n ((y.caller j).calls - 1)).2

/-! ## Runs -/

/-- The participant that takes the step. -/
def Action.who : Action → Nat
  | Action.submit j => j
  | Action.see1 j => j
  | Action.exit1 j => j
  | Action.see2 j => j
  | Action.exit2 j => j
  | Action.leave j => j

/-- The identifiers beyond the `n` loaded libraries belong to no participant. -/
def Outside (n : Nat) (y : Sys) : Prop := ∀ j, n ≤ j → (y.caller j).loc = Loc.stopped

/-! ## Progress of the barrier -/

/-- True for the steps a participant takes between its submission and its return. -/
def Action.inCall : Action → Bool
  | Action.see1 _ => true
  | Action.exit1 _ => true
  | Action.see2 _ => true
  | Action.exit2 _ => true
  | _ => false

/-- Steps a participant at place `l` still has to take before it is outside the call. -/
def remaining : Loc → Nat
  | Loc.idle => 0
  | Loc.wait1 => 4
  | Loc.ready1 => 3
  | Loc.wait2 => 2
  | Loc.ready2 => 1
  | Loc.stopped => 0

/-- Steps participant `x` still has to take to have completed `c` calls. -/
def workLeft (c : Nat) (x : Caller) : Nat := 5 * (c - x.calls) + remaining x.loc

/-- Sum of `f` over the participants `j < n`. -/
def total (f : Caller → Nat) (c : Nat → Caller) : Nat → Nat
  | 0 => 0
  | n + 1 => total f c n + f (c n)

/-- Place from which the step is taken. -/
def Action.src : Action → Loc
  | Action.submit _ => Loc.idle
  | Action.see1 _ => Loc.wait1
  | Action.exit1 _ => Loc.ready1
  | Action.see2 _ => Loc.wait2
  | Action.exit2 _ => Loc.ready2
  | Action.leave _ => Loc.idle

/-- Place to which the step leads. -/
def Action.dst : Action → Loc
  | Action.submit _ => Loc.wait1
  | Action.see1 _ => Loc.ready1
  | Action.exit1 _ => Loc.wait2
  | Action.see2 _ => Loc.ready2
  | Action.exit2 _ => Loc.idle
  | Action.leave _ => Loc.stopped

/-- Number of calls the step begins. -/
def Action.begins : Action → Nat
  | Action.submit _ => 1
  | _ => 0

/-! ## Agreement of a round (C1) -/

/-- The value `m` is the least of the seed `1e30` and the steps proposed in round `r` by
the participants `0 .. n-1`, that is `min(1e30, d_1, .., d_n)`. -/
def AgreedDelta (inp : Nat → Nat → SyncArgs) (n r : Nat) (m : ℚ) : Prop :=
  m ≤ dminSeed ∧ (∀ i, i < n → m ≤ (inp i r).deltatime) ∧
  (m = dminSeed ∨ ∃ i, i < n ∧ m = (inp i r).deltatime)

/-- The value `v` is the greatest of `0` and the redo requests made in round `r` by the
participants `0 .. n-1`, that is `max(0, r_1, .., r_n)`. -/
def AgreedRedo (inp : Nat → Nat → SyncArgs) (n r : Nat) (v : Int) : Prop :=
  0 ≤ v ∧ (∀ i, i < n → (inp i r).redostep ≤ v) ∧
  (v = 0 ∨ ∃ i, i < n ∧ v = (inp i r).redostep)

/-- The example of the specification: three participants propose `1e-6`, `5e-7`, `2e-6`
and only the second asks for a redo. -/
def exampleArgs : Nat → Nat → SyncArgs := fun j _ =>
  { acttime := 0
    deltatime := if j = 0 then 1 / 1000000 else if j = 1 then 5 / 10000000 else 2 / 1000000
    redostep := if j = 1 then 1 else 0 }

/-- One round of three participants, each running its call to the end in turn once all
have submitted. -/
def exampleRound : List Action :=
  [Action.submit 0, Action.submit 1, Action.submit 2,
   Action.see1 0, Action.exit1 0, Action.see1 1, Action.exit1 1, Action.see1 2, Action.exit1 2,
   Action.see2 0, Action.exit2 0, Action.see2 1, Action.exit2 1, Action.see2 2, Action.exit2 2]

/-- Proposals of a run in which participant 2 leaves after the first round: round 0 has
`1e-6`, `1e-9`, `2e-6`, round 1 has `1e-6` (participant 1) and `5e-7` (participant 3). -/
def shrunkArgs : Nat → Nat → SyncArgs := fun j r =>
  { acttime := 0
    deltatime :=
      if r = 0 then (if j = 0 then 1 / 1000000 else if j = 1 then 1 / 1000000000
        else 2 / 1000000)
      else (if j = 0 then 1 / 1000000 else 5 / 10000000)
    redostep := 0 }

/-- A full first round, then participant 2 (index 1) leaves and participants 1 and 3
(indices 0 and 2) submit to the next round and pass the first wait loop. -/
def shrunkTrace : List Action :=
  exampleRound ++
    [Action.leave 1, Action.submit 0, Action.submit 2,
     Action.see1 0, Action.exit1 0, Action.see1 2, Action.exit1 2]

/-- Proposals above the seed: every participant proposes the double `2^100`, which is
`1267650600228229401496703205376`, in every round. -/
def hugeArgs : Nat → Nat → SyncArgs := fun _ _ =>
  { acttime := 0, deltatime := 1267650600228229401496703205376, redostep := 0 }

/-- Proposals of a run in which participant 2 leaves after the first round: round 0 has
the steps `4`, `2`, `8` and a redo request of participant 2 only; in every later round
participant 1 proposes `1` and the others `1/2`, without redo requests. -/
def staleArgs : Nat → Nat → SyncArgs := fun j r =>
  { acttime := 0
    deltatime := if r = 0 then (if j = 0 then 4 else if j = 1 then 2 else 8)
      else (if j = 0 then 1 else 1 / 2)
    redostep := if r = 0 ∧ j = 1 then 1 else 0 }

/-- A full first round, then participant 2 (index 1) leaves and participant 1 (index 0)
submits to the next round. -/
def staleTrace : List Action :=
  exampleRound ++ [Action.leave 1, Action.submit 0]

/-! ## A round after a participant has left (C3) -/

/-- Participant 3 (index 2) of three leaves while the barrier is at rest; then
participants 1 and 2 submit and pass the first wait loop. -/
def leaveTrace : List Action :=
  [Action.leave 2, Action.submit 0, Action.submit 1,
   Action.see1 0, Action.exit1 0, Action.see1 1, Action.exit1 1]

/-! ## Order of the rounds (C4) -/

/-- Number of times participant `x` has run the `sy_cs3` section (its phase-1 exit):
every call it has begun, except the current one while it is still in phase 1. -/
def phase1Exits (x : Caller) : Int := (x.calls : Int) - (if inPhase1 x.loc then 1 else 0)

/-- Number of times participant `x` has run the `sy_cs2` section (its phase-2 exit):
every call it has begun, except the current one while it is still inside the call. -/
def phase2Exits (x : Caller) : Int :=
  (x.calls : Int) - (if inPhase1 x.loc || inPhase2 x.loc then 1 else 0)

/-- A round of two participants up to the return of the first one: the second is still
spinning in the second wait loop. -/
def overlapTrace : List Action :=
  [Action.submit 0, Action.submit 1, Action.see1 0, Action.exit1 0, Action.see1 1,
   Action.exit1 1, Action.see2 0, Action.exit2 0]

/-! ## Boundary channel: `ng_data` and `ng_VSRCData` (C5, C6) -/

/-- Modelled from the spec: the header `sharedspice.h` that declares `vecvaluesall` is
not among the sources.  A delivery carries its sample vector; the model keeps, for each
entry `vecsa[i]`, the real part `vecsa[i]->creal` that `ng_data` reads. -/
structure vecvaluesall where
  vecsa : List ℚ

/-- The read `vdata->vecsa[i]->creal`; `none` when `i` is not the index of an entry. -/
def vecvaluesall.creal (vdata : vecvaluesall) (i : Int) : Option ℚ :=
  if 0 ≤ i then vdata.vecsa.get? i.toNat else none

/-- The callback `ng_data(vdata, numvecs, ident, userdata)` (lines 802-811); `none`
when the cached index points outside the delivered vector. -/
def ng_data (s : State) (vdata : vecvaluesall) (_numvecs : Int) (ident : Int) :
    Option State :=
  let r1 : Option State :=
    if ident = 1 then
      (vdata.creal s.vecgetnumber1).map (fun x => { s with in2out1 := x })
    else some s
  r1.bind (fun s1 =>
    if ident = 2 then
      (vdata.creal s1.vecgetnumber2).map (fun x => { s1 with in3out2 := x })
    else some s1)

/-- The callback `ng_VSRCData(retvoltval, acttime, nodename, ident, userdata)` (lines
843-851).  The first argument is the content of `*retvoltval` before the call, the
result its content after the call; the function itself always returns 0. -/
def ng_VSRCData (s : State) (retvoltval : ℚ) (_acttime : ℚ) (_nodename : List Char)
    (ident : Int) : ℚ :=
  if ident = 3 then s.in3out2
  else if ident = 2 then s.in2out1
  else retvoltval

/-- A sequence of deliveries, each given by the partition that delivers and its vector. -/
def deliverAll : State → List (Int × vecvaluesall) → Option State
  | s, [] => some s
  | s, d :: ds =>
    match ng_data s d.2 (d.2.vecsa.length : Int) d.1 with
    | some s1 => deliverAll s1 ds
    | none => none

/-- The most recent delivery of partition `producer` in the sequence `ds`, if any. -/
def latestDelivery (ds : List (Int × vecvaluesall)) (producer : Int) : Option vecvaluesall :=
  ((ds.filter (fun d => decide (d.1 = producer))).getLast?).map (fun d => d.2)

/-- The cached index of the delivering partition lies inside the delivered vector. -/
def InRange (s : State) (d : Int × vecvaluesall) : Prop :=
  (d.1 = 1 → 0 ≤ s.vecgetnumber1 ∧ s.vecgetnumber1 < (d.2.vecsa.length : Int)) ∧
  (d.1 = 2 → 0 ≤ s.vecgetnumber2 ∧ s.vecgetnumber2 < (d.2.vecsa.length : Int))

/-! ## Index resolution: `cieq` and `ng_initdata` (C7, C8) -/

/-- The expression `isupper(c) ? tolower(c) : c` in the C locale. -/
def lowerOf (c : Char) : Char := if c.isUpper then c.toLower else c

/-- The function `cieq(p, s)` (lines 225-236) on the characters that precede the
terminating NUL of each string.  When `s` ends first, `*s` is NUL while `*p` is not, so
the comparison inside the loop fails. -/
def cieq : List Char → List Char → Bool
  | [], s => s.isEmpty
  | _ :: _, [] => false
  | c :: p, d :: s => if lowerOf c ≠ lowerOf d then false else cieq p s

/-- The loop of `ng_initdata` (lines 823-828 and 831-836) from position `i` on:
`if (cieq(vecs[i]->vecname, target)) vecgetnumber = i;` for every remaining name. -/
def scanNames (target : List Char) : List (List Char) → Nat → Int → Int
  | [], _, vecgetnumber => vecgetnumber
  | name :: rest, i, vecgetnumber =>
    scanNames target rest (i + 1) (if cieq name target then (i : Int) else vecgetnumber)

/-- The callback `ng_initdata(intdata, ident, userdata)` (lines 816-839); `vecnames`
are the names `intdata->vecs[i]->vecname` for `i < intdata->veccount`.  The function
itself always returns 0. -/
def ng_initdata (s : State) (vecnames : List (List Char)) (ident : Int) : State :=
  if ident = 1 then
    { s with vecgetnumber1 := scanNames "out1".toList vecnames 0 s.vecgetnumber1 }
  else if ident = 2 then
    { s with vecgetnumber2 := scanNames "out2".toList vecnames 0 s.vecgetnumber2 }
  else s

/-- The name at position `k` matches `target` without regard to case. -/
def MatchAt (target : List Char) (vecnames : List (List Char)) (k : Nat) : Prop :=
  ∃ name, vecnames.get? k = some name ∧ cieq name target = true

/-! ## Participant registry: `ng_thread_runs` (C9, C10) -/

/-- A sequence of calls `ng_thread_runs(noruns, ident, userdata)`, each given by its
flag and its identifier, made one after the other. -/
def runCalls : State → List (Bool × Int) → State
  | s, [] => s
  | s, c :: cs => runCalls (ng_thread_runs s c.1 c.2) cs

/-- No participant calls again after it has reported `noruns = true`; `stopped` lists
the identifiers that have already done so. -/
def Disciplined : List Int → List (Bool × Int) → Prop
  | _, [] => True
  | stopped, c :: cs =>
    c.2 ∉ stopped ∧ Disciplined (if c.1 then c.2 :: stopped else stopped) cs

/-- The bookkeeping of the registry after some calls: `stopped` are the identifiers that
have reported `noruns = true`, `called` those that have made any call. -/
structure RegInv (n : Nat) (s : State) (stopped called : List Int) : Prop where
  hmax : s.threadmax = n
  hnum : s.numthreads = (n : Int) - stopped.length
  hnodup : stopped.Nodup
  hrange : ∀ id, id ∈ stopped → 1 ≤ id ∧ id ≤ n
  hsub : ∀ id, id ∈ stopped → id ∈ called
  hslot : ∀ id, id ∈ called → s.norunsall (id - 1) = decide (id ∈ stopped)
  hbg : called ≠ [] → s.no_bg = allStopped s.norunsall n

/-! ## The supervising wait loop of `main` (C12, C15) -/

/-- What one pass through the body of the loop of lines 707-726 leaves behind: the
globals, the counter `i`, whether the loop was left by a `break`, and which of the two
warnings was printed. -/
structure Supervision where
  state : State
  i : Int
  stop : Bool
  warned : Bool
  premature : Bool

/-- One iteration of the wait loop of `main` (lines 707-726), after the sleep: `s` are the
globals it finds and `i` its counter. -/
def superviseIter (s : State) (i : Int) : Supervision :=
  if s.no_bg then
    { state := s, i := i, stop := true, warned := false, premature := false }
  else if s.numthreads < 3 ∧ s.numthreads > 1 then
    { state := { s with ok1 := true, ok2 := true }
      i := i + 1
      stop := decide (i + 1 > 100)
      warned := decide (i = 0)
      premature := decide (i + 1 > 100) }
  else
    { state := s, i := i, stop := false, warned := false, premature := false }

/-- Outcome of a number of iterations of the wait loop. -/
structure LoopOut where
  state : State
  i : Int
  ended : Bool
  premature : Bool
  iterations : Nat

/-- At most `k` further iterations of the wait loop of `main`, `t` iterations having been
made; `env t` is what the other threads do to the globals while `main` sleeps before
iteration `t`. -/
def superviseLoop (env : Nat → State → State) : Nat → Nat → State → Int → LoopOut
  | 0, t, s, i => { state := s, i := i, ended := false, premature := false, iterations := t }
  | k + 1, t, s, i =>
    let o := superviseIter (env t s) i
    if o.stop then
      { state := o.state, i := o.i, ended := true, premature := o.premature,
        iterations := t + 1 }
    else superviseLoop env k (t + 1) o.state o.i

/-- Start of the synchronised run: `n` libraries are loaded and every background thread
has reported `ng_thread_runs(false, ident)`; every participant is outside
`ng_SyncData`. -/
def startedSys (n : Nat) : Sys :=
  { shared := runCalls (initState n (fun _ => false))
      ((List.range n).map (fun j => (false, (j : Int) + 1)))
    caller := (initSys n).caller
    decisions := 0 }

/-! ## `AlmostEqualUlps` (C14, C16)

A `double` argument is given by its 64-bit pattern, a natural number below `2^64`;
`int64_t` arithmetic is taken modulo `2^64`. -/

/-- The value in `int64_t` that the mathematical integer `x` wraps to. -/
def wrap64 (x : Int) : Int := (x + 9223372036854775808) % 18446744073709551616 - 9223372036854775808

/-- The pattern `a` read through the union as `int64_t`. -/
def toInt64 (a : Nat) : Int := wrap64 (a : Int)

/-- The macro `int64_min (((int64_t) -1) << 63)`. -/
def int64_min : Int := wrap64 ((-1) * 9223372036854775808)

/-- The function `llabs` on `int64_t`, as the macro `((x) < 0 ? -(x) : (x))`. -/
def llabs (x : Int) : Int := if x < 0 then wrap64 (-x) else x

/-- The pattern `a` is a NaN: exponent field all ones, fraction not zero. -/
def isNaN (a : Nat) : Bool := a / 4503599627370496 % 2048 = 2047 && a % 4503599627370496 ≠ 0

/-- The pattern `a` is a finite double: exponent field not all ones. -/
def isFinite (a : Nat) : Bool := a / 4503599627370496 % 2048 ≠ 2047

/-- The comparison `A == B` of two doubles: false when either is a NaN, otherwise true
for the same pattern and for two zeros of either sign. -/
def doubleEq (a b : Nat) : Bool :=
  !isNaN a && !isNaN b &&
    (a = b || (a % 9223372036854775808 = 0 && b % 9223372036854775808 = 0))

/-- The function `AlmostEqualUlps(A, B, maxUlps)` (lines 181-219); `none` when the
assertion on `maxUlps` fails. -/
def AlmostEqualUlps (A B : Nat) (maxUlps : Int) : Option Bool :=
  if doubleEq A B then some true
  else if ¬ (maxUlps > 0 ∧ maxUlps < 4 * 1024 * 1024) then none
  else
    let aInt0 := toInt64 A
    let aInt := if aInt0 < 0 then wrap64 (int64_min - aInt0) else aInt0
    let bInt0 := toInt64 B
    let bInt := if bInt0 < 0 then wrap64 (int64_min - bInt0) else bInt0
    let intDiff := llabs (wrap64 (aInt - bInt))
    if intDiff ≤ maxUlps then some true else some false

/-- Position of the sign-magnitude pattern `a` in the ordering of the doubles: the
magnitude for a clear sign bit, its negative for a set sign bit, so that `+0` and `-0`
share position 0. -/
def ordOf (a : Nat) : Int :=
  if a < 9223372036854775808 then (a : Int) else -((a : Int) - 9223372036854775808)

/-! # Part II: properties -/

/-! ## The loops of the decision branch -/

theorem decideLoop_zero (d : Int → ℚ) (r : Int → Int) :
    decideLoop d r 0 = (dminSeed, 0) := rfl

theorem decideLoop_succ (d : Int → ℚ) (r : Int → Int) (n : Nat) :
    decideLoop d r (n + 1)
      = (MIN (d (n : Int)) (decideLoop d r n).1, MAX (r (n : Int)) (decideLoop d r n).2) := by
  simp [decideLoop, List.range_succ, List.foldl_append]

theorem decideLoop_congr (d d2 : Int → ℚ) (r r2 : Int → Int) (n : Nat)
    (h : ∀ i : Nat, i < n → d (i : Int) = d2 (i : Int) ∧ r (i : Int) = r2 (i : Int)) :
    decideLoop d r n = decideLoop d2 r2 n := by
  induction n with
  | zero => rfl
  | succ n ih =>
    rw [decideLoop_succ, decideLoop_succ, ih (fun i hi => h i (Nat.lt_succ_of_lt hi)),
      (h n (Nat.lt_succ_self n)).1, (h n (Nat.lt_succ_self n)).2]

theorem MIN_eq_min (a b : ℚ) : MIN a b = min a b := by
  unfold MIN
  split_ifs with h
  · exact (min_eq_left (le_of_lt h)).symm
  · exact (min_eq_right (not_lt.mp h)).symm

theorem MAX_eq_max (a b : Int) : MAX a b = max a b := by
  unfold MAX
  split_ifs with h
  · exact (max_eq_left (le_of_lt h)).symm
  · exact (max_eq_right (not_lt.mp h)).symm

theorem decideLoop_fst_le_seed (d : Int → ℚ) (r : Int → Int) (n : Nat) :
    (decideLoop d r n).1 ≤ dminSeed := by
  induction n with
  | zero => exact le_refl _
  | succ n ih =>
    rw [decideLoop_succ]
    simp only [MIN_eq_min]
    exact le_trans (min_le_right _ _) ih

theorem decideLoop_fst_le (d : Int → ℚ) (r : Int → Int) (n : Nat) (i : Nat) (hi : i < n) :
    (decideLoop d r n).1 ≤ d (i : Int) := by
  induction n with
  | zero => exact absurd hi (Nat.not_lt_zero i)
  | succ n ih =>
    rw [decideLoop_succ]
    simp only [MIN_eq_min]
    rcases Nat.lt_succ_iff_lt_or_eq.mp hi with h | h
    · exact le_trans (min_le_right _ _) (ih h)
    · subst h
      exact min_le_left _ _

theorem decideLoop_fst_mem (d : Int → ℚ) (r : Int → Int) (n : Nat) :
    (decideLoop d r n).1 = dminSeed ∨ ∃ i : Nat, i < n ∧ (decideLoop d r n).1 = d (i : Int) := by
  induction n with
  | zero => exact Or.inl rfl
  | succ n ih =>
    rw [decideLoop_succ]
    simp only [MIN_eq_min]
    rcases min_choice (d (n : Int)) (decideLoop d r n).1 with h | h
    · exact Or.inr ⟨n, Nat.lt_succ_self n, h⟩
    · rw [h]
      rcases ih with h1 | ⟨i, hi, h1⟩
      · exact Or.inl h1
      · exact Or.inr ⟨i, Nat.lt_succ_of_lt hi, h1⟩

theorem decideLoop_snd_nonneg (d : Int → ℚ) (r : Int → Int) (n : Nat) :
    0 ≤ (decideLoop d r n).2 := by
  induction n with
  | zero => exact le_refl _
  | succ n ih =>
    rw [decideLoop_succ]
    simp only [MAX_eq_max]
    exact le_trans ih (le_max_right _ _)

theorem decideLoop_snd_ge (d : Int → ℚ) (r : Int → Int) (n : Nat) (i : Nat) (hi : i < n) :
    r (i : Int) ≤ (decideLoop d r n).2 := by
  induction n with
  | zero => exact absurd hi (Nat.not_lt_zero i)
  | succ n ih =>
    rw [decideLoop_succ]
    simp only [MAX_eq_max]
    rcases Nat.lt_succ_iff_lt_or_eq.mp hi with h | h
    · exact le_trans (ih h) (le_max_right _ _)
    · subst h
      exact le_max_left _ _

theorem decideLoop_snd_mem (d : Int → ℚ) (r : Int → Int) (n : Nat) :
    (decideLoop d r n).2 = 0 ∨ ∃ i : Nat, i < n ∧ (decideLoop d r n).2 = r (i : Int) := by
  induction n with
  | zero => exact Or.inl rfl
  | succ n ih =>
    rw [decideLoop_succ]
    simp only [MAX_eq_max]
    rcases max_choice (r (n : Int)) (decideLoop d r n).2 with h | h
    · exact Or.inr ⟨n, Nat.lt_succ_self n, h⟩
    · rw [h]
      rcases ih with h1 | ⟨i, hi, h1⟩
      · exact Or.inl h1
      · exact Or.inr ⟨i, Nat.lt_succ_of_lt hi, h1⟩

theorem fillLoop_succ (a : Int → ℚ) (v : ℚ) (n : Nat) :
    fillLoop a v (n + 1) = setSlot (fillLoop a v n) (n : Int) v := by
  simp [fillLoop, List.range_succ, List.foldl_append]

theorem fillLoop_apply (a : Int → ℚ) (v : ℚ) (n : Nat) (i : Int) :
    fillLoop a v n i = if 0 ≤ i ∧ i < (n : Int) then v else a i := by
  induction n with
  | zero =>
    have h : ¬ (0 ≤ i ∧ i < ((0 : Nat) : Int)) := by omega
    rw [if_neg h]
    rfl
  | succ n ih =>
    rw [fillLoop_succ]
    unfold setSlot
    by_cases h1 : i = (n : Int)
    · rw [if_pos h1, if_pos]
      omega
    · rw [if_neg h1, ih]
      by_cases h2 : 0 ≤ i ∧ i < (n : Int)
      · rw [if_pos h2, if_pos]
        omega
      · rw [if_neg h2, if_neg]
        omega

/-! ## Counting participants by place -/

theorem cnt_le (p : Loc → Bool) (c : Nat → Caller) (n : Nat) : cnt p c n ≤ n := by
  induction n with
  | zero => exact le_refl _
  | succ n ih =>
    unfold cnt
    split_ifs <;> omega

theorem cnt_setCaller_ge (p : Loc → Bool) (c : Nat → Caller) (j : Nat) (v : Caller) (n : Nat)
    (h : n ≤ j) : cnt p (setCaller c j v) n = cnt p c n := by
  induction n with
  | zero => rfl
  | succ n ih =>
    have hne : n ≠ j := by omega
    simp only [cnt, setCaller, if_neg hne]
    have := ih (by omega)
    simp only [setCaller] at this
    rw [this]

theorem cnt_setCaller (p : Loc → Bool) (c : Nat → Caller) (j : Nat) (v : Caller) (n : Nat)
    (h : j < n) :
    cnt p (setCaller c j v) n + (if p (c j).loc then 1 else 0)
      = cnt p c n + (if p v.loc then 1 else 0) := by
  induction n with
  | zero => exact absurd h (Nat.not_lt_zero j)
  | succ n ih =>
    rcases Nat.lt_succ_iff_lt_or_eq.mp h with h1 | h1
    · have hne : n ≠ j := by omega
      have := ih h1
      simp only [cnt, setCaller, if_neg hne] at this ⊢
      omega
    · subst h1
      have := cnt_setCaller_ge p c j v j (le_refl j)
      simp only [cnt, setCaller, if_true] at this ⊢
      omega

theorem cnt_eq_zero_iff (p : Loc → Bool) (c : Nat → Caller) (n : Nat) :
    cnt p c n = 0 ↔ ∀ j, j < n → p (c j).loc = false := by
  induction n with
  | zero => simp [cnt]
  | succ n ih =>
    simp only [cnt]
    constructor
    · intro h j hj
      have h0 : cnt p c n = 0 := by omega
      rcases Nat.lt_succ_iff_lt_or_eq.mp hj with h1 | h1
      · exact ih.mp h0 j h1
      · subst h1
        by_contra hp
        simp only [Bool.not_eq_false] at hp
        rw [if_pos hp] at h
        omega
    · intro h
      have h0 := ih.mpr (fun j hj => h j (Nat.lt_succ_of_lt hj))
      have hn := h n (Nat.lt_succ_self n)
      simp [h0, hn]

theorem cnt_eq_all_iff (p : Loc → Bool) (c : Nat → Caller) (n : Nat) :
    cnt p c n = n ↔ ∀ j, j < n → p (c j).loc = true := by
  induction n with
  | zero => simp [cnt]
  | succ n ih =>
    simp only [cnt]
    have hle := cnt_le p c n
    constructor
    · intro h j hj
      by_cases hp : p (c n).loc = true
      · rw [if_pos hp] at h
        rcases Nat.lt_succ_iff_lt_or_eq.mp hj with h1 | h1
        · exact ih.mp (by omega) j h1
        · subst h1
          exact hp
      · rw [if_neg hp] at h
        omega
    · intro h
      have h0 := ih.mpr (fun j hj => h j (Nat.lt_succ_of_lt hj))
      have hn := h n (Nat.lt_succ_self n)
      simp [h0, hn]

theorem cnt_pos_iff (p : Loc → Bool) (c : Nat → Caller) (n : Nat) :
    0 < cnt p c n ↔ ∃ j, j < n ∧ p (c j).loc = true := by
  constructor
  · intro h
    by_contra hne
    have : cnt p c n = 0 := (cnt_eq_zero_iff p c n).mpr (fun j hj => by
      by_contra hp
      simp only [Bool.not_eq_false] at hp
      exact hne ⟨j, hj, hp⟩)
    omega
  · rintro ⟨j, hj, hp⟩
    by_contra h
    have h0 : cnt p c n = 0 := by omega
    have := (cnt_eq_zero_iff p c n).mp h0 j hj
    rw [this] at hp
    exact Bool.noConfusion hp

/-! ## The barrier with all participants live -/

theorem inv_init (inp : Nat → Nat → SyncArgs) (n : Nat) (hn : 2 ≤ n) :
    Inv inp n (initSys n) := by
  have hidle : ∀ j, j < n → ((initSys n).caller j).loc = Loc.idle := by
    intro j hj
    simp [initSys, hj]
  have h1 : cnt inPhase1 (initSys n).caller n = 0 :=
    (cnt_eq_zero_iff _ _ _).mpr (fun j hj => by rw [hidle j hj]; rfl)
  have h2 : cnt inPhase2 (initSys n).caller n = 0 :=
    (cnt_eq_zero_iff _ _ _).mpr (fun j hj => by rw [hidle j hj]; rfl)
  constructor
  · rfl
  · rfl
  · rw [h1]; rfl
  · rw [h2]; rfl
  · intro h
    exact Bool.noConfusion h
  · intro _
    refine ⟨?_, ?_, ?_⟩
    · simp [initSys, initState]
    · simp only [initSys, initState]
      omega
    · intro j hj
      exact Or.inl ⟨Or.inl (hidle j hj), rfl⟩
  · intro j _ h
    simp [initSys] at h
  · intro h
    simp [initSys] at h
  · intro j _ h
    simp [initSys] at h
  · intro j _ h
    simp [initSys] at h

theorem spin1_false_iff (s : State) : spin1 s = false ↔ s.ok1 = true ∨ s.numthreads ≤ 1 := by
  unfold spin1
  cases s.ok1 <;> simp

theorem spin2_false_iff (s : State) : spin2 s = false ↔ s.ok2 = true ∨ s.numthreads ≤ 1 := by
  unfold spin2
  cases s.ok2 <;> simp

theorem setCaller_same (c : Nat → Caller) (j : Nat) (v : Caller) :
    setCaller c j v j = v := by
  simp [setCaller]

theorem setCaller_ne (c : Nat → Caller) (j : Nat) (v : Caller) (k : Nat) (h : k ≠ j) :
    setCaller c j v k = c k := by
  simp [setCaller, h]

theorem inv_see1 (inp : Nat → Nat → SyncArgs) (n : Nat) (hn : 2 ≤ n) (y y1 : Sys) (j : Nat)
    (hj : j < n) (hi : Inv inp n y) (h : step inp (Action.see1 j) y = some y1) :
    Inv inp n y1 := by
  simp only [step] at h
  split_ifs at h with hc
  obtain ⟨hloc, hsp⟩ := hc
  have hok1 : y.shared.ok1 = true := by
    rcases (spin1_false_iff _).mp hsp with h1 | h1
    · exact h1
    · rw [hi.hn] at h1
      omega
  obtain ⟨ho2, hpos, hg, hall⟩ := hi.hopen hok1
  cases h
  have hc1 := cnt_setCaller inPhase1 y.caller j ((y.caller j).moveTo Loc.ready1) n hj
  have hc2 := cnt_setCaller inPhase2 y.caller j ((y.caller j).moveTo Loc.ready1) n hj
  simp [hloc, inPhase1, inPhase2, Caller.moveTo] at hc1 hc2
  constructor
  · exact hi.hn
  · exact hi.hmax
  · dsimp only [Caller.moveTo]
    rw [hi.htc1, hc1]
  · dsimp only [Caller.moveTo]
    rw [hi.htc2, hc2]
  · intro _
    refine ⟨ho2, hpos, hg, ?_⟩
    intro k hk
    dsimp only
    by_cases hkj : k = j
    · subst hkj
      rw [setCaller_same]
      exact ⟨Or.inr (Or.inl rfl), (hall k hk).2⟩
    · rw [setCaller_ne _ _ _ _ hkj]
      exact hall k hk
  · intro hf
    exact absurd (hok1.symm.trans hf) (by decide)
  · intro k hk
    dsimp only
    by_cases hkj : k = j
    · subst hkj
      rw [setCaller_same]
      exact hi.hsub k hk
    · rw [setCaller_ne _ _ _ _ hkj]
      exact hi.hsub k hk
  · exact hi.hdec
  · intro k hk
    dsimp only
    by_cases hkj : k = j
    · subst hkj
      rw [setCaller_same]
      intro _ hl
      simp [Caller.moveTo] at hl
    · rw [setCaller_ne _ _ _ _ hkj]
      exact hi.hout k hk
  · intro k hk
    dsimp only
    by_cases hkj : k = j
    · subst hkj
      rw [setCaller_same]
      intro _ hl
      simp [Caller.moveTo] at hl
    · rw [setCaller_ne _ _ _ _ hkj]
      exact hi.hret k hk

theorem inv_see2 (inp : Nat → Nat → SyncArgs) (n : Nat) (hn : 2 ≤ n) (y y1 : Sys) (j : Nat)
    (hj : j < n) (hi : Inv inp n y) (h : step inp (Action.see2 j) y = some y1) :
    Inv inp n y1 := by
  simp only [step] at h
  split_ifs at h with hc
  obtain ⟨hloc, hsp⟩ := hc
  have hok2 : y.shared.ok2 = true := by
    rcases (spin2_false_iff _).mp hsp with h1 | h1
    · exact h1
    · rw [hi.hn] at h1
      omega
  have hok1 : y.shared.ok1 = false := by
    cases hb : y.shared.ok1
    · rfl
    · have := (hi.hopen hb).1
      rw [hok2] at this
      exact Bool.noConfusion this
  obtain ⟨hiff, hlt, hall⟩ := hi.hclosed hok1
  cases h
  have hc1 := cnt_setCaller inPhase1 y.caller j ((y.caller j).moveTo Loc.ready2) n hj
  have hc2 := cnt_setCaller inPhase2 y.caller j ((y.caller j).moveTo Loc.ready2) n hj
  simp [hloc, inPhase1, inPhase2, Caller.moveTo] at hc1 hc2
  constructor
  · exact hi.hn
  · exact hi.hmax
  · dsimp only [Caller.moveTo]
    rw [hi.htc1, hc1]
  · dsimp only [Caller.moveTo]
    rw [hi.htc2, hc2]
  · intro hf
    exact absurd (hf.symm.trans hok1) (by decide)
  · intro _
    refine ⟨hiff, hlt, ?_⟩
    intro k hk
    dsimp only
    by_cases hkj : k = j
    · subst hkj
      rw [setCaller_same]
      rcases hall k hk with ⟨_, h2⟩ | ⟨h1, _⟩
      · exact Or.inl ⟨Or.inr (Or.inr rfl), h2⟩
      · rw [hloc] at h1
        exact Loc.noConfusion h1
    · rw [setCaller_ne _ _ _ _ hkj]
      exact hall k hk
  · intro k hk
    dsimp only
    by_cases hkj : k = j
    · subst hkj
      rw [setCaller_same]
      exact hi.hsub k hk
    · rw [setCaller_ne _ _ _ _ hkj]
      exact hi.hsub k hk
  · exact hi.hdec
  · intro k hk
    dsimp only
    by_cases hkj : k = j
    · subst hkj
      rw [setCaller_same]
      intro h1 _
      exact hi.hout k hk h1 (Or.inr (Or.inl hloc))
    · rw [setCaller_ne _ _ _ _ hkj]
      exact hi.hout k hk
  · intro k hk
    dsimp only
    by_cases hkj : k = j
    · subst hkj
      rw [setCaller_same]
      intro _ hl
      simp [Caller.moveTo] at hl
    · rw [setCaller_ne _ _ _ _ hkj]
      exact hi.hret k hk

theorem inv_exit2 (inp : Nat → Nat → SyncArgs) (n : Nat) (y y1 : Sys) (j : Nat)
    (hj : j < n) (hi : Inv inp n y) (h : step inp (Action.exit2 j) y = some y1) :
    Inv inp n y1 := by
  simp only [step] at h
  split_ifs at h with hloc
  have hok1 : y.shared.ok1 = false := by
    cases hb : y.shared.ok1
    · rfl
    · have := ((hi.hopen hb).2.2.2 j hj).1
      rw [hloc] at this
      simp at this
  obtain ⟨hiff, hlt, hall⟩ := hi.hclosed hok1
  have hcalls : (y.caller j).calls = y.decisions := by
    rcases hall j hj with ⟨_, h2⟩ | ⟨h1, _⟩
    · exact h2
    · rw [hloc] at h1
      exact Loc.noConfusion h1
  cases h
  have hc1 := cnt_setCaller inPhase1 y.caller j
    { loc := Loc.idle, calls := (y.caller j).calls, deltatime := (y.caller j).deltatime,
      ret := (syncPhase2Exit y.shared).retval } n hj
  have hc2 := cnt_setCaller inPhase2 y.caller j
    { loc := Loc.idle, calls := (y.caller j).calls, deltatime := (y.caller j).deltatime,
      ret := (syncPhase2Exit y.shared).retval } n hj
  simp [hloc, inPhase1, inPhase2, syncPhase2Exit] at hc1 hc2
  have h1 := hi.htc1
  have h2 := hi.htc2
  constructor
  · exact hi.hn
  · exact hi.hmax
  · dsimp only [syncPhase2Exit]
    rw [h1, hc1]
  · dsimp only [syncPhase2Exit]
    omega
  · intro hf
    exact absurd (hf.symm.trans hok1) (by decide)
  · intro _
    refine ⟨?_, hlt, ?_⟩
    · dsimp only [syncPhase2Exit]
      have hpos : 0 < y.shared.threadcount2 := by omega
      have hok2 := hiff.mpr hpos
      split_ifs with h0
      · simp only [Bool.false_eq_true, false_iff]
        omega
      · rw [hok2]
        simp only [true_iff]
        omega
    · intro k hk
      dsimp only
      by_cases hkj : k = j
      · subst hkj
        rw [setCaller_same]
        exact Or.inl ⟨Or.inl rfl, hcalls⟩
      · rw [setCaller_ne _ _ _ _ hkj]
        exact hall k hk
  · intro k hk
    dsimp only
    by_cases hkj : k = j
    · subst hkj
      rw [setCaller_same]
      exact hi.hsub k hk
    · rw [setCaller_ne _ _ _ _ hkj]
      exact hi.hsub k hk
  · exact hi.hdec
  · intro k hk
    dsimp only
    by_cases hkj : k = j
    · subst hkj
      rw [setCaller_same]
      intro h3 _
      exact hi.hout k hk h3 (Or.inr (Or.inr hloc))
    · rw [setCaller_ne _ _ _ _ hkj]
      exact hi.hout k hk
  · intro k hk
    dsimp only
    by_cases hkj : k = j
    · subst hkj
      rw [setCaller_same]
      intro h3 _
      dsimp only [syncPhase2Exit] at h3 ⊢
      rw [hcalls] at h3 ⊢
      exact (hi.hdec h3).2
    · rw [setCaller_ne _ _ _ _ hkj]
      exact hi.hret k hk

theorem inv_exit1 (inp : Nat → Nat → SyncArgs) (n : Nat) (hn : 2 ≤ n) (y y1 : Sys) (j : Nat)
    (hj : j < n) (hi : Inv inp n y) (h : step inp (Action.exit1 j) y = some y1) :
    Inv inp n y1 := by
  simp only [step] at h
  split_ifs at h with hloc
  have hok1 : y.shared.ok1 = true := by
    cases hb : y.shared.ok1
    · rcases (hi.hclosed hb).2.2 j hj with ⟨h1, _⟩ | ⟨h1, _⟩
      · rw [hloc] at h1
        simp at h1
      · rw [hloc] at h1
        exact Loc.noConfusion h1
    · rfl
  obtain ⟨hok2, hpos, hg, hall⟩ := hi.hopen hok1
  have hidx : ((j : Int) + 1 - 1) = (j : Int) := by omega
  cases h
  have hc1 := cnt_setCaller inPhase1 y.caller j
    { loc := Loc.wait2, calls := (y.caller j).calls,
      deltatime := (syncPhase1Exit y.shared ((j : Int) + 1)).2, ret := (y.caller j).ret } n hj
  have hc2 := cnt_setCaller inPhase2 y.caller j
    { loc := Loc.wait2, calls := (y.caller j).calls,
      deltatime := (syncPhase1Exit y.shared ((j : Int) + 1)).2, ret := (y.caller j).ret } n hj
  simp [hloc, inPhase1, inPhase2, syncPhase1Exit, hidx] at hc1 hc2
  have h1 := hi.htc1
  have h2 := hi.htc2
  have hmax := hi.hmax
  have hcaller : ∀ k, k < n →
      (setCaller y.caller j
        { loc := Loc.wait2, calls := (y.caller j).calls,
          deltatime := y.shared.newdelta3 (j : Int), ret := (y.caller j).ret } k).calls
        = y.decisions ∧
      ((setCaller y.caller j
        { loc := Loc.wait2, calls := (y.caller j).calls,
          deltatime := y.shared.newdelta3 (j : Int), ret := (y.caller j).ret } k).loc
        = Loc.wait2 ∨
       inPhase1 (setCaller y.caller j
        { loc := Loc.wait2, calls := (y.caller j).calls,
          deltatime := y.shared.newdelta3 (j : Int), ret := (y.caller j).ret } k).loc
        = true) := by
    intro k hk
    by_cases hkj : k = j
    · subst hkj
      rw [setCaller_same]
      exact ⟨(hall k hk).2, Or.inl rfl⟩
    · rw [setCaller_ne _ _ _ _ hkj]
      refine ⟨(hall k hk).2, ?_⟩
      rcases (hall k hk).1 with h3 | h3 | h3
      · exact Or.inr (by rw [h3]; rfl)
      · exact Or.inr (by rw [h3]; rfl)
      · exact Or.inl h3
  by_cases hlast : y.shared.threadcount1 - 1 = 0
  · -- the last participant leaves phase 1: `ok1` falls, `ok2` rises
    have hz : cnt inPhase1 (setCaller y.caller j
        { loc := Loc.wait2, calls := (y.caller j).calls,
          deltatime := y.shared.newdelta3 (j : Int), ret := (y.caller j).ret }) n = 0 := by
      omega
    have hnone := (cnt_eq_zero_iff _ _ _).mp hz
    have hallw : ∀ k, k < n → (setCaller y.caller j
        { loc := Loc.wait2, calls := (y.caller j).calls,
          deltatime := y.shared.newdelta3 (j : Int), ret := (y.caller j).ret } k).loc
        = Loc.wait2 := by
      intro k hk
      rcases (hcaller k hk).2 with h3 | h3
      · exact h3
      · rw [hnone k hk] at h3
        exact Bool.noConfusion h3
    have hfull : cnt inPhase2 (setCaller y.caller j
        { loc := Loc.wait2, calls := (y.caller j).calls,
          deltatime := y.shared.newdelta3 (j : Int), ret := (y.caller j).ret }) n = n :=
      (cnt_eq_all_iff _ _ _).mpr (fun k hk => by rw [hallw k hk]; rfl)
    have htc2 : y.shared.threadcount2 + 1 = y.shared.threadmax := by omega
    constructor
    · exact hi.hn
    · exact hi.hmax
    · dsimp only [syncPhase1Exit]
      rw [hidx]
      omega
    · dsimp only [syncPhase1Exit]
      rw [hidx]
      omega
    · intro hf
      simp [syncPhase1Exit, hlast] at hf
    · intro _
      refine ⟨?_, ?_, ?_⟩
      · simp only [syncPhase1Exit, hlast, htc2, if_true, and_self, true_iff]
        omega
      · simp only [syncPhase1Exit, hlast]
        omega
      · intro k hk
        dsimp only [syncPhase1Exit]
        rw [hidx]
        exact Or.inl ⟨Or.inr (Or.inl (hallw k hk)), (hcaller k hk).1⟩
    · intro k hk
      dsimp only [syncPhase1Exit]
      rw [hidx]
      by_cases hkj : k = j
      · subst hkj
        rw [setCaller_same]
        exact hi.hsub k hk
      · rw [setCaller_ne _ _ _ _ hkj]
        exact hi.hsub k hk
    · exact hi.hdec
    · intro k hk
      dsimp only [syncPhase1Exit]
      rw [hidx]
      by_cases hkj : k = j
      · subst hkj
        rw [setCaller_same]
        intro h3 _
        dsimp only at h3 ⊢
        rw [(hall k hk).2] at h3 ⊢
        exact (hi.hdec h3).1 k hk
      · rw [setCaller_ne _ _ _ _ hkj]
        exact hi.hout k hk
    · intro k hk
      dsimp only [syncPhase1Exit]
      rw [hidx]
      intro _ hl
      rw [hallw k hk] at hl
      exact Loc.noConfusion hl
  · -- somebody is still in phase 1: both flags stay
    constructor
    · exact hi.hn
    · exact hi.hmax
    · dsimp only [syncPhase1Exit]
      rw [hidx]
      omega
    · dsimp only [syncPhase1Exit]
      rw [hidx]
      omega
    · intro _
      refine ⟨?_, ?_, hg, ?_⟩
      · simp [syncPhase1Exit, hlast, hok1, hok2]
      · simp only [syncPhase1Exit]
        omega
      · intro k hk
        dsimp only [syncPhase1Exit]
        rw [hidx]
        refine ⟨?_, (hcaller k hk).1⟩
        by_cases hkj : k = j
        · subst hkj
          rw [setCaller_same]
          exact Or.inr (Or.inr rfl)
        · rw [setCaller_ne _ _ _ _ hkj]
          exact (hall k hk).1
    · intro hf
      simp [syncPhase1Exit, hlast, hok1] at hf
    · intro k hk
      dsimp only [syncPhase1Exit]
      rw [hidx]
      by_cases hkj : k = j
      · subst hkj
        rw [setCaller_same]
        exact hi.hsub k hk
      · rw [setCaller_ne _ _ _ _ hkj]
        exact hi.hsub k hk
    · exact hi.hdec
    · intro k hk
      dsimp only [syncPhase1Exit]
      rw [hidx]
      by_cases hkj : k = j
      · subst hkj
        rw [setCaller_same]
        intro h3 _
        dsimp only at h3 ⊢
        rw [(hall k hk).2] at h3 ⊢
        exact (hi.hdec h3).1 k hk
      · rw [setCaller_ne _ _ _ _ hkj]
        exact hi.hout k hk
    · intro k hk
      dsimp only [syncPhase1Exit]
      rw [hidx]
      by_cases hkj : k = j
      · subst hkj
        rw [setCaller_same]
        intro _ hl
        exact Loc.noConfusion hl
      · rw [setCaller_ne _ _ _ _ hkj]
        exact hi.hret k hk

theorem syncSubmit_last (s : State) (a d : ℚ) (r ident : Int) (h1 : s.numthreads ≠ 1)
    (h2 : s.threadcount1 + 1 = s.numthreads) :
    syncSubmit s a d r ident =
      { s with
        threadcount1 := s.threadcount1 + 1
        delt3 := setSlot s.delt3 (ident - 1) d
        redos3 := setSlot s.redos3 (ident - 1) r
        act3 := setSlot s.act3 (ident - 1) a
        loca3 := setSlot s.loca3 (ident - 1) 1
        newdelta3 := fillLoop s.newdelta3
          (decideLoop (setSlot s.delt3 (ident - 1) d) (setSlot s.redos3 (ident - 1) r)
            s.numthreads.toNat).1 s.numthreads.toNat
        retval :=
          (decideLoop (setSlot s.delt3 (ident - 1) d) (setSlot s.redos3 (ident - 1) r)
            s.numthreads.toNat).2
        ok1 := true } := by
  simp [syncSubmit, h1, h2]

theorem syncSubmit_early (s : State) (a d : ℚ) (r ident : Int) (h1 : s.numthreads ≠ 1)
    (h2 : s.threadcount1 + 1 ≠ s.numthreads) :
    syncSubmit s a d r ident =
      { s with
        threadcount1 := s.threadcount1 + 1
        delt3 := setSlot s.delt3 (ident - 1) d
        redos3 := setSlot s.redos3 (ident - 1) r
        act3 := setSlot s.act3 (ident - 1) a
        loca3 := setSlot s.loca3 (ident - 1) 1 } := by
  simp [syncSubmit, h1, h2]

theorem syncSubmit_single (s : State) (a d : ℚ) (r ident : Int) (h1 : s.numthreads = 1) :
    syncSubmit s a d r ident =
      { s with
        threadcount1 := s.threadcount1 + 1
        delt3 := setSlot s.delt3 (ident - 1) d
        redos3 := setSlot s.redos3 (ident - 1) r
        act3 := setSlot s.act3 (ident - 1) a
        loca3 := setSlot s.loca3 (ident - 1) 1
        newdelta3 := setSlot s.newdelta3 (ident - 1) d
        retval := r
        ok1 := true
        ok2 := true } := by
  simp [syncSubmit, h1, setSlot]

theorem setSlot_same {α : Type} (a : Int → α) (i : Int) (v : α) : setSlot a i v i = v := by
  simp [setSlot]

theorem setSlot_ne {α : Type} (a : Int → α) (i : Int) (v : α) (k : Int) (h : k ≠ i) :
    setSlot a i v k = a k := by
  simp [setSlot, h]

theorem roundDecision_of_slots (inp : Nat → Nat → SyncArgs) (n r : Nat)
    (d : Int → ℚ) (f : Int → Int)
    (h : ∀ i : Nat, i < n →
      d (i : Int) = (inp i r).deltatime ∧ f (i : Int) = (inp i r).redostep) :
    decideLoop d f n = roundDecision inp n r := by
  unfold roundDecision
  apply decideLoop_congr
  intro i hi
  simp only [Int.toNat_ofNat]
  exact h i hi

theorem inv_submit (inp : Nat → Nat → SyncArgs) (n : Nat) (hn : 2 ≤ n) (y y1 : Sys) (j : Nat)
    (hj : j < n) (hi : Inv inp n y) (h : step inp (Action.submit j) y = some y1) :
    Inv inp n y1 := by
  simp only [step] at h
  by_cases hloc : (y.caller j).loc = Loc.idle
  swap
  · rw [if_neg hloc] at h
    exact Option.noConfusion h
  rw [if_pos hloc] at h
  have hy1 := Option.some.inj h
  subst hy1
  have hok1 : y.shared.ok1 = false := by
    cases hb : y.shared.ok1
    · rfl
    · have := ((hi.hopen hb).2.2.2 j hj).1
      rw [hloc] at this
      simp at this
  obtain ⟨hiff, hlt, hall⟩ := hi.hclosed hok1
  have hcalls : (y.caller j).calls = y.decisions := by
    rcases hall j hj with ⟨_, h2⟩ | ⟨h1, _⟩
    · exact h2
    · rw [hloc] at h1
      exact Loc.noConfusion h1
  have hne : y.shared.numthreads ≠ 1 := by
    rw [hi.hn]
    omega
  have hidx : ((j : Int) + 1 - 1) = (j : Int) := by omega
  have hc1 := cnt_setCaller inPhase1 y.caller j
    { loc := Loc.wait1, calls := (y.caller j).calls + 1,
      deltatime := (inp j (y.caller j).calls).deltatime, ret := (y.caller j).ret } n hj
  have hc2 := cnt_setCaller inPhase2 y.caller j
    { loc := Loc.wait1, calls := (y.caller j).calls + 1,
      deltatime := (inp j (y.caller j).calls).deltatime, ret := (y.caller j).ret } n hj
  simp [hloc, inPhase1, inPhase2] at hc1 hc2
  have h1 := hi.htc1
  have h2 := hi.htc2
  have hnum := hi.hn
  -- the submissions recorded in the slots after this step
  have hsub : ∀ k, k < n →
      1 ≤ (setCaller y.caller j
        { loc := Loc.wait1, calls := (y.caller j).calls + 1,
          deltatime := (inp j (y.caller j).calls).deltatime, ret := (y.caller j).ret } k).calls →
      setSlot y.shared.delt3 (j : Int) (inp j (y.caller j).calls).deltatime (k : Int)
        = (inp k ((setCaller y.caller j
            { loc := Loc.wait1, calls := (y.caller j).calls + 1,
              deltatime := (inp j (y.caller j).calls).deltatime,
              ret := (y.caller j).ret } k).calls - 1)).deltatime ∧
      setSlot y.shared.redos3 (j : Int) (inp j (y.caller j).calls).redostep (k : Int)
        = (inp k ((setCaller y.caller j
            { loc := Loc.wait1, calls := (y.caller j).calls + 1,
              deltatime := (inp j (y.caller j).calls).deltatime,
              ret := (y.caller j).ret } k).calls - 1)).redostep := by
    intro k hk
    by_cases hkj : k = j
    · subst hkj
      rw [setCaller_same, setSlot_same, setSlot_same]
      intro _
      exact ⟨rfl, rfl⟩
    · have hkj2 : (k : Int) ≠ (j : Int) := by omega
      rw [setCaller_ne _ _ _ _ hkj, setSlot_ne _ _ _ _ hkj2, setSlot_ne _ _ _ _ hkj2]
      exact hi.hsub k hk
  by_cases hlast : y.shared.threadcount1 + 1 = y.shared.numthreads
  · -- the submission that completes the round: decision branch
    rw [syncSubmit_last _ _ _ _ _ hne hlast, if_pos ⟨hne, hlast⟩, hidx]
    have hfull : cnt inPhase1 (setCaller y.caller j
        { loc := Loc.wait1, calls := (y.caller j).calls + 1,
          deltatime := (inp j (y.caller j).calls).deltatime, ret := (y.caller j).ret }) n
        = n := by
      omega
    have hallp := (cnt_eq_all_iff _ _ _).mp hfull
    have hallw : ∀ k, k < n →
        (setCaller y.caller j
          { loc := Loc.wait1, calls := (y.caller j).calls + 1,
            deltatime := (inp j (y.caller j).calls).deltatime,
            ret := (y.caller j).ret } k).loc = Loc.wait1 ∧
        (setCaller y.caller j
          { loc := Loc.wait1, calls := (y.caller j).calls + 1,
            deltatime := (inp j (y.caller j).calls).deltatime,
            ret := (y.caller j).ret } k).calls = y.decisions + 1 := by
      intro k hk
      have hp := hallp k hk
      by_cases hkj : k = j
      · subst hkj
        rw [setCaller_same]
        exact ⟨rfl, by rw [hcalls]⟩
      · rw [setCaller_ne _ _ _ _ hkj] at hp ⊢
        rcases hall k hk with ⟨h3, _⟩ | h3
        · rcases h3 with h3 | h3 | h3 <;> rw [h3] at hp <;> exact Bool.noConfusion hp
        · exact h3
    have hzero : cnt inPhase2 (setCaller y.caller j
        { loc := Loc.wait1, calls := (y.caller j).calls + 1,
          deltatime := (inp j (y.caller j).calls).deltatime, ret := (y.caller j).ret }) n
        = 0 :=
      (cnt_eq_zero_iff _ _ _).mpr (fun k hk => by rw [(hallw k hk).1]; rfl)
    have hok2 : y.shared.ok2 = false := by
      cases hb : y.shared.ok2
      · rfl
      · have := hiff.mp hb
        omega
    have hdecide :
        decideLoop (setSlot y.shared.delt3 (j : Int) (inp j (y.caller j).calls).deltatime)
          (setSlot y.shared.redos3 (j : Int) (inp j (y.caller j).calls).redostep) n
          = roundDecision inp n y.decisions := by
      apply roundDecision_of_slots
      intro i hi2
      have := hsub i hi2 (by rw [(hallw i hi2).2]; omega)
      rw [(hallw i hi2).2] at this
      simpa using this
    have htonat : y.shared.numthreads.toNat = n := by
      rw [hnum]
      exact Int.toNat_ofNat n
    constructor
    · exact hi.hn
    · exact hi.hmax
    · dsimp only
      omega
    · dsimp only
      omega
    · intro _
      refine ⟨hok2, ?_, ?_, ?_⟩
      · dsimp only
        omega
      · exact Nat.le_add_left 1 y.decisions
      · intro k hk
        exact ⟨Or.inl (hallw k hk).1, (hallw k hk).2⟩
    · intro hf
      exact Bool.noConfusion hf
    · exact hsub
    · intro _
      dsimp only
      rw [htonat, hdecide, Nat.add_sub_cancel]
      refine ⟨?_, rfl⟩
      intro k hk
      rw [fillLoop_apply, if_pos]
      omega
    · intro k hk _ hl
      dsimp only at hl
      rw [(hallw k hk).1] at hl
      simp at hl
    · intro k hk _ hl
      dsimp only at hl
      rw [(hallw k hk).1] at hl
      simp at hl
  · -- an earlier submission of the round: only the slots and the counter change
    have hnot : ¬ (y.shared.numthreads ≠ 1 ∧ y.shared.threadcount1 + 1 = y.shared.numthreads) :=
      fun hh => hlast hh.2
    rw [syncSubmit_early _ _ _ _ _ hne hlast, if_neg hnot, hidx]
    constructor
    · exact hi.hn
    · exact hi.hmax
    · dsimp only
      omega
    · dsimp only
      omega
    · intro hf
      exact absurd (hf.symm.trans hok1) (by decide)
    · intro _
      refine ⟨?_, ?_, ?_⟩
      · exact hiff
      · dsimp only
        omega
      · intro k hk
        dsimp only
        by_cases hkj : k = j
        · subst hkj
          rw [setCaller_same]
          exact Or.inr ⟨rfl, by rw [hcalls]⟩
        · rw [setCaller_ne _ _ _ _ hkj]
          exact hall k hk
    · exact hsub
    · exact hi.hdec
    · intro k hk
      dsimp only
      by_cases hkj : k = j
      · subst hkj
        rw [setCaller_same]
        intro _ hl
        simp at hl
      · rw [setCaller_ne _ _ _ _ hkj]
        exact hi.hout k hk
    · intro k hk
      dsimp only
      by_cases hkj : k = j
      · subst hkj
        rw [setCaller_same]
        intro _ hl
        simp at hl
      · rw [setCaller_ne _ _ _ _ hkj]
        exact hi.hret k hk

/-! ## Runs -/

/-- A step changes only the record of the participant that takes it, and a stopped
participant takes none. -/
theorem step_caller (inp : Nat → Nat → SyncArgs) (a : Action) (y y1 : Sys)
    (h : step inp a y = some y1) :
    (y.caller a.who).loc ≠ Loc.stopped ∧ ∃ v, y1.caller = setCaller y.caller a.who v := by
  cases a with
  | submit j =>
    simp only [step] at h
    by_cases hc : (y.caller j).loc = Loc.idle
    · rw [if_pos hc] at h
      cases h
      exact ⟨by rw [Action.who, hc]; decide, _, rfl⟩
    · rw [if_neg hc] at h
      exact Option.noConfusion h
  | see1 j =>
    simp only [step] at h
    by_cases hc : (y.caller j).loc = Loc.wait1 ∧ spin1 y.shared = false
    · rw [if_pos hc] at h
      cases h
      exact ⟨by rw [Action.who, hc.1]; decide, _, rfl⟩
    · rw [if_neg hc] at h
      exact Option.noConfusion h
  | exit1 j =>
    simp only [step] at h
    by_cases hc : (y.caller j).loc = Loc.ready1
    · rw [if_pos hc] at h
      cases h
      exact ⟨by rw [Action.who, hc]; decide, _, rfl⟩
    · rw [if_neg hc] at h
      exact Option.noConfusion h
  | see2 j =>
    simp only [step] at h
    by_cases hc : (y.caller j).loc = Loc.wait2 ∧ spin2 y.shared = false
    · rw [if_pos hc] at h
      cases h
      exact ⟨by rw [Action.who, hc.1]; decide, _, rfl⟩
    · rw [if_neg hc] at h
      exact Option.noConfusion h
  | exit2 j =>
    simp only [step] at h
    by_cases hc : (y.caller j).loc = Loc.ready2
    · rw [if_pos hc] at h
      cases h
      exact ⟨by rw [Action.who, hc]; decide, _, rfl⟩
    · rw [if_neg hc] at h
      exact Option.noConfusion h
  | leave j =>
    simp only [step] at h
    by_cases hc : (y.caller j).loc = Loc.idle
    · rw [if_pos hc] at h
      cases h
      exact ⟨by rw [Action.who, hc]; decide, _, rfl⟩
    · rw [if_neg hc] at h
      exact Option.noConfusion h

theorem outside_init (n : Nat) : Outside n (initSys n) := by
  intro j hj
  have : ¬ j < n := by omega
  simp [initSys, this]

theorem outside_step (inp : Nat → Nat → SyncArgs) (n : Nat) (a : Action) (y y1 : Sys)
    (ho : Outside n y) (h : step inp a y = some y1) : a.who < n ∧ Outside n y1 := by
  obtain ⟨hne, v, hv⟩ := step_caller inp a y y1 h
  have hlt : a.who < n := by
    by_contra hge
    exact hne (ho a.who (by omega))
  refine ⟨hlt, ?_⟩
  intro j hj
  rw [hv, setCaller_ne _ _ _ _ (by omega)]
  exact ho j hj

theorem inv_step (inp : Nat → Nat → SyncArgs) (n : Nat) (hn : 2 ≤ n) (a : Action)
    (y y1 : Sys) (hi : Inv inp n y) (ho : Outside n y) (ha : a.isSync = true)
    (h : step inp a y = some y1) : Inv inp n y1 := by
  have hlt := (outside_step inp n a y y1 ho h).1
  cases a with
  | submit j => exact inv_submit inp n hn y y1 j hlt hi h
  | see1 j => exact inv_see1 inp n hn y y1 j hlt hi h
  | exit1 j => exact inv_exit1 inp n hn y y1 j hlt hi h
  | see2 j => exact inv_see2 inp n hn y y1 j hlt hi h
  | exit2 j => exact inv_exit2 inp n y y1 j hlt hi h
  | leave j => exact Bool.noConfusion ha

theorem inv_run (inp : Nat → Nat → SyncArgs) (n : Nat) (hn : 2 ≤ n) (tr : List Action) :
    ∀ y y1 : Sys, Inv inp n y → Outside n y → (∀ a, a ∈ tr → a.isSync = true) →
      run inp tr y = some y1 → Inv inp n y1 ∧ Outside n y1 := by
  induction tr with
  | nil =>
    intro y y1 hi ho _ h
    simp only [run] at h
    cases h
    exact ⟨hi, ho⟩
  | cons a tr ih =>
    intro y y1 hi ho hs h
    simp only [run] at h
    cases hst : step inp a y with
    | none =>
      rw [hst] at h
      exact Option.noConfusion h
    | some y2 =>
      rw [hst] at h
      have ha := hs a (List.mem_cons_self a tr)
      exact ih y2 y1 (inv_step inp n hn a y y2 hi ho ha hst) (outside_step inp n a y y2 ho hst).2
        (fun b hb => hs b (List.mem_cons_of_mem a hb)) h

theorem inv_reach (inp : Nat → Nat → SyncArgs) (n : Nat) (hn : 2 ≤ n) (tr : List Action)
    (y : Sys) (hs : ∀ a, a ∈ tr → a.isSync = true) (h : run inp tr (initSys n) = some y) :
    Inv inp n y ∧ Outside n y :=
  inv_run inp n hn tr (initSys n) y (inv_init inp n hn) (outside_init n) hs h

theorem run_append (inp : Nat → Nat → SyncArgs) (tr1 tr2 : List Action) (y y1 : Sys)
    (h : run inp tr1 y = some y1) : run inp (tr1 ++ tr2) y = run inp tr2 y1 := by
  induction tr1 generalizing y with
  | nil =>
    simp only [run] at h
    cases h
    rfl
  | cons a tr ih =>
    simp only [run, List.cons_append] at h ⊢
    cases hst : step inp a y with
    | none =>
      rw [hst] at h
      exact Option.noConfusion h
    | some y2 =>
      rw [hst] at h
      exact ih y2 h

/-! ## Progress of the barrier -/

theorem inCall_isSync (a : Action) (h : a.inCall = true) : a.isSync = true := by
  cases a <;> first | rfl | exact Bool.noConfusion h

/-- A participant inside `ng_SyncData` is held up only by a participant that has not
yet submitted to the same round: otherwise some participant inside the call can take
its next step. -/
theorem progress (inp : Nat → Nat → SyncArgs) (n : Nat) (y : Sys)
    (hi : Inv inp n y) (j : Nat) (hj : j < n) (hloc : (y.caller j).loc ≠ Loc.idle) :
    (∃ k, k < n ∧ (y.caller k).loc = Loc.idle ∧ (y.caller k).calls < (y.caller j).calls) ∨
    (∃ a y2, a.inCall = true ∧ a.who < n ∧ step inp a y = some y2) := by
  have hnum := hi.hn
  cases hb : y.shared.ok1 with
  | true =>
    obtain ⟨_, hpos, _, hall⟩ := hi.hopen hb
    have hp : 0 < cnt inPhase1 y.caller n := by
      have := hi.htc1
      omega
    obtain ⟨k, hk, hin⟩ := (cnt_pos_iff _ _ _).mp hp
    right
    rcases (hall k hk).1 with h1 | h1 | h1
    · have hsp : spin1 y.shared = false := (spin1_false_iff _).mpr (Or.inl hb)
      exact ⟨Action.see1 k, _, rfl, hk, by
        simp only [step]
        rw [if_pos ⟨h1, hsp⟩]⟩
    · exact ⟨Action.exit1 k, _, rfl, hk, by
        simp only [step]
        rw [if_pos h1]⟩
    · rw [h1] at hin
      exact Bool.noConfusion hin
  | false =>
    obtain ⟨hiff, hlt, hall⟩ := hi.hclosed hb
    by_cases hp : 0 < cnt inPhase2 y.caller n
    · obtain ⟨k, hk, hin⟩ := (cnt_pos_iff _ _ _).mp hp
      have hok2 : y.shared.ok2 = true := hiff.mpr (by have := hi.htc2; omega)
      right
      by_cases hw : (y.caller k).loc = Loc.wait2
      · have hsp : spin2 y.shared = false := (spin2_false_iff _).mpr (Or.inl hok2)
        exact ⟨Action.see2 k, _, rfl, hk, by
          simp only [step]
          rw [if_pos ⟨hw, hsp⟩]⟩
      · have hr : (y.caller k).loc = Loc.ready2 := by
          unfold inPhase2 at hin
          simp only [Bool.or_eq_true, decide_eq_true_eq] at hin
          rcases hin with h1 | h1
          · exact absurd h1 hw
          · exact h1
        exact ⟨Action.exit2 k, _, rfl, hk, by
          simp only [step]
          rw [if_pos hr]⟩
    · have hz : cnt inPhase2 y.caller n = 0 := by omega
      have hnone := (cnt_eq_zero_iff _ _ _).mp hz
      have hshape : ∀ k, k < n →
          ((y.caller k).loc = Loc.idle ∧ (y.caller k).calls = y.decisions) ∨
          ((y.caller k).loc = Loc.wait1 ∧ (y.caller k).calls = y.decisions + 1) := by
        intro k hk
        rcases hall k hk with ⟨h1 | h1 | h1, h2⟩ | h1
        · exact Or.inl ⟨h1, h2⟩
        · have := hnone k hk
          rw [h1] at this
          exact Bool.noConfusion this
        · have := hnone k hk
          rw [h1] at this
          exact Bool.noConfusion this
        · exact Or.inr h1
      have hjw : (y.caller j).calls = y.decisions + 1 := by
        rcases hshape j hj with h1 | h1
        · exact absurd h1.1 hloc
        · exact h1.2
      have hnotall : ¬ ∀ k, k < n → inPhase1 (y.caller k).loc = true := by
        intro hall1
        have := (cnt_eq_all_iff _ _ _).mpr hall1
        have := hi.htc1
        omega
      left
      by_contra hcon
      apply hnotall
      intro k hk
      rcases hshape k hk with h1 | h1
      · exact absurd ⟨k, hk, h1.1, by rw [h1.2, hjw]; omega⟩ hcon
      · rw [h1.1]
        rfl

theorem total_setCaller_ge (f : Caller → Nat) (c : Nat → Caller) (j : Nat) (v : Caller)
    (n : Nat) (h : n ≤ j) : total f (setCaller c j v) n = total f c n := by
  induction n with
  | zero => rfl
  | succ n ih =>
    have hne : n ≠ j := by omega
    simp only [total, setCaller_ne _ _ _ _ hne, ih (by omega)]

theorem total_setCaller (f : Caller → Nat) (c : Nat → Caller) (j : Nat) (v : Caller)
    (n : Nat) (h : j < n) :
    total f (setCaller c j v) n + f (c j) = total f c n + f v := by
  induction n with
  | zero => exact absurd h (Nat.not_lt_zero j)
  | succ n ih =>
    rcases Nat.lt_succ_iff_lt_or_eq.mp h with h1 | h1
    · have hne : n ≠ j := by omega
      have := ih h1
      simp only [total, setCaller_ne _ _ _ _ hne]
      omega
    · subst h1
      simp only [total, setCaller_same, total_setCaller_ge f c j v j (le_refl j)]
      omega

theorem total_eq_zero (f : Caller → Nat) (c : Nat → Caller) (n : Nat)
    (h : total f c n = 0) : ∀ j, j < n → f (c j) = 0 := by
  induction n with
  | zero =>
    intro j hj
    exact absurd hj (Nat.not_lt_zero j)
  | succ n ih =>
    simp only [total] at h
    intro j hj
    rcases Nat.lt_succ_iff_lt_or_eq.mp hj with h1 | h1
    · exact ih (by omega) j h1
    · subst h1
      omega

theorem total_pos (f : Caller → Nat) (c : Nat → Caller) (n : Nat)
    (h : 0 < total f c n) : ∃ j, j < n ∧ 0 < f (c j) := by
  induction n with
  | zero => exact absurd h (Nat.lt_irrefl 0)
  | succ n ih =>
    simp only [total] at h
    by_cases h0 : 0 < f (c n)
    · exact ⟨n, Nat.lt_succ_self n, h0⟩
    · obtain ⟨j, hj, hp⟩ := ih (by omega)
      exact ⟨j, Nat.lt_succ_of_lt hj, hp⟩

theorem step_effect (inp : Nat → Nat → SyncArgs) (a : Action) (y y1 : Sys)
    (h : step inp a y = some y1) :
    (y.caller a.who).loc = a.src ∧
    ∃ v, y1.caller = setCaller y.caller a.who v ∧ v.loc = a.dst ∧
      v.calls = (y.caller a.who).calls + a.begins := by
  cases a with
  | submit j =>
    simp only [step] at h
    by_cases hc : (y.caller j).loc = Loc.idle
    · rw [if_pos hc] at h
      cases h
      exact ⟨hc, _, rfl, rfl, rfl⟩
    · rw [if_neg hc] at h
      exact Option.noConfusion h
  | see1 j =>
    simp only [step] at h
    by_cases hc : (y.caller j).loc = Loc.wait1 ∧ spin1 y.shared = false
    · rw [if_pos hc] at h
      cases h
      exact ⟨hc.1, _, rfl, rfl, rfl⟩
    · rw [if_neg hc] at h
      exact Option.noConfusion h
  | exit1 j =>
    simp only [step] at h
    by_cases hc : (y.caller j).loc = Loc.ready1
    · rw [if_pos hc] at h
      cases h
      exact ⟨hc, _, rfl, rfl, rfl⟩
    · rw [if_neg hc] at h
      exact Option.noConfusion h
  | see2 j =>
    simp only [step] at h
    by_cases hc : (y.caller j).loc = Loc.wait2 ∧ spin2 y.shared = false
    · rw [if_pos hc] at h
      cases h
      exact ⟨hc.1, _, rfl, rfl, rfl⟩
    · rw [if_neg hc] at h
      exact Option.noConfusion h
  | exit2 j =>
    simp only [step] at h
    by_cases hc : (y.caller j).loc = Loc.ready2
    · rw [if_pos hc] at h
      cases h
      exact ⟨hc, _, rfl, rfl, rfl⟩
    · rw [if_neg hc] at h
      exact Option.noConfusion h
  | leave j =>
    simp only [step] at h
    by_cases hc : (y.caller j).loc = Loc.idle
    · rw [if_pos hc] at h
      cases h
      exact ⟨hc, _, rfl, rfl, rfl⟩
    · rw [if_neg hc] at h
      exact Option.noConfusion h

/-- Every step of `ng_SyncData` that keeps a participant within its `c` calls uses up
one unit of the work that is left. -/
theorem workLeft_step (inp : Nat → Nat → SyncArgs) (n c : Nat) (a : Action) (y y1 : Sys)
    (ha : a.isSync = true) (hlt : a.who < n) (h : step inp a y = some y1)
    (hb : (y.caller a.who).calls + a.begins ≤ c) :
    total (workLeft c) y1.caller n + 1 = total (workLeft c) y.caller n ∧
    ∀ j, (y1.caller j).calls = (y.caller j).calls + (if j = a.who then a.begins else 0) := by
  obtain ⟨hsrc, v, hv, hdst, hcalls⟩ := step_effect inp a y y1 h
  have ht := total_setCaller (workLeft c) y.caller a.who v n hlt
  rw [← hv] at ht
  have hw : workLeft c v + 1 = workLeft c (y.caller a.who) := by
    unfold workLeft
    rw [hsrc, hdst, hcalls]
    cases a <;> simp only [Action.src, Action.dst, Action.begins, remaining] at hb ⊢
    · omega
    · omega
    · omega
    · omega
    · omega
    · exact Bool.noConfusion ha
  refine ⟨by omega, ?_⟩
  intro j
  rw [hv]
  by_cases hj : j = a.who
  · rw [if_pos hj, hj, setCaller_same, hcalls]
  · rw [if_neg hj, setCaller_ne _ _ _ _ hj]
    rfl

/-- From every state the live participants can reach, the calls in progress can be
brought to their return: if no participant has begun more than `c` calls, there is a
continuation after which every participant has returned from its call number `c`. -/
theorem round_completes (inp : Nat → Nat → SyncArgs) (n : Nat) (hn : 2 ≤ n) (c : Nat) :
    ∀ (m : Nat) (y : Sys), Inv inp n y → Outside n y →
      (∀ j, j < n → (y.caller j).calls ≤ c) → total (workLeft c) y.caller n = m →
      ∃ tr y2, (∀ a, a ∈ tr → a.isSync = true) ∧ tr.length = m ∧ run inp tr y = some y2 ∧
        ∀ j, j < n → (y2.caller j).loc = Loc.idle ∧ (y2.caller j).calls = c := by
  intro m
  induction m with
  | zero =>
    intro y hi _ hb hm
    refine ⟨[], y, ?_, rfl, rfl, ?_⟩
    · intro a ha
      exact absurd ha (List.not_mem_nil a)
    · intro j hj
      have h0 := total_eq_zero _ _ _ hm j hj
      unfold workLeft at h0
      have hc := hb j hj
      have hr : remaining (y.caller j).loc = 0 := by omega
      refine ⟨?_, by omega⟩
      cases hb1 : y.shared.ok1 with
      | true =>
        rcases ((hi.hopen hb1).2.2.2 j hj).1 with h1 | h1 | h1 <;> rw [h1] at hr <;>
          simp [remaining] at hr
      | false =>
        rcases (hi.hclosed hb1).2.2 j hj with ⟨h1 | h1 | h1, _⟩ | ⟨h1, _⟩
        · exact h1
        · rw [h1] at hr
          simp [remaining] at hr
        · rw [h1] at hr
          simp [remaining] at hr
        · rw [h1] at hr
          simp [remaining] at hr
  | succ m ih =>
    intro y hi ho hb hm
    -- a step that can be taken without exceeding `c` calls
    have hstep : ∃ a y1, a.isSync = true ∧ a.who < n ∧ step inp a y = some y1 ∧
        (y.caller a.who).calls + a.begins ≤ c := by
      have hsubmit : ∀ k, k < n → (y.caller k).loc = Loc.idle → (y.caller k).calls < c →
          ∃ a y1, a.isSync = true ∧ a.who < n ∧ step inp a y = some y1 ∧
            (y.caller a.who).calls + a.begins ≤ c := by
        intro k hk hl hc
        exact ⟨Action.submit k, _, rfl, hk, by
          simp only [step]
          rw [if_pos hl], by
          simp only [Action.who, Action.begins]
          omega⟩
      by_cases hall : ∀ j, j < n → (y.caller j).loc = Loc.idle
      · obtain ⟨j, hj, hp⟩ := total_pos (workLeft c) y.caller n (by omega)
        unfold workLeft at hp
        rw [hall j hj] at hp
        simp only [remaining] at hp
        exact hsubmit j hj (hall j hj) (by omega)
      · simp only [not_forall] at hall
        obtain ⟨j, hj, hl⟩ := hall
        rcases progress inp n y hi j hj hl with ⟨k, hk, hkl, hkc⟩ | ⟨a, y1, ha, hw, hs⟩
        · exact hsubmit k hk hkl (lt_of_lt_of_le hkc (hb j hj))
        · refine ⟨a, y1, inCall_isSync a ha, hw, hs, ?_⟩
          have h0 : a.begins = 0 := by
            cases a <;> first | rfl | exact Bool.noConfusion ha
          rw [h0]
          exact hb a.who hw
    obtain ⟨a, y1, ha, hw, hs, hle⟩ := hstep
    obtain ⟨hdec, hcalls⟩ := workLeft_step inp n c a y y1 ha hw hs hle
    have hi1 := inv_step inp n hn a y y1 hi ho ha hs
    have ho1 := (outside_step inp n a y y1 ho hs).2
    have hb1 : ∀ j, j < n → (y1.caller j).calls ≤ c := by
      intro j hj
      rw [hcalls j]
      by_cases hja : j = a.who
      · rw [if_pos hja, hja]
        exact hle
      · rw [if_neg hja]
        exact hb j hj
    obtain ⟨tr, y2, htr, hlen, hrun, hfin⟩ := ih y1 hi1 ho1 hb1 (by omega)
    refine ⟨a :: tr, y2, ?_, by simp [hlen], ?_, hfin⟩
    · intro b hbm
      rcases List.mem_cons.mp hbm with h1 | h1
      · rw [h1]
        exact ha
      · exact htr b h1
    · simp only [run, hs]
      exact hrun

/-! ## Agreement of a round (C1) -/

theorem roundDecision_agreedDelta (inp : Nat → Nat → SyncArgs) (n r : Nat) :
    AgreedDelta inp n r (roundDecision inp n r).1 := by
  unfold roundDecision
  refine ⟨decideLoop_fst_le_seed _ _ n, ?_, ?_⟩
  · intro i hi
    have := decideLoop_fst_le (fun i => (inp i.toNat r).deltatime)
      (fun i => (inp i.toNat r).redostep) n i hi
    simpa using this
  · rcases decideLoop_fst_mem (fun i => (inp i.toNat r).deltatime)
      (fun i => (inp i.toNat r).redostep) n with h | ⟨i, hi, h⟩
    · exact Or.inl h
    · exact Or.inr ⟨i, hi, by simpa using h⟩

theorem roundDecision_agreedRedo (inp : Nat → Nat → SyncArgs) (n r : Nat) :
    AgreedRedo inp n r (roundDecision inp n r).2 := by
  unfold roundDecision
  refine ⟨decideLoop_snd_nonneg _ _ n, ?_, ?_⟩
  · intro i hi
    have := decideLoop_snd_ge (fun i => (inp i.toNat r).deltatime)
      (fun i => (inp i.toNat r).redostep) n i hi
    simpa using this
  · rcases decideLoop_snd_mem (fun i => (inp i.toNat r).deltatime)
      (fun i => (inp i.toNat r).redostep) n with h | ⟨i, hi, h⟩
    · exact Or.inl h
    · exact Or.inr ⟨i, hi, by simpa using h⟩

/-- When some proposed step does not exceed `1e30`, the agreed step is the least of the
proposed steps. -/
theorem agreedDelta_isLeast (inp : Nat → Nat → SyncArgs) (n r : Nat) (m : ℚ)
    (h : AgreedDelta inp n r m) (hs : ∃ i, i < n ∧ (inp i r).deltatime ≤ dminSeed) :
    (∀ i, i < n → m ≤ (inp i r).deltatime) ∧ ∃ i, i < n ∧ m = (inp i r).deltatime := by
  obtain ⟨_, h2, h3⟩ := h
  refine ⟨h2, ?_⟩
  rcases h3 with h3 | h3
  · obtain ⟨i, hi, hle⟩ := hs
    exact ⟨i, hi, le_antisymm (h2 i hi) (by rw [h3]; exact hle)⟩
  · exact h3

/-- The agreed redo value is non-zero exactly when some participant asked for a redo
with a positive flag. -/
theorem agreedRedo_ne_zero_iff (inp : Nat → Nat → SyncArgs) (n r : Nat) (v : Int)
    (h : AgreedRedo inp n r v) : v ≠ 0 ↔ ∃ i, i < n ∧ 0 < (inp i r).redostep := by
  obtain ⟨h1, h2, h3⟩ := h
  constructor
  · intro hv
    rcases h3 with h3 | ⟨i, hi, h3⟩
    · exact absurd h3 hv
    · exact ⟨i, hi, by omega⟩
  · rintro ⟨i, hi, hp⟩
    have := h2 i hi
    omega

/-- Claim C1, as amended.  Let all `n ≥ 2` loaded participants be live (none has left)
and let them call `ng_SyncData` over and over, participant `i` proposing
`(inp i r).deltatime` and `(inp i r).redostep` in its call number `r`.  In every state
reached by any interleaving of their steps, a participant past the `sy_cs3` section of
its call `r` holds `min(1e30, d_1, .., d_n)` of round `r` in `*deltatime`, and a
participant that has returned from that call was handed `max(0, r_1, .., r_n)`, which is
non-zero exactly when some request of the round is positive, and the static `retval`
keeps that value until the participant submits again.  Moreover the calls in
progress do return: for every `c` that bounds the calls begun so far there is a
continuation after which every participant has returned from its call `c`. -/
theorem sync_round_agreement (inp : Nat → Nat → SyncArgs) (n : Nat) (hn : 2 ≤ n)
    (tr : List Action) (y : Sys) (hs : ∀ a, a ∈ tr → a.isSync = true)
    (hrun : run inp tr (initSys n) = some y) :
    (∀ j, j < n → 1 ≤ (y.caller j).calls →
      (((y.caller j).loc = Loc.idle ∨ (y.caller j).loc = Loc.wait2 ∨
          (y.caller j).loc = Loc.ready2) →
        AgreedDelta inp n ((y.caller j).calls - 1) (y.caller j).deltatime) ∧
      ((y.caller j).loc = Loc.idle →
        AgreedRedo inp n ((y.caller j).calls - 1) (y.caller j).ret ∧
        ((y.caller j).ret ≠ 0 ↔
          ∃ i, i < n ∧ 0 < (inp i ((y.caller j).calls - 1)).redostep) ∧
        y.shared.retval = (y.caller j).ret)) ∧
    (∀ c, (∀ j, j < n → (y.caller j).calls ≤ c) →
      ∃ tr2 y2, (∀ a, a ∈ tr2 → a.isSync = true) ∧ run inp tr2 y = some y2 ∧
        ∀ j, j < n → (y2.caller j).loc = Loc.idle ∧ (y2.caller j).calls = c) := by
  obtain ⟨hi, ho⟩ := inv_reach inp n hn tr y hs hrun
  refine ⟨?_, ?_⟩
  · intro j hj hc
    refine ⟨?_, ?_⟩
    · intro hl
      rw [hi.hout j hj hc hl]
      exact roundDecision_agreedDelta inp n _
    · intro hl
      have hok1 : y.shared.ok1 = false := by
        cases hb : y.shared.ok1
        · rfl
        · have := ((hi.hopen hb).2.2.2 j hj).1
          rw [hl] at this
          simp at this
      have hcalls : (y.caller j).calls = y.decisions := by
        rcases (hi.hclosed hok1).2.2 j hj with ⟨_, h2⟩ | ⟨h1, _⟩
        · exact h2
        · rw [hl] at h1
          exact Loc.noConfusion h1
      have hstat : y.shared.retval = (y.caller j).ret := by
        rw [hi.hret j hj hc hl, hcalls]
        exact (hi.hdec (by omega)).2
      rw [hi.hret j hj hc hl] at hstat ⊢
      exact ⟨roundDecision_agreedRedo inp n _,
        agreedRedo_ne_zero_iff inp n _ _ (roundDecision_agreedRedo inp n _), hstat⟩
  · intro c hc
    obtain ⟨tr2, y2, h1, _, h3, h4⟩ := round_completes inp n hn c _ y hi ho hc rfl
    exact ⟨tr2, y2, h1, h3, h4⟩

/-- Witness of `sync_round_agreement`: in the example of the specification all three
calls return, and each of them leaves `5e-7` in `*deltatime` and returns non-zero. -/
theorem sync_round_agreement_witness :
    ∃ y, run exampleArgs exampleRound (initSys 3) = some y ∧
      ∀ j, j < 3 → (y.caller j).loc = Loc.idle ∧
        (y.caller j).deltatime = 5 / 10000000 ∧ (y.caller j).ret ≠ 0 := by
  have hsome : (run exampleArgs exampleRound (initSys 3)).isSome = true := by decide
  obtain ⟨y, hy⟩ := Option.isSome_iff_exists.mp hsome
  have hctl0 : (run exampleArgs exampleRound (initSys 3)).map
      (fun y => (List.range 3).map (fun j => ((y.caller j).loc, (y.caller j).calls)))
      = some [(Loc.idle, 1), (Loc.idle, 1), (Loc.idle, 1)] := by decide
  rw [hy] at hctl0
  simp only [Option.map_some', Option.some.injEq] at hctl0
  have hctl : ∀ j, j < 3 → (y.caller j).loc = Loc.idle ∧ (y.caller j).calls = 1 := by
    intro j hj
    simp [List.range, List.range.loop] at hctl0
    interval_cases j
    · exact ⟨hctl0.1.1, hctl0.1.2⟩
    · exact ⟨hctl0.2.1.1, hctl0.2.1.2⟩
    · exact ⟨hctl0.2.2.1, hctl0.2.2.2⟩
  have hsync : ∀ a, a ∈ exampleRound → a.isSync = true := by decide
  have hmain := (sync_round_agreement exampleArgs 3 (by decide) exampleRound y hsync hy).1
  refine ⟨y, hy, ?_⟩
  intro j hj
  obtain ⟨hl, hc⟩ := hctl j hj
  obtain ⟨hd, hr⟩ := hmain j hj (by omega)
  obtain ⟨_, hle, hmem⟩ := hd (Or.inl hl)
  obtain ⟨_, hiff, _⟩ := hr hl
  rw [hc] at hle hmem hiff
  refine ⟨hl, ?_, ?_⟩
  · have h1 := hle 1 (by decide)
    rcases hmem with h | ⟨i, hi, h⟩
    · rw [h] at h1
      norm_num [dminSeed, exampleArgs] at h1
    · interval_cases i
      · rw [h] at h1
        norm_num [exampleArgs] at h1
      · rw [h]
        norm_num [exampleArgs]
      · rw [h] at h1
        norm_num [exampleArgs] at h1
  · exact hiff.mpr ⟨1, by decide, by decide⟩

theorem run_map_some {β : Type} (inp : Nat → Nat → SyncArgs) (tr : List Action) (y0 : Sys)
    (f : Sys → β) (v : β) (h : (run inp tr y0).map f = some v) :
    ∃ y, run inp tr y0 = some y ∧ f y = v := by
  cases hr : run inp tr y0 with
  | none =>
    rw [hr] at h
    exact Option.noConfusion h
  | some y =>
    rw [hr] at h
    exact ⟨y, rfl, Option.some.inj h⟩

/-- Claim C1 fails as stated.  (1) After participant 2 of 3 has left, the two live
participants 1 and 3 propose `1e-6` and `5e-7`; the decision is taken over slots 0 and 1,
so both are handed the stale `1e-9` of participant 2 instead of `5e-7`.  (2) With all
three participants of `main` live and each proposing the double `2^100`
(`1267650600228229401496703205376`, about `1.27e30`), every one is handed the seed, the
double `1e30` (`1000000000000000019884624838656`), which nobody proposed. -/
theorem sync_min_counterexample :
    (∃ y, run shrunkArgs shrunkTrace (initSys 3) = some y ∧
      (y.caller 1).loc = Loc.stopped ∧ y.shared.numthreads = 2 ∧
      (y.caller 0).loc = Loc.wait2 ∧ (y.caller 2).loc = Loc.wait2 ∧
      (y.caller 0).calls = 2 ∧ (y.caller 2).calls = 2 ∧
      (y.caller 0).deltatime = 1 / 1000000000 ∧ (y.caller 2).deltatime = 1 / 1000000000 ∧
      min (shrunkArgs 0 1).deltatime (shrunkArgs 2 1).deltatime = 5 / 10000000) ∧
    (∃ y, run hugeArgs exampleRound (initSys 3) = some y ∧
      (y.caller 0).loc = Loc.idle ∧ (y.caller 1).loc = Loc.idle ∧
      (y.caller 2).loc = Loc.idle ∧
      (y.caller 0).deltatime = 1000000000000000019884624838656 ∧
      (y.caller 1).deltatime = 1000000000000000019884624838656 ∧
      (y.caller 2).deltatime = 1000000000000000019884624838656 ∧
      min (hugeArgs 0 0).deltatime (min (hugeArgs 1 0).deltatime (hugeArgs 2 0).deltatime)
        = 1267650600228229401496703205376) := by
  constructor
  · obtain ⟨y, hy, hf⟩ := run_map_some shrunkArgs shrunkTrace (initSys 3)
      (fun y => ((y.caller 1).loc, y.shared.numthreads, (y.caller 0).loc, (y.caller 2).loc))
      (Loc.stopped, 2, Loc.wait2, Loc.wait2) (by decide)
    obtain ⟨y2, hy2, hg⟩ := run_map_some shrunkArgs shrunkTrace (initSys 3)
      (fun y => ((y.caller 0).calls, (y.caller 2).calls, (y.caller 0).deltatime,
        (y.caller 2).deltatime))
      (2, 2, 1 / 1000000000, 1 / 1000000000) (by decide!)
    rw [hy] at hy2
    cases hy2
    simp only [Prod.mk.injEq] at hf hg
    obtain ⟨h1, h2, h3, h4⟩ := hf
    obtain ⟨h5, h6, h7, h8⟩ := hg
    refine ⟨y, hy, h1, h2, h3, h4, h5, h6, h7, h8, ?_⟩
    norm_num [shrunkArgs]
  · obtain ⟨y, hy, hf⟩ := run_map_some hugeArgs exampleRound (initSys 3)
      (fun y => ((y.caller 0).loc, (y.caller 1).loc, (y.caller 2).loc,
        (y.caller 0).deltatime, (y.caller 1).deltatime, (y.caller 2).deltatime))
      (Loc.idle, Loc.idle, Loc.idle, 1000000000000000019884624838656,
        1000000000000000019884624838656, 1000000000000000019884624838656)
      (by decide!)
    simp only [Prod.mk.injEq] at hf
    obtain ⟨h1, h2, h3, h4, h5, h6⟩ := hf
    refine ⟨y, hy, h1, h2, h3, h4, h5, h6, ?_⟩
    norm_num [hugeArgs]

/-! ## A single participant (C2) -/

/-- Claim C2.  With one participant (`numthreads = threadmax = 1`) and the counters at
rest, a call of `ng_SyncData` with any arguments returns without entering either wait
loop, leaves the proposed step in `*deltatime`, returns the redo flag it was given, and
leaves both counters at 0 and both release flags false. -/
theorem sync_single_passthrough (s : State) (acttime deltatime olddeltatime : ℚ)
    (redostep ident location : Int) (hnum : s.numthreads = 1) (hmax : s.threadmax = 1)
    (h1 : s.threadcount1 = 0) (h2 : s.threadcount2 = 0) :
    spin1 (syncSubmit s acttime deltatime redostep ident) = false ∧
    spin2 (syncPhase1Exit (syncSubmit s acttime deltatime redostep ident) ident).1 = false ∧
    ∃ r, ng_SyncData s acttime deltatime olddeltatime redostep ident location = some r ∧
      r.deltatime = deltatime ∧ r.ret = redostep ∧
      r.state.threadcount1 = 0 ∧ r.state.threadcount2 = 0 ∧
      r.state.ok1 = false ∧ r.state.ok2 = false ∧
      r.state.numthreads = 1 ∧ r.state.threadmax = 1 := by
  have hsp1 : spin1 (syncSubmit s acttime deltatime redostep ident) = false := by
    rw [syncSubmit_single _ _ _ _ _ hnum]
    simp [spin1]
  have hsp2 :
      spin2 (syncPhase1Exit (syncSubmit s acttime deltatime redostep ident) ident).1
        = false := by
    rw [syncSubmit_single _ _ _ _ _ hnum]
    simp [spin2, syncPhase1Exit, h1, h2, hmax]
  refine ⟨hsp1, hsp2, ?_⟩
  unfold ng_SyncData
  simp only [hsp1, hsp2, Bool.false_eq_true, if_false]
  refine ⟨_, rfl, ?_⟩
  rw [syncSubmit_single _ _ _ _ _ hnum]
  simp [syncPhase1Exit, syncPhase2Exit, h1, h2, hmax, hnum, setSlot]

/-- Witness of `sync_single_passthrough`: the first call of a run with one library. -/
theorem sync_single_passthrough_witness :
    ∃ r, ng_SyncData (initState 1 (fun _ => false)) 0 (1 / 1000000) 0 1 1 0 = some r ∧
      r.deltatime = 1 / 1000000 ∧ r.ret = 1 ∧
      r.state.threadcount1 = 0 ∧ r.state.threadcount2 = 0 ∧
      r.state.ok1 = false ∧ r.state.ok2 = false ∧
      r.state.numthreads = 1 ∧ r.state.threadmax = 1 :=
  (sync_single_passthrough (initState 1 (fun _ => false)) 0 (1 / 1000000) 0 1 1 0
    rfl rfl rfl rfl).2.2

/-! ## A round after a participant has left (C3) -/

theorem outside_run (inp : Nat → Nat → SyncArgs) (n : Nat) (tr : List Action) :
    ∀ y y1 : Sys, Outside n y → run inp tr y = some y1 → Outside n y1 := by
  induction tr with
  | nil =>
    intro y y1 ho h
    simp only [run] at h
    cases h
    exact ho
  | cons a tr ih =>
    intro y y1 ho h
    simp only [run] at h
    cases hst : step inp a y with
    | none =>
      rw [hst] at h
      exact Option.noConfusion h
    | some y2 =>
      rw [hst] at h
      exact ih y2 y1 (outside_step inp n a y y2 ho hst).2 h

theorem step_see1_guard (inp : Nat → Nat → SyncArgs) (j : Nat) (y y1 : Sys)
    (h : step inp (Action.see1 j) y = some y1) : spin1 y.shared = false := by
  simp only [step] at h
  by_cases hc : (y.caller j).loc = Loc.wait1 ∧ spin1 y.shared = false
  · exact hc.2
  · rw [if_neg hc] at h
    exact Option.noConfusion h

theorem step_see2_guard (inp : Nat → Nat → SyncArgs) (j : Nat) (y y1 : Sys)
    (h : step inp (Action.see2 j) y = some y1) : spin2 y.shared = false := by
  simp only [step] at h
  by_cases hc : (y.caller j).loc = Loc.wait2 ∧ spin2 y.shared = false
  · exact hc.2
  · rw [if_neg hc] at h
    exact Option.noConfusion h

/-- A participant spinning in the first wait loop leaves it as soon as the loop
condition is false. -/
theorem step_see1_enabled (inp : Nat → Nat → SyncArgs) (j : Nat) (z : Sys)
    (hl : (z.caller j).loc = Loc.wait1) (hs : spin1 z.shared = false) :
    ∃ z2, step inp (Action.see1 j) z = some z2 ∧ (z2.caller j).loc = Loc.ready1 ∧
      z2.shared = z.shared := by
  refine ⟨{ shared := z.shared,
             caller := setCaller z.caller j ((z.caller j).moveTo Loc.ready1),
             decisions := z.decisions }, ?_, ?_, rfl⟩
  · simp only [step]
    rw [if_pos ⟨hl, hs⟩]
  · simp [setCaller, Caller.moveTo]

/-- A participant spinning in the second wait loop leaves it as soon as the loop
condition is false. -/
theorem step_see2_enabled (inp : Nat → Nat → SyncArgs) (j : Nat) (z : Sys)
    (hl : (z.caller j).loc = Loc.wait2) (hs : spin2 z.shared = false) :
    ∃ z2, step inp (Action.see2 j) z = some z2 ∧ (z2.caller j).loc = Loc.ready2 ∧
      z2.shared = z.shared := by
  refine ⟨{ shared := z.shared,
             caller := setCaller z.caller j ((z.caller j).moveTo Loc.ready2),
             decisions := z.decisions }, ?_, ?_, rfl⟩
  · simp only [step]
    rw [if_pos ⟨hl, hs⟩]
  · simp [setCaller, Caller.moveTo]

/-- While the condition of the first wait loop holds, nobody leaves that loop. -/
theorem step_see1_blocked (inp : Nat → Nat → SyncArgs) (j : Nat) (z : Sys)
    (hs : spin1 z.shared = true) : step inp (Action.see1 j) z = none := by
  cases hst : step inp (Action.see1 j) z with
  | none => rfl
  | some y1 =>
    have := step_see1_guard inp j z y1 hst
    rw [hs] at this
    exact Bool.noConfusion this

/-- While the condition of the second wait loop holds, nobody leaves that loop. -/
theorem step_see2_blocked (inp : Nat → Nat → SyncArgs) (j : Nat) (z : Sys)
    (hs : spin2 z.shared = true) : step inp (Action.see2 j) z = none := by
  cases hst : step inp (Action.see2 j) z with
  | none => rfl
  | some y1 =>
    have := step_see2_guard inp j z y1 hst
    rw [hs] at this
    exact Bool.noConfusion this

/-- Both wait-loop conditions are false once both release flags are true. -/
theorem spin_of_flags (s : State) (h1 : s.ok1 = true) (h2 : s.ok2 = true) :
    spin1 s = false ∧ spin2 s = false := by
  simp [spin1, spin2, h1, h2]

/-- With more than one live participant a wait-loop condition holds exactly while its
release flag is false. -/
theorem spin_of_many (s : State) (hn : 1 < s.numthreads) :
    (s.ok1 = false → spin1 s = true) ∧ (s.ok2 = false → spin2 s = true) := by
  constructor
  · intro h
    simp [spin1, h, hn]
  · intro h
    simp [spin2, h, hn]

/-- Claim C3 fails on the code.  After `ng_thread_runs(true, 3)` has reduced
`numthreads` from 3 to 2, the two remaining participants submit and both pass the first
wait loop, but the `sy_cs3` section compares `threadcount2` with `threadmax = 3`, not with
`numthreads = 2`: with both of them counted, `ok2` is still false.  Both spin in the
second wait loop and no participant can take any step. -/
theorem shrink_round_blocks :
    ∃ y, run exampleArgs leaveTrace (initSys 3) = some y ∧
      y.shared.numthreads = 2 ∧ y.shared.threadmax = 3 ∧
      (y.caller 0).loc = Loc.wait2 ∧ (y.caller 1).loc = Loc.wait2 ∧
      (y.caller 2).loc = Loc.stopped ∧
      y.shared.threadcount1 = 0 ∧ y.shared.threadcount2 = 2 ∧
      y.shared.ok2 = false ∧ spin2 y.shared = true ∧
      ∀ a, step exampleArgs a y = none := by
  obtain ⟨y, hy, hf⟩ := run_map_some exampleArgs leaveTrace (initSys 3)
    (fun y => ((y.shared.numthreads, y.shared.threadmax, y.shared.threadcount1,
        y.shared.threadcount2),
      ((y.caller 0).loc, (y.caller 1).loc, (y.caller 2).loc), y.shared.ok2, spin2 y.shared))
    ((2, 3, 0, 2), (Loc.wait2, Loc.wait2, Loc.stopped), false, true) (by decide)
  simp only [Prod.mk.injEq] at hf
  obtain ⟨⟨h1, h2, h3, h4⟩, ⟨h5, h6, h7⟩, h8, h9⟩ := hf
  refine ⟨y, hy, h1, h2, h5, h6, h7, h3, h4, h8, h9, ?_⟩
  have ho := outside_run exampleArgs 3 leaveTrace (initSys 3) y (outside_init 3) hy
  intro a
  cases hst : step exampleArgs a y with
  | none => rfl
  | some y1 =>
    exfalso
    have hlt := (outside_step exampleArgs 3 a y y1 ho hst).1
    have hsrc := (step_effect exampleArgs a y y1 hst).1
    have hloc : (y.caller a.who).loc = Loc.wait2 ∨ (y.caller a.who).loc = Loc.stopped := by
      have : a.who = 0 ∨ a.who = 1 ∨ a.who = 2 := by omega
      rcases this with h | h | h <;> rw [h]
      · exact Or.inl h5
      · exact Or.inl h6
      · exact Or.inr h7
    cases a with
    | see2 j =>
      have := step_see2_guard exampleArgs j y y1 hst
      rw [h9] at this
      exact Bool.noConfusion this
    | submit j => rcases hloc with h | h <;> rw [h] at hsrc <;> exact Loc.noConfusion hsrc
    | see1 j => rcases hloc with h | h <;> rw [h] at hsrc <;> exact Loc.noConfusion hsrc
    | exit1 j => rcases hloc with h | h <;> rw [h] at hsrc <;> exact Loc.noConfusion hsrc
    | exit2 j => rcases hloc with h | h <;> rw [h] at hsrc <;> exact Loc.noConfusion hsrc
    | leave j => rcases hloc with h | h <;> rw [h] at hsrc <;> exact Loc.noConfusion hsrc

/-! ## Order of the rounds (C4) -/

/-- The two counts are what their names say: they start at 0, the step `exit1 k` adds
one to the first count of participant `k`, the step `exit2 k` adds one to its second
count, and no other step changes them. -/
theorem exits_step (inp : Nat → Nat → SyncArgs) (a : Action) (y y1 : Sys)
    (h : step inp a y = some y1) (k : Nat) :
    phase1Exits (y1.caller k)
      = phase1Exits (y.caller k) + (if a = Action.exit1 k then 1 else 0) ∧
    phase2Exits (y1.caller k)
      = phase2Exits (y.caller k) + (if a = Action.exit2 k then 1 else 0) := by
  obtain ⟨hsrc, v, hv, hdst, hcalls⟩ := step_effect inp a y y1 h
  by_cases hk : k = a.who
  · subst hk
    rw [hv, setCaller_same]
    unfold phase1Exits phase2Exits
    rw [hdst, hcalls, hsrc]
    cases a <;> simp [Action.who, Action.src, Action.dst, Action.begins, inPhase1, inPhase2]
  · rw [hv, setCaller_ne _ _ _ _ hk]
    have h1 : a ≠ Action.exit1 k := by
      intro h2
      rw [h2] at hk
      exact hk rfl
    have h2 : a ≠ Action.exit2 k := by
      intro h2
      rw [h2] at hk
      exact hk rfl
    simp [h1, h2]

theorem exits_init (n k : Nat) :
    phase1Exits ((initSys n).caller k) = 0 ∧ phase2Exits ((initSys n).caller k) = 0 := by
  unfold phase1Exits phase2Exits initSys
  by_cases h : k < n <;> simp [h, inPhase1, inPhase2]

/-- Claim C4, as amended.  In every interleaving of `n ≥ 2` live participants that call
`ng_SyncData` over and over (none leaves), a participant that submits to its next
round, having completed `r` calls, has itself run its phase-2 exit `r` times, and every
participant has by then run its phase-1 exit (the `sy_cs3` section, where it decrements
`threadcount1` and increments `threadcount2`) at least `r` times.  The flag `ok1` is
false at that moment and no participant is more than one submission ahead. -/
theorem next_round_after_phase1 (inp : Nat → Nat → SyncArgs) (n : Nat) (hn : 2 ≤ n)
    (tr : List Action) (y : Sys) (hs : ∀ a, a ∈ tr → a.isSync = true)
    (hrun : run inp tr (initSys n) = some y) (j : Nat) (y2 : Sys)
    (hsub : step inp (Action.submit j) y = some y2) :
    j < n ∧ phase2Exits (y.caller j) = (y.caller j).calls ∧ y.shared.ok1 = false ∧
    ∀ k, k < n → ((y.caller j).calls : Int) ≤ phase1Exits (y.caller k) ∧
      (y.caller k).calls ≤ (y.caller j).calls + 1 := by
  obtain ⟨hi, ho⟩ := inv_reach inp n hn tr y hs hrun
  have hj := (outside_step inp n _ y y2 ho hsub).1
  have hloc : (y.caller j).loc = Loc.idle := (step_effect inp _ y y2 hsub).1
  simp only [Action.who] at hj
  have hok1 : y.shared.ok1 = false := by
    cases hb : y.shared.ok1
    · rfl
    · have := ((hi.hopen hb).2.2.2 j hj).1
      rw [hloc] at this
      simp at this
  obtain ⟨_, _, hall⟩ := hi.hclosed hok1
  have hcalls : (y.caller j).calls = y.decisions := by
    rcases hall j hj with ⟨_, h2⟩ | ⟨h1, _⟩
    · exact h2
    · rw [hloc] at h1
      exact Loc.noConfusion h1
  refine ⟨hj, ?_, hok1, ?_⟩
  · unfold phase2Exits
    rw [hloc]
    simp [inPhase1, inPhase2]
  · intro k hk
    unfold phase1Exits
    rw [hcalls]
    rcases hall k hk with ⟨h1 | h1 | h1, h2⟩ | ⟨h1, h2⟩ <;> rw [h1, h2] <;>
      simp [inPhase1]

/-- Witness of `next_round_after_phase1`: after the full round of the example the first
participant submits again. -/
theorem next_round_after_phase1_witness :
    ∃ y y2, run exampleArgs exampleRound (initSys 3) = some y ∧
      step exampleArgs (Action.submit 0) y = some y2 ∧
      phase2Exits (y.caller 0) = (y.caller 0).calls ∧ y.shared.ok1 = false ∧
      ∀ k, k < 3 → ((y.caller 0).calls : Int) ≤ phase1Exits (y.caller k) ∧
        (y.caller k).calls ≤ (y.caller 0).calls + 1 := by
  have hsome : (run exampleArgs exampleRound (initSys 3)).isSome = true := by decide
  obtain ⟨y, hy⟩ := Option.isSome_iff_exists.mp hsome
  have hsome2 : (run exampleArgs (exampleRound ++ [Action.submit 0]) (initSys 3)).isSome
      = true := by decide
  obtain ⟨y2, hy2⟩ := Option.isSome_iff_exists.mp hsome2
  rw [run_append exampleArgs exampleRound [Action.submit 0] (initSys 3) y hy] at hy2
  have hst : step exampleArgs (Action.submit 0) y = some y2 := by
    simp only [run] at hy2
    cases hst : step exampleArgs (Action.submit 0) y with
    | none =>
      rw [hst] at hy2
      exact Option.noConfusion hy2
    | some y3 =>
      rw [hst] at hy2
      exact hy2
  have hsync : ∀ a, a ∈ exampleRound → a.isSync = true := by decide
  exact ⟨y, y2, hy, hst,
    (next_round_after_phase1 exampleArgs 3 (by decide) exampleRound y hsync hy 0 y2 hst).2⟩

/-- Claim C4 fails as stated.  With two live participants, the first returns from round
1 and submits to round 2 (its second call: `threadcount1` becomes 1) while the second has
not run its phase-2 exit of round 1: it is still in the second wait loop and
`threadcount2` is still 1. -/
theorem next_round_overlap :
    ∃ y y2, run exampleArgs overlapTrace (initSys 2) = some y ∧
      step exampleArgs (Action.submit 0) y = some y2 ∧
      (y.caller 0).calls = 1 ∧ (y.caller 1).calls = 1 ∧
      (y.caller 1).loc = Loc.wait2 ∧ phase2Exits (y.caller 1) = 0 ∧
      y.shared.threadcount2 = 1 ∧
      (y2.caller 0).calls = 2 ∧ y2.shared.threadcount1 = 1 ∧
      (y2.caller 1).loc = Loc.wait2 ∧ y2.shared.threadcount2 = 1 := by
  obtain ⟨y, hy, hf⟩ := run_map_some exampleArgs overlapTrace (initSys 2)
    (fun y => ((y.caller 0).calls, (y.caller 1).calls, (y.caller 1).loc,
      y.shared.threadcount2))
    (1, 1, Loc.wait2, 1) (by decide)
  obtain ⟨y2, hy2, hg⟩ := run_map_some exampleArgs (overlapTrace ++ [Action.submit 0])
    (initSys 2)
    (fun y => ((y.caller 0).calls, y.shared.threadcount1, (y.caller 1).loc,
      y.shared.threadcount2))
    (2, 1, Loc.wait2, 1) (by decide)
  rw [run_append exampleArgs overlapTrace [Action.submit 0] (initSys 2) y hy] at hy2
  have hst : step exampleArgs (Action.submit 0) y = some y2 := by
    simp only [run] at hy2
    cases hst : step exampleArgs (Action.submit 0) y with
    | none =>
      rw [hst] at hy2
      exact Option.noConfusion hy2
    | some y3 =>
      rw [hst] at hy2
      exact hy2
  simp only [Prod.mk.injEq] at hf hg
  obtain ⟨h1, h2, h3, h4⟩ := hf
  obtain ⟨h5, h6, h7, h8⟩ := hg
  refine ⟨y, y2, hy, hst, h1, h2, h3, ?_, h4, h5, h6, h7, h8⟩
  unfold phase2Exits
  rw [h3, h2]
  simp [inPhase1, inPhase2]

/-! ## Boundary channel: `ng_data` and `ng_VSRCData` (C5, C6) -/

theorem latestDelivery_cons (d : Int × vecvaluesall) (ds : List (Int × vecvaluesall))
    (producer : Int) :
    latestDelivery (d :: ds) producer =
      if d.1 = producer then some ((latestDelivery ds producer).getD d.2)
      else latestDelivery ds producer := by
  unfold latestDelivery
  by_cases h : d.1 = producer
  · rw [if_pos h, List.filter_cons, if_pos (by simpa using h), List.getLast?_cons]
    cases (List.filter (fun d => decide (d.1 = producer)) ds).getLast? <;> rfl
  · rw [if_neg h, List.filter_cons, if_neg (by simpa using h)]

theorem creal_of_inRange (vdata : vecvaluesall) (i : Int) (h0 : 0 ≤ i)
    (h1 : i < (vdata.vecsa.length : Int)) : ∃ x, vdata.creal i = some x := by
  unfold vecvaluesall.creal
  rw [if_pos h0]
  have hlt : i.toNat < vdata.vecsa.length := by omega
  exact ⟨_, List.get?_eq_get hlt⟩

/-- What a sequence of deliveries leaves in the two channels. -/
theorem deliverAll_spec (ds : List (Int × vecvaluesall)) :
    ∀ s : State, (∀ d, d ∈ ds → InRange s d) →
      ∃ s1, deliverAll s ds = some s1 ∧
        s1.vecgetnumber1 = s.vecgetnumber1 ∧ s1.vecgetnumber2 = s.vecgetnumber2 ∧
        (∀ v, latestDelivery ds 1 = some v → v.creal s.vecgetnumber1 = some s1.in2out1) ∧
        (latestDelivery ds 1 = none → s1.in2out1 = s.in2out1) ∧
        (∀ v, latestDelivery ds 2 = some v → v.creal s.vecgetnumber2 = some s1.in3out2) ∧
        (latestDelivery ds 2 = none → s1.in3out2 = s.in3out2) := by
  induction ds with
  | nil =>
    intro s _
    refine ⟨s, rfl, rfl, rfl, ?_, fun _ => rfl, ?_, fun _ => rfl⟩
    · intro v hv
      simp [latestDelivery] at hv
    · intro v hv
      simp [latestDelivery] at hv
  | cons d ds ih =>
    intro s hr
    have hd := hr d (List.mem_cons_self d ds)
    by_cases h1 : d.1 = 1
    · -- partition 1 delivers
      obtain ⟨x, hx⟩ := creal_of_inRange d.2 s.vecgetnumber1 (hd.1 h1).1 (hd.1 h1).2
      have h2 : ¬ d.1 = 2 := by omega
      have hstep : ng_data s d.2 (d.2.vecsa.length : Int) d.1
          = some { s with in2out1 := x } := by
        simp [ng_data, h1, hx]
      obtain ⟨s1, hs1, hv1, hv2, ha, hb, hc, hdd⟩ := ih { s with in2out1 := x }
        (fun e he => hr e (List.mem_cons_of_mem d he))
      refine ⟨s1, ?_, hv1, hv2, ?_, ?_, ?_, ?_⟩
      · simp only [deliverAll, hstep]
        exact hs1
      · intro v hv
        rw [latestDelivery_cons, if_pos h1] at hv
        cases hl : latestDelivery ds 1 with
        | none =>
          rw [hl] at hv
          simp only [Option.getD_none, Option.some.injEq] at hv
          rw [← hv, hb hl]
          exact hx
        | some w =>
          rw [hl] at hv
          simp only [Option.getD_some, Option.some.injEq] at hv
          rw [← hv]
          exact ha w hl
      · intro hv
        rw [latestDelivery_cons, if_pos h1] at hv
        exact Option.noConfusion hv
      · intro v hv
        rw [latestDelivery_cons, if_neg h2] at hv
        exact hc v hv
      · intro hv
        rw [latestDelivery_cons, if_neg h2] at hv
        exact hdd hv
    · by_cases h2 : d.1 = 2
      · -- partition 2 delivers
        obtain ⟨x, hx⟩ := creal_of_inRange d.2 s.vecgetnumber2 (hd.2 h2).1 (hd.2 h2).2
        have hstep : ng_data s d.2 (d.2.vecsa.length : Int) d.1
            = some { s with in3out2 := x } := by
          simp [ng_data, h2, hx]
        obtain ⟨s1, hs1, hv1, hv2, ha, hb, hc, hdd⟩ := ih { s with in3out2 := x }
          (fun e he => hr e (List.mem_cons_of_mem d he))
        refine ⟨s1, ?_, hv1, hv2, ?_, ?_, ?_, ?_⟩
        · simp only [deliverAll, hstep]
          exact hs1
        · intro v hv
          rw [latestDelivery_cons, if_neg h1] at hv
          exact ha v hv
        · intro hv
          rw [latestDelivery_cons, if_neg h1] at hv
          exact hb hv
        · intro v hv
          rw [latestDelivery_cons, if_pos h2] at hv
          cases hl : latestDelivery ds 2 with
          | none =>
            rw [hl] at hv
            simp only [Option.getD_none, Option.some.injEq] at hv
            rw [← hv, hdd hl]
            exact hx
          | some w =>
            rw [hl] at hv
            simp only [Option.getD_some, Option.some.injEq] at hv
            rw [← hv]
            exact hc w hl
        · intro hv
          rw [latestDelivery_cons, if_pos h2] at hv
          exact Option.noConfusion hv
      · -- any other partition: nothing is stored
        have hstep : ng_data s d.2 (d.2.vecsa.length : Int) d.1 = some s := by
          simp [ng_data, h1, h2]
        obtain ⟨s1, hs1, hv1, hv2, ha, hb, hc, hdd⟩ := ih s
          (fun e he => hr e (List.mem_cons_of_mem d he))
        refine ⟨s1, ?_, hv1, hv2, ?_, ?_, ?_, ?_⟩
        · simp only [deliverAll, hstep]
          exact hs1
        · intro v hv
          rw [latestDelivery_cons, if_neg h1] at hv
          exact ha v hv
        · intro hv
          rw [latestDelivery_cons, if_neg h1] at hv
          exact hb hv
        · intro v hv
          rw [latestDelivery_cons, if_neg h2] at hv
          exact hc v hv
        · intro hv
          rw [latestDelivery_cons, if_neg h2] at hv
          exact hdd hv

/-- Claim C5.  Start from `in2out1 = in3out2 = 0` (their initialisers) and let any
sequence of deliveries `ng_data` arrive, each with the cached index of its partition
inside the delivered vector.  Then all deliveries are accepted, and afterwards
`ng_VSRCData` for partition 2 stores into `*retvoltval` the sample at index
`vecgetnumber1` of the most recent delivery of partition 1, or 0 if partition 1 has not
delivered; for partition 3 likewise with `vecgetnumber2` and partition 2. -/
theorem channel_last_write_wins (s : State) (ds : List (Int × vecvaluesall))
    (h1 : s.in2out1 = 0) (h2 : s.in3out2 = 0) (hr : ∀ d, d ∈ ds → InRange s d)
    (retvoltval acttime : ℚ) (nodename : List Char) :
    ∃ s1, deliverAll s ds = some s1 ∧
      (∀ v, latestDelivery ds 1 = some v →
        v.creal s.vecgetnumber1 = some (ng_VSRCData s1 retvoltval acttime nodename 2)) ∧
      (latestDelivery ds 1 = none → ng_VSRCData s1 retvoltval acttime nodename 2 = 0) ∧
      (∀ v, latestDelivery ds 2 = some v →
        v.creal s.vecgetnumber2 = some (ng_VSRCData s1 retvoltval acttime nodename 3)) ∧
      (latestDelivery ds 2 = none → ng_VSRCData s1 retvoltval acttime nodename 3 = 0) := by
  obtain ⟨s1, hs1, _, _, ha, hb, hc, hd⟩ := deliverAll_spec ds s hr
  have e2 : ng_VSRCData s1 retvoltval acttime nodename 2 = s1.in2out1 := by
    simp [ng_VSRCData]
  have e3 : ng_VSRCData s1 retvoltval acttime nodename 3 = s1.in3out2 := by
    simp [ng_VSRCData]
  refine ⟨s1, hs1, ?_, ?_, ?_, ?_⟩
  · rw [e2]
    exact ha
  · intro h
    rw [e2, hb h, h1]
  · rw [e3]
    exact hc
  · intro h
    rw [e3, hd h, h2]

/-- Witness of `channel_last_write_wins`: partition 1 delivers 2.5 and then 1.5 at its
index 0; the read for partition 2 gives 1.5, the read for partition 3, whose producer
has not delivered, gives 0. -/
theorem channel_last_write_wins_witness :
    ∃ s1, deliverAll (initState 3 (fun _ => false))
        [(1, { vecsa := [5 / 2, 7] }), (1, { vecsa := [3 / 2, 9] })] = some s1 ∧
      ng_VSRCData s1 4 0 [] 2 = 3 / 2 ∧ ng_VSRCData s1 4 0 [] 3 = 0 := by
  obtain ⟨s1, hs1, ha, _, _, hd⟩ := channel_last_write_wins (initState 3 (fun _ => false))
    [(1, { vecsa := [5 / 2, 7] }), (1, { vecsa := [3 / 2, 9] })] rfl rfl
    (by
      intro d hd
      simp only [List.mem_cons, List.mem_singleton, List.not_mem_nil, or_false] at hd
      rcases hd with h | h <;> rw [h] <;> simp [InRange, initState])
    4 0 []
  refine ⟨s1, hs1, ?_, ?_⟩
  · have := ha { vecsa := [3 / 2, 9] } (by simp [latestDelivery])
    simp [vecvaluesall.creal, initState] at this
    exact this.symm
  · exact hd (by simp [latestDelivery])

/-- Claim C6 fails as stated: for partition 1 the call leaves in `*retvoltval` the value
7 that was there before, not 0. -/
theorem vsrc_no_default_counterexample :
    ng_VSRCData (initState 3 (fun _ => false)) 7 0 [] 1 = 7 ∧
    ng_VSRCData (initState 3 (fun _ => false)) 7 0 [] 1 ≠ 0 := by
  constructor
  · simp [ng_VSRCData]
  · simp [ng_VSRCData]

/-- Claim C6, as amended.  For a partition that no producer feeds (any `ident` other
than 2 and 3) `ng_VSRCData` writes nothing: `*retvoltval` keeps the value it held before
the call, whatever the channels hold. -/
theorem vsrc_leaves_value (s : State) (retvoltval acttime : ℚ) (nodename : List Char)
    (ident : Int) (h2 : ident ≠ 2) (h3 : ident ≠ 3) :
    ng_VSRCData s retvoltval acttime nodename ident = retvoltval := by
  simp [ng_VSRCData, h2, h3]

/-- Witness of `vsrc_leaves_value` for partition 1. -/
theorem vsrc_leaves_value_witness :
    ng_VSRCData (initState 3 (fun _ => false)) 7 0 [] 1 = 7 :=
  vsrc_leaves_value (initState 3 (fun _ => false)) 7 0 [] 1 (by decide) (by decide)

/-! ## Index resolution: `cieq` and `ng_initdata` (C7, C8) -/

theorem matchAt_cons_zero (target name : List Char) (rest : List (List Char)) :
    MatchAt target (name :: rest) 0 ↔ cieq name target = true := by
  unfold MatchAt
  constructor
  · rintro ⟨nm, h1, h2⟩
    simp only [List.get?_cons_zero, Option.some.injEq] at h1
    rw [h1]
    exact h2
  · intro h
    exact ⟨name, rfl, h⟩

theorem matchAt_cons_succ (target name : List Char) (rest : List (List Char)) (k : Nat) :
    MatchAt target (name :: rest) (k + 1) ↔ MatchAt target rest k := by
  unfold MatchAt
  simp only [List.get?_cons_succ]

theorem matchAt_lt (target : List Char) (vecnames : List (List Char)) (k : Nat)
    (h : MatchAt target vecnames k) : k < vecnames.length := by
  obtain ⟨nm, h1, _⟩ := h
  exact (List.get?_eq_some.mp h1).1

/-- Without a matching name the loop leaves the cached index as it was. -/
theorem scanNames_no_match (target : List Char) (vecnames : List (List Char)) :
    ∀ (i : Nat) (v : Int), (∀ k, ¬ MatchAt target vecnames k) →
      scanNames target vecnames i v = v := by
  induction vecnames with
  | nil =>
    intro i v _
    rfl
  | cons name rest ih =>
    intro i v h
    have h0 : cieq name target = false := by
      cases hc : cieq name target
      · rfl
      · exact absurd ((matchAt_cons_zero target name rest).mpr hc) (h 0)
    simp only [scanNames, h0, Bool.false_eq_true, if_false]
    exact ih (i + 1) v (fun k hk => h (k + 1) ((matchAt_cons_succ target name rest k).mpr hk))

/-- With a matching name the loop ends on the position of the last one. -/
theorem scanNames_last (target : List Char) (vecnames : List (List Char)) :
    ∀ (i : Nat) (v : Int), (∃ k, MatchAt target vecnames k) →
      ∃ k, scanNames target vecnames i v = ((i + k : Nat) : Int) ∧ MatchAt target vecnames k ∧
        ∀ m, k < m → ¬ MatchAt target vecnames m := by
  induction vecnames with
  | nil =>
    intro i v h
    obtain ⟨k, hk⟩ := h
    exact absurd (matchAt_lt target [] k hk) (Nat.not_lt_zero k)
  | cons name rest ih =>
    intro i v h
    by_cases hrest : ∃ k, MatchAt target rest k
    · obtain ⟨k, h1, h2, h3⟩ := ih (i + 1)
        (if cieq name target then (i : Int) else v) hrest
      refine ⟨k + 1, ?_, (matchAt_cons_succ target name rest k).mpr h2, ?_⟩
      · simp only [scanNames]
        rw [h1]
        congr 1
        omega
      · intro m hm hmatch
        obtain ⟨m1, rfl⟩ : ∃ m1, m = m1 + 1 := ⟨m - 1, by omega⟩
        exact h3 m1 (by omega) ((matchAt_cons_succ target name rest m1).mp hmatch)
    · have hnone : ∀ k, ¬ MatchAt target rest k := fun k hk => hrest ⟨k, hk⟩
      have h0 : cieq name target = true := by
        obtain ⟨k, hk⟩ := h
        cases k with
        | zero => exact (matchAt_cons_zero target name rest).mp hk
        | succ k => exact absurd ((matchAt_cons_succ target name rest k).mp hk) (hnone k)
      refine ⟨0, ?_, (matchAt_cons_zero target name rest).mpr h0, ?_⟩
      · simp only [scanNames, h0, if_true]
        rw [scanNames_no_match target rest (i + 1) _ hnone]
        rfl
      · intro m hm hmatch
        obtain ⟨m1, rfl⟩ : ∃ m1, m = m1 + 1 := ⟨m - 1, by omega⟩
        exact hnone m1 ((matchAt_cons_succ target name rest m1).mp hmatch)

/-- Claim C7 fails as stated: in the list `out1, OUT1` both names match `out1`, the
first at position 0, and the resolver caches position 1. -/
theorem resolver_first_match_counterexample :
    MatchAt "out1".toList ["out1".toList, "OUT1".toList] 0 ∧
    (ng_initdata (initState 3 (fun _ => false)) ["out1".toList, "OUT1".toList] 1).vecgetnumber1
      = 1 := by
  constructor
  · exact ⟨"out1".toList, rfl, by decide⟩
  · decide

/-- Claim C7, as amended.  For every list of vector names that contains at least one
name matching the target without regard to case, `ng_initdata` sets the cached index
(`vecgetnumber1` for partition 1 and target `out1`, `vecgetnumber2` for partition 2 and
target `out2`) to the position of the last matching name. -/
theorem resolver_last_match (s : State) (vecnames : List (List Char)) :
    ((∃ k, MatchAt "out1".toList vecnames k) →
      ∃ k : Nat, (ng_initdata s vecnames 1).vecgetnumber1 = (k : Int) ∧
        MatchAt "out1".toList vecnames k ∧
        ∀ m, k < m → ¬ MatchAt "out1".toList vecnames m) ∧
    ((∃ k, MatchAt "out2".toList vecnames k) →
      ∃ k : Nat, (ng_initdata s vecnames 2).vecgetnumber2 = (k : Int) ∧
        MatchAt "out2".toList vecnames k ∧
        ∀ m, k < m → ¬ MatchAt "out2".toList vecnames m) := by
  constructor
  · intro h
    obtain ⟨k, h1, h2, h3⟩ := scanNames_last "out1".toList vecnames 0 s.vecgetnumber1 h
    refine ⟨k, ?_, h2, h3⟩
    simp only [ng_initdata, if_true]
    rw [h1]
    congr 1
    omega
  · intro h
    obtain ⟨k, h1, h2, h3⟩ := scanNames_last "out2".toList vecnames 0 s.vecgetnumber2 h
    refine ⟨k, ?_, h2, h3⟩
    have h21 : ¬ ((2 : Int) = 1) := by decide
    simp only [ng_initdata, h21, if_false, if_true]
    rw [h1]
    congr 1
    omega

/-- Witness of `resolver_last_match`: the example of the specification, names
`Out1, In1` and target `out1`, resolves to index 0. -/
theorem resolver_last_match_witness :
    (ng_initdata (initState 3 (fun _ => false)) ["Out1".toList, "In1".toList] 1).vecgetnumber1
      = 0 := by
  obtain ⟨k, h1, h2, _⟩ := (resolver_last_match (initState 3 (fun _ => false))
    ["Out1".toList, "In1".toList]).1 ⟨0, "Out1".toList, rfl, by decide⟩
  have hk : k < 2 := matchAt_lt _ _ k h2
  have hk1 : k ≠ 1 := by
    intro h
    rw [h] at h2
    obtain ⟨nm, e1, e2⟩ := h2
    simp only [List.get?_cons_succ, List.get?_cons_zero, Option.some.injEq] at e1
    rw [← e1] at e2
    exact absurd e2 (by decide)
  rw [h1]
  have : k = 0 := by omega
  rw [this]
  rfl

/-- Claim C8 fails as stated: from the initial state the resolver gives the same cached
index 0, and the same state in every other variable it touches, for a list that lacks
the target and for a list whose entry at position 0 is the target. -/
theorem resolver_not_found_counterexample :
    (∀ k, ¬ MatchAt "out1".toList ["in1".toList, "in2".toList] k) ∧
    MatchAt "out1".toList ["out1".toList, "in2".toList] 0 ∧
    (ng_initdata (initState 3 (fun _ => false)) ["in1".toList, "in2".toList] 1).vecgetnumber1
      = (ng_initdata (initState 3 (fun _ => false))
          ["out1".toList, "in2".toList] 1).vecgetnumber1 ∧
    (ng_initdata (initState 3 (fun _ => false)) ["in1".toList, "in2".toList] 1).vecgetnumber2
      = (ng_initdata (initState 3 (fun _ => false))
          ["out1".toList, "in2".toList] 1).vecgetnumber2 := by
  refine ⟨?_, ⟨"out1".toList, rfl, by decide⟩, by decide, by decide⟩
  intro k hk
  have hlt : k < 2 := matchAt_lt _ _ k hk
  obtain ⟨nm, e1, e2⟩ := hk
  have hk2 : k = 0 ∨ k = 1 := by omega
  rcases hk2 with h | h
  · rw [h] at e1
    simp only [List.get?_cons_zero, Option.some.injEq] at e1
    rw [← e1] at e2
    exact absurd e2 (by decide)
  · rw [h] at e1
    simp only [List.get?_cons_succ, List.get?_cons_zero, Option.some.injEq] at e1
    rw [← e1] at e2
    exact absurd e2 (by decide)

/-- Claim C8, as amended.  When no name of the list matches the target, `ng_initdata`
changes nothing at all: the cached index keeps the value it had (0 from the start of the
program), and the state after the call is the state before it.  No not-found outcome is
produced. -/
theorem resolver_miss_keeps_state (s : State) (vecnames : List (List Char)) :
    ((∀ k, ¬ MatchAt "out1".toList vecnames k) → ng_initdata s vecnames 1 = s) ∧
    ((∀ k, ¬ MatchAt "out2".toList vecnames k) → ng_initdata s vecnames 2 = s) := by
  constructor
  · intro h
    simp only [ng_initdata, if_true]
    rw [scanNames_no_match "out1".toList vecnames 0 s.vecgetnumber1 h]
  · intro h
    have h21 : ¬ ((2 : Int) = 1) := by decide
    simp only [ng_initdata, h21, if_false, if_true]
    rw [scanNames_no_match "out2".toList vecnames 0 s.vecgetnumber2 h]

/-- Witness of `resolver_miss_keeps_state`: a list without `out1`. -/
theorem resolver_miss_keeps_state_witness :
    (ng_initdata (initState 3 (fun _ => false)) ["in1".toList, "in2".toList] 1).vecgetnumber1
      = 0 := by
  have h := (resolver_miss_keeps_state (initState 3 (fun _ => false))
    ["in1".toList, "in2".toList]).1 (by
      intro k hk
      have hlt : k < 2 := matchAt_lt _ _ k hk
      obtain ⟨nm, e1, e2⟩ := hk
      have hk2 : k = 0 ∨ k = 1 := by omega
      rcases hk2 with h | h
      · rw [h] at e1
        simp only [List.get?_cons_zero, Option.some.injEq] at e1
        rw [← e1] at e2
        exact absurd e2 (by decide)
      · rw [h] at e1
        simp only [List.get?_cons_succ, List.get?_cons_zero, Option.some.injEq] at e1
        rw [← e1] at e2
        exact absurd e2 (by decide))
  rw [h]
  rfl

/-! ## Participant registry: `ng_thread_runs` (C9, C10) -/

theorem allStopped_iff (f : Int → Bool) (n : Nat) :
    allStopped f n = true ↔ ∀ i : Nat, i < n → f (i : Int) = true := by
  induction n with
  | zero => simp [allStopped]
  | succ n ih =>
    have hs : allStopped f (n + 1) = (allStopped f n && f (n : Int)) := by
      simp [allStopped, List.range_succ, List.foldl_append]
    rw [hs, Bool.and_eq_true, ih]
    constructor
    · rintro ⟨h1, h2⟩ i hi
      rcases Nat.lt_succ_iff_lt_or_eq.mp hi with h | h
      · exact h1 i h
      · rw [h]
        exact h2
    · intro h
      exact ⟨fun i hi => h i (Nat.lt_succ_of_lt hi), h n (Nat.lt_succ_self n)⟩

theorem regInv_step (n : Nat) (s : State) (stopped called : List Int) (b : Bool) (id : Int)
    (hi : RegInv n s stopped called) (h1 : 1 ≤ id) (h2 : id ≤ n) (hns : id ∉ stopped) :
    RegInv n (ng_thread_runs s b id) (if b then id :: stopped else stopped)
      (id :: called) := by
  have hslots : ∀ k, k ∈ id :: called →
      setSlot s.norunsall (id - 1) b (k - 1)
        = decide (k ∈ (if b then id :: stopped else stopped)) := by
    intro k hk
    by_cases hkid : k = id
    · subst hkid
      rw [setSlot_same]
      cases b
      · simp [hns]
      · simp
    · have hne : k - 1 ≠ id - 1 := by omega
      rw [setSlot_ne _ _ _ _ hne]
      have hkc : k ∈ called := by
        rcases List.mem_cons.mp hk with h | h
        · exact absurd h hkid
        · exact h
      rw [hi.hslot k hkc]
      cases b
      · simp
      · simp [hkid]
  cases b with
  | false =>
    have hnm : (ng_thread_runs s false id).threadmax = s.threadmax := by
      simp [ng_thread_runs]
    constructor
    · rw [hnm]
      exact hi.hmax
    · simp only [ng_thread_runs, Bool.false_eq_true, if_false]
      exact hi.hnum
    · exact hi.hnodup
    · exact hi.hrange
    · intro k hk
      exact List.mem_cons_of_mem id (hi.hsub k hk)
    · intro k hk
      have := hslots k hk
      simpa [ng_thread_runs] using this
    · intro _
      simp [ng_thread_runs, hi.hmax]
  | true =>
    have hnm : (ng_thread_runs s true id).threadmax = s.threadmax := by
      simp [ng_thread_runs]
    constructor
    · rw [hnm]
      exact hi.hmax
    · have := hi.hnum
      simp only [ng_thread_runs, if_true, List.length_cons]
      push_cast
      omega
    · exact List.nodup_cons.mpr ⟨hns, hi.hnodup⟩
    · intro k hk
      rcases List.mem_cons.mp hk with h | h
      · rw [h]
        exact ⟨h1, h2⟩
      · exact hi.hrange k h
    · intro k hk
      rcases List.mem_cons.mp hk with h | h
      · rw [h]
        exact List.mem_cons_self id called
      · exact List.mem_cons_of_mem id (hi.hsub k h)
    · intro k hk
      have := hslots k hk
      simpa [ng_thread_runs] using this
    · intro _
      simp [ng_thread_runs, hi.hmax]

theorem regInv_run (n : Nat) (cs : List (Bool × Int)) :
    ∀ (s : State) (stopped called : List Int), RegInv n s stopped called →
      Disciplined stopped cs → (∀ c, c ∈ cs → 1 ≤ c.2 ∧ c.2 ≤ n) →
      ∃ stopped2 called2, RegInv n (runCalls s cs) stopped2 called2 ∧
        (∀ c, c ∈ cs → c.2 ∈ called2) ∧ (∀ id, id ∈ called → id ∈ called2) := by
  induction cs with
  | nil =>
    intro s stopped called hi _ _
    exact ⟨stopped, called, hi, fun c hc => absurd hc (List.not_mem_nil c), fun _ h => h⟩
  | cons c cs ih =>
    intro s stopped called hi hd hr
    obtain ⟨hns, hd2⟩ := hd
    have hc := hr c (List.mem_cons_self c cs)
    have hstep := regInv_step n s stopped called c.1 c.2 hi hc.1 hc.2 hns
    obtain ⟨st2, ca2, hi2, hall, hmono⟩ := ih (ng_thread_runs s c.1 c.2) _ _ hstep hd2
      (fun e he => hr e (List.mem_cons_of_mem c he))
    refine ⟨st2, ca2, hi2, ?_, ?_⟩
    · intro e he
      rcases List.mem_cons.mp he with h | h
      · rw [h]
        exact hmono c.2 (List.mem_cons_self c.2 called)
      · exact hall e h
    · intro id hid
      exact hmono id (List.mem_cons_of_mem c.2 hid)

theorem regInv_init (n : Nat) (g : Int → Bool) : RegInv n (initState n g) [] [] := by
  constructor
  · rfl
  · simp [initState]
  · exact List.nodup_nil
  · intro id h
    exact absurd h (List.not_mem_nil id)
  · intro id h
    exact absurd h (List.not_mem_nil id)
  · intro id h
    exact absurd h (List.not_mem_nil id)
  · intro h
    exact absurd rfl h

/-- Claim C9 fails as stated.  On a run with three participants: (1) participant 1
stops, starts again, then 2 and 3 stop: `numthreads` is 0 but `no_bg` is false;
(2) all three stop, then 1 starts and stops again: `no_bg` is true but `numthreads` is
-1; (3) before any call `no_bg` is true (its initialiser) while `numthreads` is 3. -/
theorem registry_flag_counterexample :
    ((runCalls (initState 3 (fun _ => false))
        [(true, 1), (false, 1), (true, 2), (true, 3)]).numthreads = 0 ∧
     (runCalls (initState 3 (fun _ => false))
        [(true, 1), (false, 1), (true, 2), (true, 3)]).no_bg = false) ∧
    ((runCalls (initState 3 (fun _ => false))
        [(true, 1), (true, 2), (true, 3), (false, 1), (true, 1)]).numthreads = -1 ∧
     (runCalls (initState 3 (fun _ => false))
        [(true, 1), (true, 2), (true, 3), (false, 1), (true, 1)]).no_bg = true) ∧
    ((runCalls (initState 3 (fun _ => false)) []).numthreads = 3 ∧
     (runCalls (initState 3 (fun _ => false)) []).no_bg = true) := by
  decide

/-- Claim C9, as amended.  On a run that started with `n` registered participants and
any contents `g` of the fresh `norunsall` array, after every sequence of thread-state
calls with identifiers in `1..n` in which every participant has called at least once and
no participant calls again after reporting `noruns = true`, the flag `no_bg` is true if
and only if `numthreads` is 0. -/
theorem registry_all_finished (n : Nat) (g : Int → Bool) (cs : List (Bool × Int))
    (hr : ∀ c, c ∈ cs → 1 ≤ c.2 ∧ c.2 ≤ n) (hd : Disciplined [] cs)
    (hall : ∀ id : Int, 1 ≤ id → id ≤ n → ∃ c, c ∈ cs ∧ c.2 = id) (hn : 1 ≤ n) :
    (runCalls (initState n g) cs).no_bg = true ↔
      (runCalls (initState n g) cs).numthreads = 0 := by
  obtain ⟨st, ca, hi, hcalled, _⟩ := regInv_run n cs (initState n g) [] [] (regInv_init n g)
    hd hr
  have hca : ∀ id : Int, 1 ≤ id → id ≤ n → id ∈ ca := by
    intro id h1 h2
    obtain ⟨c, hc, hcid⟩ := hall id h1 h2
    rw [← hcid]
    exact hcalled c hc
  have hne : ca ≠ [] := by
    intro h
    have := hca 1 (le_refl 1) (by omega)
    rw [h] at this
    exact absurd this (List.not_mem_nil 1)
  have hsubset : st.toFinset ⊆ Finset.Icc (1 : Int) n := by
    intro id hid
    rw [List.mem_toFinset] at hid
    exact Finset.mem_Icc.mpr (hi.hrange id hid)
  have hcard : st.toFinset.card = st.length := List.toFinset_card_of_nodup hi.hnodup
  have hIcc : (Finset.Icc (1 : Int) n).card = n := by
    rw [Int.card_Icc]
    simp
  rw [hi.hbg hne, allStopped_iff, hi.hnum]
  constructor
  · intro h
    have hsup : Finset.Icc (1 : Int) n ⊆ st.toFinset := by
      intro id hid
      obtain ⟨h1, h2⟩ := Finset.mem_Icc.mp hid
      have hs := h (id - 1).toNat (by omega)
      have hidx : (((id - 1).toNat : Nat) : Int) = id - 1 := by omega
      rw [hidx, hi.hslot id (hca id h1 h2)] at hs
      rw [List.mem_toFinset]
      exact of_decide_eq_true hs
    have heq : st.toFinset = Finset.Icc (1 : Int) n := Finset.Subset.antisymm hsubset hsup
    have : st.length = n := by rw [← hcard, heq, hIcc]
    omega
  · intro h
    have hlen : st.length = n := by omega
    have heq : st.toFinset = Finset.Icc (1 : Int) n :=
      Finset.eq_of_subset_of_card_le hsubset (by rw [hIcc, hcard, hlen])
    intro i hin
    have hmem : ((i : Int) + 1) ∈ st := by
      rw [← List.mem_toFinset, heq]
      exact Finset.mem_Icc.mpr ⟨by omega, by omega⟩
    have hs := hi.hslot ((i : Int) + 1) (hca _ (by omega) (by omega))
    have hidx : (i : Int) + 1 - 1 = (i : Int) := by omega
    rw [hidx] at hs
    rw [hs]
    exact decide_eq_true hmem

/-- Witness of `registry_all_finished`: three participants start, then stop in the
order 2, 1, 3; afterwards `numthreads` is 0 and `no_bg` is true. -/
theorem registry_all_finished_witness :
    ((runCalls (initState 3 (fun _ => true))
        [(false, 1), (false, 2), (false, 3), (true, 2), (true, 1), (true, 3)]).no_bg = true ↔
      (runCalls (initState 3 (fun _ => true))
        [(false, 1), (false, 2), (false, 3), (true, 2), (true, 1), (true, 3)]).numthreads
        = 0) ∧
    (runCalls (initState 3 (fun _ => true))
        [(false, 1), (false, 2), (false, 3), (true, 2), (true, 1), (true, 3)]).numthreads
        = 0 :=
  ⟨registry_all_finished 3 (fun _ => true)
      [(false, 1), (false, 2), (false, 3), (true, 2), (true, 1), (true, 3)]
      (by decide) (by simp [Disciplined])
      (by
        intro id h1 h2
        have : id = 1 ∨ id = 2 ∨ id = 3 := by omega
        rcases this with h | h | h <;> rw [h] <;> simp)
      (by decide),
    by decide⟩

theorem runCalls_numthreads_le (cs : List (Bool × Int)) :
    ∀ s : State, (runCalls s cs).numthreads ≤ s.numthreads := by
  induction cs with
  | nil =>
    intro s
    exact le_refl _
  | cons c cs ih =>
    intro s
    refine le_trans (ih (ng_thread_runs s c.1 c.2)) ?_
    cases hc : c.1 <;> simp [ng_thread_runs]

/-- Claim C10.  A thread-state call with `noruns = true` lowers `numthreads` by exactly
one and in the same critical section sets `ok1` to the outcome of the comparison of
`threadcount1` with the new `numthreads`.  A call with `noruns = false` changes neither
`numthreads` nor `ok1`.  Over any sequence of thread-state calls `numthreads` never
rises. -/
theorem leave_reevaluates_closure (s : State) (ident : Int) :
    (ng_thread_runs s true ident).numthreads = s.numthreads - 1 ∧
    (ng_thread_runs s true ident).threadcount1 = s.threadcount1 ∧
    ((ng_thread_runs s true ident).ok1 = true ↔
      (ng_thread_runs s true ident).threadcount1
        = (ng_thread_runs s true ident).numthreads) ∧
    (ng_thread_runs s false ident).numthreads = s.numthreads ∧
    (ng_thread_runs s false ident).ok1 = s.ok1 ∧
    ∀ cs : List (Bool × Int), (runCalls s cs).numthreads ≤ s.numthreads := by
  refine ⟨?_, ?_, ?_, ?_, ?_, fun cs => runCalls_numthreads_le cs s⟩
  · simp [ng_thread_runs]
  · simp [ng_thread_runs]
  · simp [ng_thread_runs]
  · simp [ng_thread_runs]
  · simp [ng_thread_runs]

/-! ## The decision branch (C17) -/

/-- Claim C17.  Let `numthreads = n ≥ 2`.  If the submission brings `threadcount1` to
`n`, the section under `sy_cs1` takes its decision over the slots `0 .. n-1`, whatever
`norunsall` says about who is live: `newdelta3[0..n-1]` all receive
`m = min(1e30, delt3[0], .., delt3[n-1])`, every other slot of `newdelta3` keeps its
value, `retval` becomes `max(0, redos3[0], .., redos3[n-1])` and `ok1` becomes true
(`ok2` is not touched).  If the submission brings `threadcount1` to another value,
`newdelta3`, `retval`, `ok1` and `ok2` are all unchanged. -/
theorem decision_over_first_slots (s : State) (acttime deltatime : ℚ)
    (redostep ident : Int) (n : Nat) (hn : 2 ≤ n) (hnum : s.numthreads = n) :
    (s.threadcount1 + 1 = n →
      ∃ m : ℚ,
        m ≤ dminSeed ∧
        (∀ i : Nat, i < n → m ≤ (syncSubmit s acttime deltatime redostep ident).delt3 i) ∧
        (m = dminSeed ∨
          ∃ i : Nat, i < n ∧ m = (syncSubmit s acttime deltatime redostep ident).delt3 i) ∧
        (∀ i : Nat, i < n →
          (syncSubmit s acttime deltatime redostep ident).newdelta3 i = m) ∧
        (∀ k : Int, k < 0 ∨ (n : Int) ≤ k →
          (syncSubmit s acttime deltatime redostep ident).newdelta3 k = s.newdelta3 k) ∧
        0 ≤ (syncSubmit s acttime deltatime redostep ident).retval ∧
        (∀ i : Nat, i < n →
          (syncSubmit s acttime deltatime redostep ident).redos3 i
            ≤ (syncSubmit s acttime deltatime redostep ident).retval) ∧
        ((syncSubmit s acttime deltatime redostep ident).retval = 0 ∨
          ∃ i : Nat, i < n ∧
            (syncSubmit s acttime deltatime redostep ident).retval
              = (syncSubmit s acttime deltatime redostep ident).redos3 i) ∧
        (syncSubmit s acttime deltatime redostep ident).ok1 = true ∧
        (syncSubmit s acttime deltatime redostep ident).ok2 = s.ok2) ∧
    (s.threadcount1 + 1 ≠ n →
      (syncSubmit s acttime deltatime redostep ident).newdelta3 = s.newdelta3 ∧
      (syncSubmit s acttime deltatime redostep ident).retval = s.retval ∧
      (syncSubmit s acttime deltatime redostep ident).ok1 = s.ok1 ∧
      (syncSubmit s acttime deltatime redostep ident).ok2 = s.ok2) ∧
    (syncSubmit s acttime deltatime redostep ident).threadcount1 = s.threadcount1 + 1 ∧
    (syncSubmit s acttime deltatime redostep ident).delt3
      = setSlot s.delt3 (ident - 1) deltatime ∧
    (syncSubmit s acttime deltatime redostep ident).redos3
      = setSlot s.redos3 (ident - 1) redostep := by
  have hne : s.numthreads ≠ 1 := by
    rw [hnum]
    omega
  have htonat : s.numthreads.toNat = n := by
    rw [hnum]
    exact Int.toNat_ofNat n
  refine ⟨?_, ?_, ?_⟩
  · intro hlast
    have hlast2 : s.threadcount1 + 1 = s.numthreads := by rw [hnum]; exact hlast
    rw [syncSubmit_last _ _ _ _ _ hne hlast2, htonat]
    refine ⟨(decideLoop (setSlot s.delt3 (ident - 1) deltatime)
      (setSlot s.redos3 (ident - 1) redostep) n).1,
      decideLoop_fst_le_seed _ _ n, ?_, ?_, ?_, ?_, ?_, ?_, ?_, rfl, rfl⟩
    · intro i hi
      exact decideLoop_fst_le (setSlot s.delt3 (ident - 1) deltatime)
        (setSlot s.redos3 (ident - 1) redostep) n i hi
    · exact decideLoop_fst_mem (setSlot s.delt3 (ident - 1) deltatime)
        (setSlot s.redos3 (ident - 1) redostep) n
    · intro i hi
      dsimp only
      rw [fillLoop_apply, if_pos]
      omega
    · intro k hk
      dsimp only
      rw [fillLoop_apply, if_neg]
      omega
    · exact decideLoop_snd_nonneg (setSlot s.delt3 (ident - 1) deltatime)
        (setSlot s.redos3 (ident - 1) redostep) n
    · intro i hi
      exact decideLoop_snd_ge (setSlot s.delt3 (ident - 1) deltatime)
        (setSlot s.redos3 (ident - 1) redostep) n i hi
    · exact decideLoop_snd_mem (setSlot s.delt3 (ident - 1) deltatime)
        (setSlot s.redos3 (ident - 1) redostep) n
  · intro hother
    have hother2 : s.threadcount1 + 1 ≠ s.numthreads := by rw [hnum]; exact hother
    rw [syncSubmit_early _ _ _ _ _ hne hother2]
    exact ⟨rfl, rfl, rfl, rfl⟩
  · by_cases hlast : s.threadcount1 + 1 = s.numthreads
    · rw [syncSubmit_last _ _ _ _ _ hne hlast]
      exact ⟨rfl, rfl, rfl⟩
    · rw [syncSubmit_early _ _ _ _ _ hne hlast]
      exact ⟨rfl, rfl, rfl⟩

/-- Witness of `decision_over_first_slots`: a first round of three participants proposing
`4`, `2`, `8` leaves `2` in every slot of `newdelta3` and `4`, `2`, `8` in `delt3`; then
participant 2 leaves, participant 1 submits `1` and participant 3 submits `1/2`.  The
count reaches `numthreads = 2` and the decision is taken over slots 0 and 1: they receive
`m = min(1e30, 1, 2) = 1`, while slot 2 of `newdelta3`, the one participant 3 reads,
keeps the `2` of the round before; `retval` is the stale redo request `1` that the
departed participant 2 left in `redos3[1]`; `ok1` becomes true. -/
theorem decision_over_first_slots_witness :
    ∃ y, run staleArgs staleTrace (startedSys 3) = some y ∧
      y.shared.numthreads = 2 ∧ y.shared.threadcount1 + 1 = 2 ∧
      y.shared.norunsall 1 = true ∧
      ∃ m : ℚ, m = 1 ∧
        (∀ i : Nat, i < 2 → (syncSubmit y.shared 0 (1 / 2) 0 3).newdelta3 i = m) ∧
        (syncSubmit y.shared 0 (1 / 2) 0 3).newdelta3 2 = 2 ∧
        (syncSubmit y.shared 0 (1 / 2) 0 3).delt3 2 = 1 / 2 ∧
        (syncSubmit y.shared 0 (1 / 2) 0 3).retval = 1 ∧
        (syncSubmit y.shared 0 (1 / 2) 0 3).ok1 = true := by
  obtain ⟨y, hy, hf⟩ := run_map_some staleArgs staleTrace (startedSys 3)
    (fun y => (y.shared.numthreads, y.shared.threadcount1, y.shared.norunsall 1))
    (2, 1, true) (by decide)
  obtain ⟨y2, hy2, hg⟩ := run_map_some staleArgs staleTrace (startedSys 3)
    (fun y => ((syncSubmit y.shared 0 (1 / 2) 0 3).newdelta3 0, y.shared.newdelta3 2,
      (syncSubmit y.shared 0 (1 / 2) 0 3).delt3 2,
      (syncSubmit y.shared 0 (1 / 2) 0 3).retval))
    (1, 2, 1 / 2, 1) (by decide!)
  rw [hy] at hy2
  cases hy2
  simp only [Prod.mk.injEq] at hf hg
  obtain ⟨h1, h2, h3⟩ := hf
  obtain ⟨g1, g2, g3, g4⟩ := hg
  have hcount : y.shared.threadcount1 + 1 = ((2 : Nat) : Int) := by
    rw [h2]
    rfl
  obtain ⟨m, _, _, _, d4, d5, _, _, _, d9, _⟩ :=
    (decision_over_first_slots y.shared 0 (1 / 2) 0 3 2 (le_refl 2) h1).1 hcount
  have hm : m = 1 := by
    rw [← d4 0 (by decide)]
    exact g1
  refine ⟨y, hy, h1, by rw [h2]; rfl, h3, m, hm, d4, ?_, g3, g4, d9⟩
  rw [d5 2 (Or.inr (le_refl _))]
  exact g2

/-! ## Counters and reuse of the barrier (C18) -/

/-- Claim C18.  Let all `n ≥ 2` participants be live and call `ng_SyncData` over and over,
nobody leaving and nobody forcing the flags.  In every state reached by any interleaving:
both counters lie between 0 and `n`; the decision branch has been taken exactly once for
every round to which all participants have submitted and not yet for the round in
progress (`decisions` is the least number of calls begun by any participant); a step
takes the decision branch exactly when it is the submission that completes its round;
and whenever every participant has returned from its call number `c`, the counters are 0,
both flags are false and exactly `c` decisions have been taken. -/
theorem barrier_counters_reset (inp : Nat → Nat → SyncArgs) (n : Nat) (hn : 2 ≤ n)
    (tr : List Action) (y : Sys) (hs : ∀ a, a ∈ tr → a.isSync = true)
    (hrun : run inp tr (initSys n) = some y) :
    (0 ≤ y.shared.threadcount1 ∧ y.shared.threadcount1 ≤ n ∧
      0 ≤ y.shared.threadcount2 ∧ y.shared.threadcount2 ≤ n) ∧
    ((∀ k, k < n → y.decisions ≤ (y.caller k).calls ∧
        (y.caller k).calls ≤ y.decisions + 1) ∧
      ∃ k, k < n ∧ (y.caller k).calls = y.decisions) ∧
    (∀ a y2, a.isSync = true → step inp a y = some y2 →
      (y2.decisions = y.decisions + 1 ∧ a = Action.submit a.who ∧
        ∀ k, k < n → (y2.caller k).calls = y2.decisions) ∨
      (y2.decisions = y.decisions ∧
        (a = Action.submit a.who →
          ∃ k, k < n ∧ (y2.caller k).calls < (y2.caller a.who).calls))) ∧
    (∀ c, (∀ k, k < n → (y.caller k).loc = Loc.idle ∧ (y.caller k).calls = c) →
      y.shared.threadcount1 = 0 ∧ y.shared.threadcount2 = 0 ∧
      y.shared.ok1 = false ∧ y.shared.ok2 = false ∧ y.decisions = c) := by
  obtain ⟨hi, ho⟩ := inv_reach inp n hn tr y hs hrun
  have hmin : ∀ z : Sys, Inv inp n z →
      (∀ k, k < n → z.decisions ≤ (z.caller k).calls ∧
        (z.caller k).calls ≤ z.decisions + 1) ∧
      ∃ k, k < n ∧ (z.caller k).calls = z.decisions ∧
        (z.shared.ok1 = false → inPhase1 (z.caller k).loc = false) := by
    intro z hz
    cases hb : z.shared.ok1 with
    | true =>
      obtain ⟨_, _, _, hall⟩ := hz.hopen hb
      refine ⟨fun k hk => by rw [(hall k hk).2]; omega, 0, by omega, (hall 0 (by omega)).2, ?_⟩
      intro h
      exact Bool.noConfusion h
    | false =>
      obtain ⟨_, hlt, hall⟩ := hz.hclosed hb
      refine ⟨?_, ?_⟩
      · intro k hk
        rcases hall k hk with ⟨_, h2⟩ | ⟨_, h2⟩ <;> rw [h2] <;> omega
      · have hnot : ¬ ∀ k, k < n → inPhase1 (z.caller k).loc = true := by
          intro hall1
          have := (cnt_eq_all_iff _ _ _).mpr hall1
          have := hz.htc1
          omega
        simp only [not_forall] at hnot
        obtain ⟨k, hk, hp⟩ := hnot
        refine ⟨k, hk, ?_, fun _ => by simpa using hp⟩
        rcases hall k hk with ⟨_, h2⟩ | ⟨h1, _⟩
        · exact h2
        · rw [h1] at hp
          exact absurd rfl hp
  have h1 := hi.htc1
  have h2 := hi.htc2
  have hc1 := cnt_le inPhase1 y.caller n
  have hc2 := cnt_le inPhase2 y.caller n
  refine ⟨⟨by omega, by omega, by omega, by omega⟩, ?_, ?_, ?_⟩
  · obtain ⟨ha, k, hk, hkc, _⟩ := hmin y hi
    exact ⟨ha, k, hk, hkc⟩
  · intro a y2 ha hst
    have hi2 := inv_step inp n hn a y y2 hi ho ha hst
    have hw := (outside_step inp n a y y2 ho hst).1
    obtain ⟨hsrc, v, hv, hdst, hcalls⟩ := step_effect inp a y y2 hst
    cases a with
    | submit j =>
      simp only [Action.who] at hw hsrc hv hdst hcalls ⊢
      simp only [Action.src] at hsrc
      simp only [step] at hst
      rw [if_pos hsrc] at hst
      have hy2 := Option.some.inj hst
      have hok1 : y.shared.ok1 = false := by
        cases hb : y.shared.ok1
        · rfl
        · have := ((hi.hopen hb).2.2.2 j hw).1
          rw [hsrc] at this
          simp at this
      have hne : y.shared.numthreads ≠ 1 := by
        rw [hi.hn]
        omega
      by_cases hlast : y.shared.threadcount1 + 1 = y.shared.numthreads
      · left
        have hdec : y2.decisions = y.decisions + 1 := by
          rw [← hy2]
          simp only [if_pos (And.intro hne hlast)]
        have hok : y2.shared.ok1 = true := by
          rw [← hy2]
          dsimp only
          rw [syncSubmit_last _ _ _ _ _ hne hlast]
        refine ⟨hdec, trivial, ?_⟩
        intro k hk
        exact ((hi2.hopen hok).2.2.2 k hk).2
      · right
        have hnot : ¬ (y.shared.numthreads ≠ 1 ∧
            y.shared.threadcount1 + 1 = y.shared.numthreads) := fun hh => hlast hh.2
        have hdec : y2.decisions = y.decisions := by
          rw [← hy2]
          simp only [if_neg hnot]
        have hok : y2.shared.ok1 = false := by
          rw [← hy2]
          dsimp only
          rw [syncSubmit_early _ _ _ _ _ hne hlast]
          exact hok1
        refine ⟨hdec, fun _ => ?_⟩
        obtain ⟨_, k, hk, hkc, hkp⟩ := hmin y2 hi2
        refine ⟨k, hk, ?_⟩
        have hjl : (y2.caller j).loc = Loc.wait1 := by
          rw [hv, setCaller_same, hdst]
          rfl
        rcases (hi2.hclosed hok).2.2 j hw with ⟨hl, _⟩ | ⟨_, hjc⟩
        · rw [hjl] at hl
          simp at hl
        · rw [hkc, hjc]
          omega
    | see1 j =>
      right
      simp only [step] at hst
      split_ifs at hst
      cases hst
      exact ⟨rfl, fun h => Action.noConfusion h⟩
    | exit1 j =>
      right
      simp only [step] at hst
      split_ifs at hst
      cases hst
      exact ⟨rfl, fun h => Action.noConfusion h⟩
    | see2 j =>
      right
      simp only [step] at hst
      split_ifs at hst
      cases hst
      exact ⟨rfl, fun h => Action.noConfusion h⟩
    | exit2 j =>
      right
      simp only [step] at hst
      split_ifs at hst
      cases hst
      exact ⟨rfl, fun h => Action.noConfusion h⟩
    | leave j => exact Bool.noConfusion ha
  · intro c hall
    have hz1 : cnt inPhase1 y.caller n = 0 :=
      (cnt_eq_zero_iff _ _ _).mpr (fun k hk => by rw [(hall k hk).1]; rfl)
    have hz2 : cnt inPhase2 y.caller n = 0 :=
      (cnt_eq_zero_iff _ _ _).mpr (fun k hk => by rw [(hall k hk).1]; rfl)
    have hok1 : y.shared.ok1 = false := by
      cases hb : y.shared.ok1
      · rfl
      · have := ((hi.hopen hb).2.2.2 0 (by omega)).1
        rw [(hall 0 (by omega)).1] at this
        simp at this
    obtain ⟨hiff, _, hcl⟩ := hi.hclosed hok1
    have hok2 : y.shared.ok2 = false := by
      cases hb : y.shared.ok2
      · rfl
      · have := hiff.mp hb
        omega
    refine ⟨by omega, by omega, hok1, hok2, ?_⟩
    rcases hcl 0 (by omega) with ⟨_, h4⟩ | ⟨h3, _⟩
    · rw [← h4]
      exact (hall 0 (by omega)).2
    · rw [(hall 0 (by omega)).1] at h3
      exact Loc.noConfusion h3

/-- Witness of `barrier_counters_reset`: after the full round of the example the counters
are 0, both flags are false and one decision has been taken. -/
theorem barrier_counters_reset_witness :
    ∃ y, run exampleArgs exampleRound (initSys 3) = some y ∧
      y.shared.threadcount1 = 0 ∧ y.shared.threadcount2 = 0 ∧
      y.shared.ok1 = false ∧ y.shared.ok2 = false ∧ y.decisions = 1 := by
  have hsome : (run exampleArgs exampleRound (initSys 3)).isSome = true := by decide
  obtain ⟨y, hy⟩ := Option.isSome_iff_exists.mp hsome
  have hctl0 : (run exampleArgs exampleRound (initSys 3)).map
      (fun y => (List.range 3).map (fun j => ((y.caller j).loc, (y.caller j).calls)))
      = some [(Loc.idle, 1), (Loc.idle, 1), (Loc.idle, 1)] := by decide
  rw [hy] at hctl0
  simp only [Option.map_some', Option.some.injEq] at hctl0
  have hctl : ∀ j, j < 3 → (y.caller j).loc = Loc.idle ∧ (y.caller j).calls = 1 := by
    intro j hj
    simp [List.range, List.range.loop] at hctl0
    interval_cases j
    · exact ⟨hctl0.1.1, hctl0.1.2⟩
    · exact ⟨hctl0.2.1.1, hctl0.2.1.2⟩
    · exact ⟨hctl0.2.2.1, hctl0.2.2.2⟩
  have hsync : ∀ a, a ∈ exampleRound → a.isSync = true := by decide
  exact ⟨y, hy,
    (barrier_counters_reset exampleArgs 3 (by decide) exampleRound y hsync hy).2.2.2 1 hctl⟩

/-! ## A call with the identifier of a participant that is not live (C11) -/

/-- Claim C11 fails as stated.  Participant 3 of three has left and participant 1 has
submitted; then `ng_SyncData` is entered with `ident = 3`.  The section under `sy_cs1`
records the call like any other: `threadcount1` goes from 1 to 2, the slot `delt3[2]` is
overwritten with the proposed `2e-6`, and because the count now equals `numthreads = 2`
the decision branch is taken and `ok1` is raised. -/
theorem sync_stale_id_counterexample :
    ∃ y, run exampleArgs [Action.leave 2, Action.submit 0] (initSys 3) = some y ∧
      (y.caller 2).loc = Loc.stopped ∧ y.shared.numthreads = 2 ∧
      y.shared.threadcount1 = 1 ∧ y.shared.ok1 = false ∧ y.shared.delt3 2 = 0 ∧
      (syncSubmit y.shared 0 (2 / 1000000) 0 3).threadcount1 = 2 ∧
      (syncSubmit y.shared 0 (2 / 1000000) 0 3).delt3 2 = 2 / 1000000 ∧
      (syncSubmit y.shared 0 (2 / 1000000) 0 3).ok1 = true := by
  obtain ⟨y, hy, hf⟩ := run_map_some exampleArgs [Action.leave 2, Action.submit 0]
    (initSys 3)
    (fun y => ((y.caller 2).loc, y.shared.numthreads, y.shared.threadcount1, y.shared.ok1))
    (Loc.stopped, 2, 1, false) (by decide)
  obtain ⟨y2, hy2, hg⟩ := run_map_some exampleArgs [Action.leave 2, Action.submit 0]
    (initSys 3)
    (fun y => (y.shared.delt3 2, (syncSubmit y.shared 0 (2 / 1000000) 0 3).threadcount1,
      (syncSubmit y.shared 0 (2 / 1000000) 0 3).delt3 2,
      (syncSubmit y.shared 0 (2 / 1000000) 0 3).ok1))
    (0, 2, 2 / 1000000, true) (by decide!)
  rw [hy] at hy2
  cases hy2
  simp only [Prod.mk.injEq] at hf hg
  obtain ⟨h1, h2, h3, h4⟩ := hf
  obtain ⟨h5, h6, h7, h8⟩ := hg
  exact ⟨y, hy, h1, h2, h3, h4, h5, h6, h7, h8⟩

/-- Claim C11, as amended.  `ng_SyncData` makes no check of its `ident`: for every state
and every `ident` in `1..3`, live or not, the section under `sy_cs1` counts the call in
`threadcount1` and stores the arguments into the slots `ident - 1` of `delt3`, `redos3`
and `act3`; the record `norunsall` of who has stopped is not consulted (changing it
changes nothing else); and a call that returns hands back the static `retval`, not a
failure code. -/
theorem sync_records_any_id (s : State) (acttime deltatime olddeltatime : ℚ)
    (redostep ident location : Int) (h1 : 1 ≤ ident) (h3 : ident ≤ 3) :
    (syncSubmit s acttime deltatime redostep ident).threadcount1 = s.threadcount1 + 1 ∧
    (syncSubmit s acttime deltatime redostep ident).delt3 (ident - 1) = deltatime ∧
    (syncSubmit s acttime deltatime redostep ident).redos3 (ident - 1) = redostep ∧
    (syncSubmit s acttime deltatime redostep ident).act3 (ident - 1) = acttime ∧
    (0 ≤ ident - 1 ∧ ident - 1 ≤ 2) ∧
    (∀ g : Int → Bool,
      syncSubmit { s with norunsall := g } acttime deltatime redostep ident
        = { syncSubmit s acttime deltatime redostep ident with norunsall := g }) ∧
    (∀ r, ng_SyncData s acttime deltatime olddeltatime redostep ident location = some r →
      r.ret = r.state.retval) := by
  refine ⟨?_, ?_, ?_, ?_, ⟨by omega, by omega⟩, ?_, ?_⟩
  · unfold syncSubmit
    dsimp only
    split_ifs <;> rfl
  · unfold syncSubmit
    dsimp only
    split_ifs <;> simp [setSlot]
  · unfold syncSubmit
    dsimp only
    split_ifs <;> simp [setSlot]
  · unfold syncSubmit
    dsimp only
    split_ifs <;> simp [setSlot]
  · intro g
    unfold syncSubmit
    dsimp only
    split_ifs <;> rfl
  · intro r hr
    unfold ng_SyncData at hr
    dsimp only at hr
    split_ifs at hr
    cases hr
    rfl

/-- Witness of `sync_records_any_id`: a call with `ident = 3` from the initial state of a
run with three libraries. -/
theorem sync_records_any_id_witness :
    (syncSubmit (initState 3 (fun _ => false)) 0 (1 / 1000000) 1 3).threadcount1 = 1 ∧
    (syncSubmit (initState 3 (fun _ => false)) 0 (1 / 1000000) 1 3).delt3 2 = 1 / 1000000 ∧
    (syncSubmit (initState 3 (fun _ => false)) 0 (1 / 1000000) 1 3).redos3 2 = 1 := by
  obtain ⟨h1, h2, h3, _⟩ := sync_records_any_id (initState 3 (fun _ => false)) 0
    (1 / 1000000) 0 1 3 0 (by decide) (by decide)
  exact ⟨h1, h2, h3⟩

/-! ## Case-insensitive comparison (C13) -/

theorem lowerOf_eq (c : Char) :
    lowerOf c = if 65 ≤ c.toNat ∧ c.toNat ≤ 90 then Char.ofNat (c.toNat + 32) else c := by
  unfold lowerOf Char.isUpper Char.toLower
  have h1 : (c.val ≥ 65) ↔ 65 ≤ c.toNat := by
    simp [Char.toNat, UInt32.le_def, UInt32.toNat, BitVec.le_def]
  have h2 : (c.val ≤ 90) ↔ c.toNat ≤ 90 := by
    simp [Char.toNat, UInt32.le_def, UInt32.toNat, BitVec.le_def]
  by_cases h : 65 ≤ c.toNat ∧ c.toNat ≤ 90
  · simp [h, h1.mpr h.1, h2.mpr h.2]
  · rw [if_neg h]
    by_cases hu : (decide (c.val ≥ 65) && decide (c.val ≤ 90)) = true
    · exfalso
      simp only [Bool.and_eq_true, decide_eq_true_eq] at hu
      exact h ⟨h1.mp hu.1, h2.mp hu.2⟩
    · simp [hu]

theorem cieq_iff_map (p : List Char) :
    ∀ s : List Char, cieq p s = true ↔ p.map lowerOf = s.map lowerOf := by
  induction p with
  | nil =>
    intro s
    cases s with
    | nil => simp [cieq]
    | cons d s => simp [cieq]
  | cons c p ih =>
    intro s
    cases s with
    | nil => simp [cieq]
    | cons d s =>
      simp only [cieq, List.map_cons, List.cons.injEq]
      by_cases h : lowerOf c = lowerOf d
      · simp [h, ih s]
      · simp [h]

theorem map_eq_iff_positions (p s : List Char) :
    p.map lowerOf = s.map lowerOf ↔
      p.length = s.length ∧
      ∀ i, i < p.length → (p.get? i).map lowerOf = (s.get? i).map lowerOf := by
  constructor
  · intro h
    refine ⟨?_, ?_⟩
    · have := congrArg List.length h
      simpa using this
    · intro i _
      have := congrArg (fun l => l[i]?) h
      simpa [List.get?_eq_getElem?, List.getElem?_map] using this
  · rintro ⟨hlen, hpos⟩
    apply List.ext_getElem?
    intro i
    rw [List.getElem?_map, List.getElem?_map]
    by_cases hi : i < p.length
    · simpa [List.get?_eq_getElem?] using hpos i hi
    · have h1 : p[i]? = none := List.getElem?_eq_none (by omega)
      have h2 : s[i]? = none := List.getElem?_eq_none (by omega)
      rw [h1, h2]

/-- Claim C13.  On the characters that precede the terminating NUL of each string,
`cieq(p, s)` is true exactly when `p` and `s` have the same length and agree at every
position after each letter `A`..`Z` (codes 65..90) has been replaced by its lowercase
letter (code plus 32) and every other character left as it is; hence `cieq` is
reflexive, symmetric and transitive. -/
theorem cieq_spec (p s q : List Char) :
    (cieq p s = true ↔
      p.length = s.length ∧
      ∀ i, i < p.length → (p.get? i).map lowerOf = (s.get? i).map lowerOf) ∧
    (∀ c : Char,
      lowerOf c = if 65 ≤ c.toNat ∧ c.toNat ≤ 90 then Char.ofNat (c.toNat + 32) else c) ∧
    cieq p p = true ∧
    (cieq p s = true → cieq s p = true) ∧
    (cieq p s = true → cieq s q = true → cieq p q = true) := by
  refine ⟨?_, lowerOf_eq, ?_, ?_, ?_⟩
  · rw [cieq_iff_map]
    exact map_eq_iff_positions p s
  · exact (cieq_iff_map p p).mpr rfl
  · intro h
    exact (cieq_iff_map s p).mpr ((cieq_iff_map p s).mp h).symm
  · intro h1 h2
    exact (cieq_iff_map p q).mpr (((cieq_iff_map p s).mp h1).trans ((cieq_iff_map s q).mp h2))

/-- Witness of `cieq_spec`: `Out1`, `out1` and `OUT1` are equal to one another, and
`Out1` is not equal to the longer `out12`. -/
theorem cieq_spec_witness :
    cieq "Out1".toList "OUT1".toList = true ∧ cieq "out1".toList "Out1".toList = true ∧
    cieq "Out1".toList "out12".toList = false :=
  ⟨(cieq_spec "Out1".toList "out1".toList "OUT1".toList).2.2.2.2 (by decide) (by decide),
    (cieq_spec "Out1".toList "out1".toList "OUT1".toList).2.2.2.1 (by decide),
    by decide⟩

/-! ## The supervising wait loop of `main` (C12, C15) -/

theorem superviseIter_escape (s : State) (i : Int) (h0 : s.no_bg = false)
    (h2 : s.numthreads = 2) :
    superviseIter s i =
      { state := { s with ok1 := true, ok2 := true }
        i := i + 1
        stop := decide (i + 1 > 100)
        warned := decide (i = 0)
        premature := decide (i + 1 > 100) } := by
  have hc : s.numthreads < 3 ∧ s.numthreads > 1 := by
    rw [h2]
    decide
  simp [superviseIter, h0, hc]

theorem superviseIter_quiet (s : State) (i : Int) (h0 : s.no_bg = false)
    (h : ¬ (s.numthreads < 3 ∧ s.numthreads > 1)) :
    superviseIter s i =
      { state := s, i := i, stop := false, warned := false, premature := false } := by
  simp only [superviseIter, h0, Bool.false_eq_true, if_false, if_neg h]

/-- While `no_bg` is false and `numthreads` is 2 the loop goes on for as long as its
counter stays at or below 100, forcing both flags at every iteration. -/
theorem superviseLoop_forcing (env : Nat → State → State)
    (henv : ∀ t z, z.no_bg = false ∧ z.numthreads = 2 →
      (env t z).no_bg = false ∧ (env t z).numthreads = 2) (k : Nat) :
    ∀ (t : Nat) (s : State) (i : Int), s.no_bg = false → s.numthreads = 2 →
      i + k ≤ 100 → (1 ≤ k ∨ (s.ok1 = true ∧ s.ok2 = true)) →
      (superviseLoop env k t s i).ended = false ∧
      (superviseLoop env k t s i).i = i + k ∧
      (superviseLoop env k t s i).iterations = t + k ∧
      (superviseLoop env k t s i).state.ok1 = true ∧
      (superviseLoop env k t s i).state.ok2 = true := by
  induction k with
  | zero =>
    intro t s i _ _ _ hf
    rcases hf with hf | hf
    · omega
    · simp [superviseLoop, hf.1, hf.2]
  | succ k ih =>
    intro t s i h0 h2 hk _
    obtain ⟨e0, e2⟩ := henv t s ⟨h0, h2⟩
    have hstop : decide (i + 1 > 100) = false := by
      rw [decide_eq_false_iff_not]
      push_cast at hk
      omega
    simp only [superviseLoop, superviseIter_escape (env t s) i e0 e2, hstop,
      Bool.false_eq_true, if_false]
    obtain ⟨r1, r2, r3, r4, r5⟩ := ih (t + 1)
      { env t s with ok1 := true, ok2 := true } (i + 1) e0 e2
      (by push_cast at hk; omega) (Or.inr ⟨rfl, rfl⟩)
    refine ⟨r1, ?_, ?_, r4, r5⟩
    · rw [r2]
      push_cast
      omega
    · rw [r3]
      omega

/-- While `no_bg` is false and `numthreads` is 2 the loop ends, with the premature-end
warning, in the iteration that brings its counter to 101. -/
theorem superviseLoop_ends (env : Nat → State → State)
    (henv : ∀ t z, z.no_bg = false ∧ z.numthreads = 2 →
      (env t z).no_bg = false ∧ (env t z).numthreads = 2) (k : Nat) :
    ∀ (t : Nat) (s : State) (i : Int), s.no_bg = false → s.numthreads = 2 →
      i + (k + 1) = 101 →
      (superviseLoop env (k + 1) t s i).ended = true ∧
      (superviseLoop env (k + 1) t s i).premature = true ∧
      (superviseLoop env (k + 1) t s i).iterations = t + k + 1 ∧
      (superviseLoop env (k + 1) t s i).state.ok1 = true ∧
      (superviseLoop env (k + 1) t s i).state.ok2 = true := by
  induction k with
  | zero =>
    intro t s i h0 h2 hk
    obtain ⟨e0, e2⟩ := henv t s ⟨h0, h2⟩
    have hstop : decide (i + 1 > 100) = true := by
      rw [decide_eq_true_iff]
      omega
    simp [superviseLoop, superviseIter_escape (env t s) i e0 e2, hstop]
  | succ k ih =>
    intro t s i h0 h2 hk
    obtain ⟨e0, e2⟩ := henv t s ⟨h0, h2⟩
    have hstop : decide (i + 1 > 100) = false := by
      rw [decide_eq_false_iff_not]
      push_cast at hk
      omega
    have hrec : superviseLoop env (k + 1 + 1) t s i
        = superviseLoop env (k + 1) (t + 1) { env t s with ok1 := true, ok2 := true }
            (i + 1) := by
      simp only [superviseLoop, superviseIter_escape (env t s) i e0 e2, hstop,
        Bool.false_eq_true, if_false]
    rw [hrec]
    obtain ⟨r1, r2, r3, r4, r5⟩ := ih (t + 1)
      { env t s with ok1 := true, ok2 := true } (i + 1) e0 e2
      (by push_cast at hk ⊢; omega)
    refine ⟨r1, r2, ?_, r4, r5⟩
    rw [r3]
    omega

/-- While `no_bg` is false and `numthreads` is not 2, and nobody else touches the
globals, the loop changes nothing and does not end. -/
theorem superviseLoop_quiet (k : Nat) :
    ∀ (t : Nat) (s : State) (i : Int), s.no_bg = false →
      ¬ (s.numthreads < 3 ∧ s.numthreads > 1) →
      superviseLoop (fun _ z => z) k t s i =
        { state := s, i := i, ended := false, premature := false, iterations := t + k } := by
  induction k with
  | zero =>
    intro t s i _ _
    rfl
  | succ k ih =>
    intro t s i h0 h
    simp only [superviseLoop, superviseIter_quiet s i h0 h, Bool.false_eq_true, if_false]
    rw [ih (t + 1) s i h0 h]
    congr 1
    omega

/-- Claim C12 fails as stated.  Three participants have started; participants 1 and 2
have submitted and spin in the first wait loop, participant 3 neither submits nor
leaves.  `numthreads` is still 3, so the test `numthreads < 3` of the supervising loop
fails at every iteration: however many iterations are made, the loop has not ended and
`ok1`, `ok2` are still false, and the two participants cannot leave their wait loop. -/
theorem stall_never_escapes :
    ∃ y, run exampleArgs [Action.submit 0, Action.submit 1] (startedSys 3) = some y ∧
      (y.caller 0).loc = Loc.wait1 ∧ (y.caller 1).loc = Loc.wait1 ∧
      (y.caller 2).loc = Loc.idle ∧
      y.shared.no_bg = false ∧ y.shared.numthreads = 3 ∧ spin1 y.shared = true ∧
      step exampleArgs (Action.see1 0) y = none ∧ step exampleArgs (Action.see1 1) y = none ∧
      ∀ k, (superviseLoop (fun _ z => z) k 0 y.shared 0).ended = false ∧
        (superviseLoop (fun _ z => z) k 0 y.shared 0).state.ok1 = false ∧
        (superviseLoop (fun _ z => z) k 0 y.shared 0).state.ok2 = false := by
  obtain ⟨y, hy, hf⟩ := run_map_some exampleArgs [Action.submit 0, Action.submit 1]
    (startedSys 3)
    (fun y => (((y.caller 0).loc, (y.caller 1).loc, (y.caller 2).loc),
      (y.shared.no_bg, y.shared.numthreads, spin1 y.shared),
      (y.shared.ok1, y.shared.ok2)))
    ((Loc.wait1, Loc.wait1, Loc.idle), (false, 3, true), (false, false)) (by decide)
  simp only [Prod.mk.injEq] at hf
  obtain ⟨⟨h1, h2, h3⟩, ⟨h4, h5, h6⟩, h7, h8⟩ := hf
  have hno : ∀ j, step exampleArgs (Action.see1 j) y = none := by
    intro j
    cases hst : step exampleArgs (Action.see1 j) y with
    | none => rfl
    | some y1 =>
      have := step_see1_guard exampleArgs j y y1 hst
      rw [h6] at this
      exact Bool.noConfusion this
  refine ⟨y, hy, h1, h2, h3, h4, h5, h6, hno 0, hno 1, ?_⟩
  intro k
  rw [superviseLoop_quiet k 0 y.shared 0 h4 (by rw [h5]; decide)]
  exact ⟨rfl, h7, h8⟩

/-- Claim C12, as amended.  The escape of the supervising loop is tied to a Leave.
(1) While `no_bg` is false and `numthreads` is 2 (one of three participants has left),
whatever else the other threads do, the loop forces `ok1` and `ok2` to true from its
first iteration on and ends with the premature-end warning in its iteration 101; in the
state that any of these iterations leaves, the conditions of both wait loops of
`ng_SyncData` are false, so every participant spinning in the first or in the second wait
loop that polls in that state leaves the loop.
(2) While `no_bg` is false and `numthreads` is 3 (a participant that stalls has not
left) and nobody else touches the globals, the loop never ends and never changes them,
and a participant spinning in a wait loop whose release flag is false cannot leave it,
however many iterations are made. -/
theorem escape_needs_leave (inp : Nat → Nat → SyncArgs) (env : Nat → State → State)
    (s : State) (h0 : s.no_bg = false) :
    (s.numthreads = 2 →
      (∀ t z, z.no_bg = false ∧ z.numthreads = 2 →
        (env t z).no_bg = false ∧ (env t z).numthreads = 2) →
      (∀ k, 1 ≤ k → k ≤ 100 →
        (superviseLoop env k 0 s 0).ended = false ∧
        (superviseLoop env k 0 s 0).state.ok1 = true ∧
        (superviseLoop env k 0 s 0).state.ok2 = true) ∧
      ((superviseLoop env 101 0 s 0).ended = true ∧
        (superviseLoop env 101 0 s 0).premature = true ∧
        (superviseLoop env 101 0 s 0).iterations = 101 ∧
        (superviseLoop env 101 0 s 0).state.ok1 = true ∧
        (superviseLoop env 101 0 s 0).state.ok2 = true) ∧
      (∀ k, 1 ≤ k → k ≤ 101 →
        spin1 (superviseLoop env k 0 s 0).state = false ∧
        spin2 (superviseLoop env k 0 s 0).state = false ∧
        ∀ z : Sys, z.shared = (superviseLoop env k 0 s 0).state → ∀ j,
          ((z.caller j).loc = Loc.wait1 →
            ∃ z2, step inp (Action.see1 j) z = some z2 ∧
              (z2.caller j).loc = Loc.ready1) ∧
          ((z.caller j).loc = Loc.wait2 →
            ∃ z2, step inp (Action.see2 j) z = some z2 ∧
              (z2.caller j).loc = Loc.ready2))) ∧
    (s.numthreads = 3 →
      ∀ k, (superviseLoop (fun _ z => z) k 0 s 0).ended = false ∧
        (superviseLoop (fun _ z => z) k 0 s 0).state = s ∧
        (superviseLoop (fun _ z => z) k 0 s 0).i = 0 ∧
        ∀ z : Sys, z.shared = (superviseLoop (fun _ z => z) k 0 s 0).state → ∀ j,
          (s.ok1 = false → step inp (Action.see1 j) z = none) ∧
          (s.ok2 = false → step inp (Action.see2 j) z = none)) := by
  constructor
  · intro h2 henv
    have hflags : ∀ k, 1 ≤ k → k ≤ 101 →
        (superviseLoop env k 0 s 0).state.ok1 = true ∧
        (superviseLoop env k 0 s 0).state.ok2 = true := by
      intro k hk1 hk2
      by_cases hk : k ≤ 100
      · obtain ⟨_, _, _, r4, r5⟩ := superviseLoop_forcing env henv k 0 s 0 h0 h2
          (by omega) (Or.inl hk1)
        exact ⟨r4, r5⟩
      · have hk3 : k = 101 := by omega
        subst hk3
        obtain ⟨_, _, _, r4, r5⟩ :=
          superviseLoop_ends env henv 100 0 s 0 h0 h2 (by norm_num)
        exact ⟨r4, r5⟩
    refine ⟨?_, ?_, ?_⟩
    · intro k hk1 hk2
      obtain ⟨r1, _, _, r4, r5⟩ := superviseLoop_forcing env henv k 0 s 0 h0 h2
        (by omega) (Or.inl hk1)
      exact ⟨r1, r4, r5⟩
    · obtain ⟨r1, r2, r3, r4, r5⟩ := superviseLoop_ends env henv 100 0 s 0 h0 h2 (by norm_num)
      exact ⟨r1, r2, by simpa using r3, r4, r5⟩
    · intro k hk1 hk2
      obtain ⟨f1, f2⟩ := hflags k hk1 hk2
      obtain ⟨s1, s2⟩ := spin_of_flags _ f1 f2
      refine ⟨s1, s2, ?_⟩
      intro z hz j
      rw [← hz] at s1 s2
      constructor
      · intro hl
        obtain ⟨z2, e1, e2, _⟩ := step_see1_enabled inp j z hl s1
        exact ⟨z2, e1, e2⟩
      · intro hl
        obtain ⟨z2, e1, e2, _⟩ := step_see2_enabled inp j z hl s2
        exact ⟨z2, e1, e2⟩
  · intro h3 k
    rw [superviseLoop_quiet k 0 s 0 h0 (by rw [h3]; decide)]
    refine ⟨rfl, rfl, rfl, ?_⟩
    intro z hz j
    have hz2 : z.shared = s := hz
    have hmany := spin_of_many s (by rw [h3]; decide)
    constructor
    · intro h
      exact step_see1_blocked inp j z (by rw [hz2]; exact hmany.1 h)
    · intro h
      exact step_see2_blocked inp j z (by rw [hz2]; exact hmany.2 h)

/-- Witness of `escape_needs_leave`: three participants have started, participant 3 has
left and participants 1 and 2 spin in the second wait loop, which neither can leave
(`ok2` is false).  The first iteration of the supervising loop forces the flags, after
which each of the two leaves the wait loop; the loop itself ends in iteration 101 with
the premature-end warning. -/
theorem escape_needs_leave_witness :
    ∃ y, run exampleArgs leaveTrace (startedSys 3) = some y ∧
      (y.caller 0).loc = Loc.wait2 ∧ (y.caller 1).loc = Loc.wait2 ∧
      (y.caller 2).loc = Loc.stopped ∧
      y.shared.no_bg = false ∧ y.shared.numthreads = 2 ∧ y.shared.ok2 = false ∧
      step exampleArgs (Action.see2 0) y = none ∧
      step exampleArgs (Action.see2 1) y = none ∧
      (∃ z2, step exampleArgs (Action.see2 0)
          { shared := (superviseLoop (fun _ z => z) 1 0 y.shared 0).state,
            caller := y.caller,
            decisions := y.decisions } = some z2 ∧ (z2.caller 0).loc = Loc.ready2) ∧
      (∃ z2, step exampleArgs (Action.see2 1)
          { shared := (superviseLoop (fun _ z => z) 1 0 y.shared 0).state,
            caller := y.caller,
            decisions := y.decisions } = some z2 ∧ (z2.caller 1).loc = Loc.ready2) ∧
      (superviseLoop (fun _ z => z) 101 0 y.shared 0).ended = true ∧
      (superviseLoop (fun _ z => z) 101 0 y.shared 0).premature = true ∧
      (superviseLoop (fun _ z => z) 101 0 y.shared 0).iterations = 101 := by
  obtain ⟨y, hy, hf⟩ := run_map_some exampleArgs leaveTrace (startedSys 3)
    (fun y => (((y.caller 0).loc, (y.caller 1).loc, (y.caller 2).loc),
      (y.shared.no_bg, y.shared.numthreads, y.shared.ok2, spin2 y.shared)))
    ((Loc.wait2, Loc.wait2, Loc.stopped), (false, 2, false, true)) (by decide)
  simp only [Prod.mk.injEq] at hf
  obtain ⟨⟨h1, h2, h3⟩, h4, h5, h6, h7⟩ := hf
  obtain ⟨_, ⟨r1, r2, r3, _, _⟩, hrel⟩ :=
    (escape_needs_leave exampleArgs (fun _ z => z) y.shared h4).1 h5 (fun _ _ h => h)
  obtain ⟨_, _, hz⟩ := hrel 1 (le_refl 1) (by decide)
  exact ⟨y, hy, h1, h2, h3, h4, h5, h6,
    step_see2_blocked exampleArgs 0 y h7, step_see2_blocked exampleArgs 1 y h7,
    (hz { shared := (superviseLoop (fun _ z => z) 1 0 y.shared 0).state,
          caller := y.caller,
          decisions := y.decisions } rfl 0).2 h1,
    (hz { shared := (superviseLoop (fun _ z => z) 1 0 y.shared 0).state,
          caller := y.caller,
          decisions := y.decisions } rfl 1).2 h2,
    r1, r2, r3⟩

/-- Claim C15 fails as stated.  Three participants have started and participant 3 has
left, so `no_bg` is false, `numthreads` is 2 and both flags are false.  The very first
iteration of the supervising loop (`i = 0`) sets `ok1` and `ok2` to true and goes on. -/
theorem supervise_first_iteration_counterexample :
    (runCalls (startedSys 3).shared [(true, 3)]).no_bg = false ∧
    (runCalls (startedSys 3).shared [(true, 3)]).numthreads = 2 ∧
    (runCalls (startedSys 3).shared [(true, 3)]).ok1 = false ∧
    (runCalls (startedSys 3).shared [(true, 3)]).ok2 = false ∧
    (superviseIter (runCalls (startedSys 3).shared [(true, 3)]) 0).state.ok1 = true ∧
    (superviseIter (runCalls (startedSys 3).shared [(true, 3)]) 0).state.ok2 = true ∧
    (superviseIter (runCalls (startedSys 3).shared [(true, 3)]) 0).i = 1 ∧
    (superviseIter (runCalls (startedSys 3).shared [(true, 3)]) 0).stop = false := by
  decide

/-- Claim C15, as amended.  One iteration of the supervising loop with counter `i`:
if `no_bg` is false and `1 < numthreads < 3`, it sets `ok1` and `ok2` to true at once
(changing nothing else), counts the iteration, and leaves the loop with the
premature-end warning exactly when the new count exceeds 100; if `no_bg` is false and
the test on `numthreads` fails, it changes nothing and goes on; if `no_bg` is true it
changes nothing and leaves the loop. -/
theorem supervise_forces_at_once (s : State) (i : Int) :
    (s.no_bg = false → s.numthreads < 3 ∧ s.numthreads > 1 →
      (superviseIter s i).state = { s with ok1 := true, ok2 := true } ∧
      (superviseIter s i).i = i + 1 ∧
      ((superviseIter s i).stop = true ↔ 100 < i + 1) ∧
      (superviseIter s i).premature = (superviseIter s i).stop ∧
      ((superviseIter s i).warned = true ↔ i = 0)) ∧
    (s.no_bg = false → ¬ (s.numthreads < 3 ∧ s.numthreads > 1) →
      (superviseIter s i).state = s ∧ (superviseIter s i).i = i ∧
      (superviseIter s i).stop = false) ∧
    (s.no_bg = true →
      (superviseIter s i).state = s ∧ (superviseIter s i).i = i ∧
      (superviseIter s i).stop = true ∧ (superviseIter s i).premature = false) := by
  refine ⟨?_, ?_, ?_⟩
  · intro h0 hc
    have h2 : s.numthreads = 2 := by omega
    rw [superviseIter_escape s i h0 h2]
    refine ⟨rfl, rfl, ?_, rfl, ?_⟩
    · simp
    · simp
  · intro h0 hc
    rw [superviseIter_quiet s i h0 hc]
    exact ⟨rfl, rfl, rfl⟩
  · intro h0
    simp [superviseIter, h0]

/-- Witness of `supervise_forces_at_once`: the hundredth counted iteration still goes on,
the next one leaves the loop. -/
theorem supervise_forces_at_once_witness :
    (superviseIter (runCalls (startedSys 3).shared [(true, 3)]) 99).stop = false ∧
    (superviseIter (runCalls (startedSys 3).shared [(true, 3)]) 100).stop = true ∧
    (superviseIter (runCalls (startedSys 3).shared [(true, 3)]) 100).state.ok1 = true := by
  obtain ⟨_, _, h3, _, _⟩ :=
    (supervise_forces_at_once (runCalls (startedSys 3).shared [(true, 3)]) 99).1
      (by decide) (by decide)
  obtain ⟨g1, _, g3, _, _⟩ :=
    (supervise_forces_at_once (runCalls (startedSys 3).shared [(true, 3)]) 100).1
      (by decide) (by decide)
  refine ⟨?_, g3.mpr (by decide), ?_⟩
  · cases hb : (superviseIter (runCalls (startedSys 3).shared [(true, 3)]) 99).stop
    · rfl
    · exact absurd (h3.mp hb) (by decide)
  · rw [g1]

/-! ## `AlmostEqualUlps` (C14, C16) -/

/-- The difference of the two reordered patterns, as `AlmostEqualUlps` forms it before
the comparison with `maxUlps`. -/
theorem almostEqualUlps_of_diff (A B : Nat) (maxUlps v : Int) (hd : doubleEq A B = false)
    (h1 : 0 < maxUlps) (h2 : maxUlps < 4 * 1024 * 1024)
    (hv : llabs (wrap64
      ((if toInt64 A < 0 then wrap64 (int64_min - toInt64 A) else toInt64 A)
        - (if toInt64 B < 0 then wrap64 (int64_min - toInt64 B) else toInt64 B))) = v) :
    AlmostEqualUlps A B maxUlps = some (decide (v ≤ maxUlps)) := by
  have hg : ¬ ¬ (maxUlps > 0 ∧ maxUlps < 4 * 1024 * 1024) := not_not.mpr ⟨h1, h2⟩
  unfold AlmostEqualUlps
  rw [hd]
  simp only [Bool.false_eq_true, if_false, if_neg hg]
  rw [hv]
  by_cases h : v ≤ maxUlps
  · simp [h]
  · simp [h]

/-- Claim C14 fails on the code.  The doubles 2.0 (pattern `0x4000000000000000`) and
-2.0 (pattern `0xC000000000000000`) are finite and lie `2^63` positions apart, yet for
every admissible `maxUlps` the function answers true: the difference `2^63` wraps to
`-2^63` in `int64_t`, `llabs` leaves it there, and `-2^63 <= maxUlps` holds. -/
theorem ulps_opposite_sign_equal :
    isFinite 0x4000000000000000 = true ∧ isFinite 0xC000000000000000 = true ∧
    ordOf 0x4000000000000000 - ordOf 0xC000000000000000 = 9223372036854775808 ∧
    ∀ maxUlps : Int, 0 < maxUlps → maxUlps < 4 * 1024 * 1024 →
      AlmostEqualUlps 0x4000000000000000 0xC000000000000000 maxUlps = some true := by
  refine ⟨by decide, by decide, by decide, ?_⟩
  intro m h1 h2
  rw [almostEqualUlps_of_diff 0x4000000000000000 0xC000000000000000 m
    (-9223372036854775808) (by decide) h1 h2 (by decide)]
  have : (-9223372036854775808 : Int) ≤ m := by omega
  simp [this]

/-- Claim C16 fails on the code.  The default quiet NaN (pattern `0x7FF8000000000000`)
is not `==` to itself, but its reordered pattern differs from itself by 0, so for every
admissible `maxUlps` the function answers true for the NaN and itself.  (It also answers
true for the NaN and the negative subnormal `0x8008000000000000`, which lies `2^63`
positions away: there the difference wraps to `-2^63`.) -/
theorem nan_equals_itself :
    isNaN 0x7FF8000000000000 = true ∧
    doubleEq 0x7FF8000000000000 0x7FF8000000000000 = false ∧
    (∀ maxUlps : Int, 0 < maxUlps → maxUlps < 4 * 1024 * 1024 →
      AlmostEqualUlps 0x7FF8000000000000 0x7FF8000000000000 maxUlps = some true) ∧
    (∀ maxUlps : Int, 0 < maxUlps → maxUlps < 4 * 1024 * 1024 →
      AlmostEqualUlps 0x7FF8000000000000 0x8008000000000000 maxUlps = some true) := by
  refine ⟨by decide, by decide, ?_, ?_⟩
  · intro m h1 h2
    rw [almostEqualUlps_of_diff 0x7FF8000000000000 0x7FF8000000000000 m 0 (by decide) h1 h2
      (by decide)]
    have : (0 : Int) ≤ m := by omega
    simp [this]
  · intro m h1 h2
    rw [almostEqualUlps_of_diff 0x7FF8000000000000 0x8008000000000000 m
      (-9223372036854775808) (by decide) h1 h2 (by decide)]
    have : (-9223372036854775808 : Int) ≤ m := by omega
    simp [this]

theorem int64_min_eq : int64_min = -9223372036854775808 := by decide

theorem ordOf_eq_of_doubleEq (A B : Nat) (hA : A < 18446744073709551616)
    (hB : B < 18446744073709551616) (hd : doubleEq A B = true) : ordOf A = ordOf B := by
  unfold doubleEq at hd
  simp only [Bool.and_eq_true, Bool.or_eq_true, decide_eq_true_eq] at hd
  obtain ⟨_, h⟩ := hd
  rcases h with h | ⟨h1, h2⟩
  · rw [h]
  · unfold ordOf
    split_ifs <;> omega

/-- Away from the distance `2^63`, `AlmostEqualUlps` on finite doubles does compare the
distance of the positions with `maxUlps`: the wrap-around at `2^63` is the only place
where it departs from that. -/
theorem almostEqualUlps_finite (A B : Nat) (m : Int) (hA : A < 18446744073709551616)
    (hB : B < 18446744073709551616) (fA : isFinite A = true) (fB : isFinite B = true)
    (h1 : 0 < m) (h2 : m < 4 * 1024 * 1024)
    (hne : ordOf A - ordOf B ≠ 9223372036854775808 ∧
      ordOf B - ordOf A ≠ 9223372036854775808) :
    AlmostEqualUlps A B m = some true ↔
      (-m ≤ ordOf A - ordOf B ∧ ordOf A - ordOf B ≤ m) := by
  by_cases hd : doubleEq A B = true
  · have he := ordOf_eq_of_doubleEq A B hA hB hd
    have : AlmostEqualUlps A B m = some true := by simp [AlmostEqualUlps, hd]
    rw [this, he]
    simp only [true_iff]
    omega
  · simp only [Bool.not_eq_true] at hd
    rw [almostEqualUlps_of_diff A B m _ hd h1 h2 rfl]
    simp only [Option.some.injEq, decide_eq_true_eq]
    unfold isFinite at fA fB
    simp only [decide_eq_true_eq] at fA fB
    rw [int64_min_eq]
    unfold llabs toInt64 ordOf at *
    unfold wrap64 at *
    split_ifs <;> omega

/-- The default NaN is told apart from every pattern that is not itself a NaN, with the
one exception of the negative subnormal `0x8008000000000000`. -/
theorem nan_differs_from_numbers (B : Nat) (m : Int) (hB : B < 18446744073709551616)
    (hn : isNaN B = false) (hx : B ≠ 0x8008000000000000)
    (h1 : 0 < m) (h2 : m < 4 * 1024 * 1024) :
    AlmostEqualUlps 0x7FF8000000000000 B m = some false := by
  have hd : doubleEq 0x7FF8000000000000 B = false := by
    unfold doubleEq
    have : isNaN 0x7FF8000000000000 = true := by decide
    simp [this]
  rw [almostEqualUlps_of_diff 0x7FF8000000000000 B m _ hd h1 h2 rfl]
  simp only [Option.some.injEq, decide_eq_false_iff_not]
  unfold isNaN at hn
  simp only [Bool.and_eq_false_imp, decide_eq_true_eq, decide_eq_false_iff_not,
    ne_eq, not_not] at hn
  have hA : toInt64 0x7FF8000000000000 = 9221120237041090560 := by decide
  rw [int64_min_eq, hA]
  unfold llabs toInt64 at *
  unfold wrap64 at *
  split_ifs <;> omega

end NgParallel
